import Mathlib

/-!
# Advent of Code 2024: the three-register machine of day 17 and its searches

A shallow embedding of `day17/main2.go`, `day17/main2.2_copy.go` and
`day17/main3.go`, followed by `makeStep` of `day11/main2.go` and by `BFS` and the loop of
`main` of `day21/main1.go`.

* A Go `int` is a mathematical integer, and the operations that can leave the 64 bits of
  a Go int wrap explicitly: the doubling of `denom` and `1 << operandValue` in the
  interpreter, `startA + blockSize - 1`, `A++` and `A += blockSize` in main3.go, the product
  `num * 2024` of `makeStep` and the complexity of day 21. The loops over the candidates in
  main2.go and main2.2_copy.go run over fixed ranges far below `2 ^ 63`.
* A Go `string` is the list of its bytes, each a character below 256.
* A Go map is the list of its entries; a `range` loop visits them in the order of the
  list.
* A goroutine is not modelled as such: `worker` is the function with `done` never ready,
  and the main goroutine of `parallelSearch` takes what it observes at its blocking points
  from a schedule, which is arbitrary.
* `executeProgram` may loop forever (a `jnz` can jump backwards), so the main
  loop takes a bound on the number of iterations: `none` means that the bound
  was reached, `some r` that the call ended with `r`.
* Indexing a slice outside its bounds, and shifting by a negative count, are
  run-time panics; they are a result of their own.
-/

namespace Day17

/-- A Go string, as the sequence of its bytes; a byte is a character below 256. -/
abbrev GoString := List Char

/-- Two's-complement wrap-around of a Go `int` (64 bits). -/
def wrap64 (x : Int) : Int := (x + 2 ^ 63) % 2 ^ 64 - 2 ^ 63

/-- Outcome of a Go call: a returned value or a run-time panic. -/
inductive Res (α : Type) where
  | ok (v : α)
  | panic
deriving DecidableEq

/-! ## strconv.Itoa and strings.Join -/

/-- The character of one decimal digit. -/
def digitChar (d : Nat) : Char := Char.ofNat (48 + d)

/-- Decimal digits of `n`, most significant first, in front of `acc`;
the first argument bounds the number of digits. -/
def natDigits : Nat → Nat → List Char → List Char
  | 0, _, acc => acc
  | fuel + 1, n, acc =>
    if n / 10 = 0 then digitChar (n % 10) :: acc
    else natDigits fuel (n / 10) (digitChar (n % 10) :: acc)

/-- Decimal representation of a natural number. -/
def natRepr (n : Nat) : List Char := natDigits (n + 1) n []

/-- The function `strconv.Itoa`: decimal digits, after a minus sign for a negative number. -/
def Itoa (v : Int) : GoString :=
  if v < 0 then '-' :: natRepr v.natAbs else natRepr v.natAbs

/-- The function `strings.Join`. -/
def Join : List GoString → GoString → GoString
  | [], _ => []
  | [a], _ => a
  | a :: b :: rest, sep => a ++ sep ++ Join (b :: rest) sep

/-- The loop `for _, v := range xs { strs = append(strs, strconv.Itoa(v)) }` followed by
`strings.Join(strs, ",")`: used for the outputs and for the target of the searches. -/
def joinInts (xs : List Int) : GoString := Join (xs.map Itoa) [',']

/-- The number a string of decimal digits denotes. -/
def digitsValue (l : List Char) : Nat := l.foldl (fun v c => 10 * v + (c.toNat - 48)) 0

/-! ## The interpreter -/

/-- Local variables of `executeProgram`. -/
structure State where
  A : Int
  B : Int
  C : Int
  IP : Int
  outputs : List Int
deriving DecidableEq

/-- The map `operandTypes`; `none` is a missing key. -/
def operandTypes (opcode : Int) : Option String :=
  if opcode = 0 then some "combo"
  else if opcode = 1 then some "literal"
  else if opcode = 2 then some "combo"
  else if opcode = 3 then some "literal"
  else if opcode = 4 then some "ignored"
  else if opcode = 5 then some "combo"
  else if opcode = 6 then some "combo"
  else if opcode = 7 then some "combo"
  else none

/-- Slice indexing `program[i]`; `none` is the index-out-of-range panic. -/
def index (program : List Int) (i : Int) : Option Int :=
  if i < 0 then none else program.get? i.toNat

/-- The `switch otype` of `executeProgram`: the value of `operandValue`, or `none`
when `validOperand` is set to false. -/
def resolveOperand (otype : String) (operand : Int) (s : State) : Option Int :=
  if otype = "literal" then some operand
  else if otype = "combo" then
    if 0 ≤ operand ∧ operand ≤ 3 then some operand
    else if operand = 4 then some s.A
    else if operand = 5 then some s.B
    else if operand = 6 then some s.C
    else none
  else if otype = "ignored" then some 0
  else none

/-- The loop `for i := 0; i < operandValue; i++ { denom *= 2 }` run for `n` iterations. -/
def denomLoop : Nat → Int → Int
  | 0, denom => denom
  | n + 1, denom => denomLoop n (wrap64 (denom * 2))

/-- The divisor of `main2.go` and `main3.go`: `denom := 1` doubled `operandValue` times. -/
def loopDenom (operandValue : Int) : Res Int := .ok (denomLoop operandValue.toNat 1)

/-- The divisor of `main2.2_copy.go`: `denom := 1 << operandValue`. A negative shift
count panics, a count of 64 or more gives 0. -/
def shiftDenom (operandValue : Int) : Res Int :=
  if operandValue < 0 then .panic
  else if 64 ≤ operandValue then .ok 0
  else .ok (wrap64 (2 ^ operandValue.toNat))

/-- What one iteration of the main loop does. -/
inductive Step where
  /-- The body ran to its end: back to the loop head. -/
  | next (s : State)
  /-- The loop is left, at its head or by `break`. -/
  | done (s : State)
  /-- The statement `return ""`. -/
  | fail
  /-- A run-time panic. -/
  | panic
deriving DecidableEq

/-- The `switch opcode` of `executeProgram`; `denomOf` computes the divisor of the
three division instructions. -/
def dispatch (denomOf : Int → Res Int) (opcode : Int) (otype : String)
    (operandValue : Int) (s : State) : Step :=
  if opcode = 0 then
    match denomOf operandValue with
    | .panic => .panic
    | .ok denom =>
      if denom = 0 then .fail
      else .next { s with A := Int.tdiv s.A denom, IP := s.IP + 2 }
  else if opcode = 1 then
    if otype ≠ "literal" then .fail
    else .next { s with B := Int.xor s.B operandValue, IP := s.IP + 2 }
  else if opcode = 2 then
    if otype ≠ "combo" then .fail
    else .next { s with B := Int.tmod operandValue 8, IP := s.IP + 2 }
  else if opcode = 3 then
    if otype ≠ "literal" then .fail
    else if s.A ≠ 0 then .next { s with IP := operandValue }
    else .next { s with IP := s.IP + 2 }
  else if opcode = 4 then
    .next { s with B := Int.xor s.B s.C, IP := s.IP + 2 }
  else if opcode = 5 then
    if otype ≠ "combo" then .fail
    else .next { s with outputs := s.outputs ++ [Int.tmod operandValue 8], IP := s.IP + 2 }
  else if opcode = 6 then
    match denomOf operandValue with
    | .panic => .panic
    | .ok denom =>
      if denom = 0 then .fail
      else .next { s with B := Int.tdiv s.A denom, IP := s.IP + 2 }
  else if opcode = 7 then
    match denomOf operandValue with
    | .panic => .panic
    | .ok denom =>
      if denom = 0 then .fail
      else .next { s with C := Int.tdiv s.A denom, IP := s.IP + 2 }
  else .fail

/-- One iteration of `for IP < len(program) { ... }`, from the test of the loop
condition to the end of the body. -/
def step (denomOf : Int → Res Int) (program : List Int) (s : State) : Step :=
  if ¬ (s.IP < program.length) then .done s
  else if s.IP + 1 ≥ program.length then .done s
  else
    match index program s.IP, index program (s.IP + 1) with
    | some opcode, some operand =>
      match operandTypes opcode with
      | none => .done s
      | some otype =>
        match resolveOperand otype operand s with
        | none => .fail
        | some operandValue => dispatch denomOf opcode otype operandValue s
    | _, _ => .panic

/-- How a call of `executeProgram` ends. -/
inductive Outcome where
  /-- The loop was left; the outputs are joined and returned. -/
  | halted (outputs : List Int)
  /-- One of the `return ""` statements inside the loop. -/
  | failed
  /-- A run-time panic. -/
  | panicked
deriving DecidableEq

/-- The main loop, for at most `fuel` iterations. -/
def run (denomOf : Int → Res Int) (program : List Int) : Nat → State → Option Outcome
  | 0, _ => none
  | fuel + 1, s =>
    match step denomOf program s with
    | .next s1 => run denomOf program fuel s1
    | .done s1 => some (.halted s1.outputs)
    | .fail => some .failed
    | .panic => some .panicked

/-- The value a call returns. -/
def Outcome.result : Outcome → Res GoString
  | .halted outputs => .ok (joinInts outputs)
  | .failed => .ok []
  | .panicked => .panic

/-- The state at the entry of `executeProgram`. -/
def initState (AInit BInit CInit : Int) : State := ⟨AInit, BInit, CInit, 0, []⟩

/-- The way a call `executeProgram(AInit, BInit, CInit, program)` ends. -/
def execute (denomOf : Int → Res Int) (fuel : Nat) (AInit BInit CInit : Int)
    (program : List Int) : Option Outcome :=
  run denomOf program fuel (initState AInit BInit CInit)

/-- The function `executeProgram` with the divisor left open. -/
def executeProgramWith (denomOf : Int → Res Int) (fuel : Nat) (AInit BInit CInit : Int)
    (program : List Int) : Option (Res GoString) :=
  (execute denomOf fuel AInit BInit CInit program).map Outcome.result

/-- The block that the cases 0, 6 and 7 of the `switch opcode` share: the divisor is
computed, `return ""` when it is 0, else `store denom` is the state after the division. -/
def divStep (denomOf : Int → Res Int) (operandValue : Int) (store : Int → State) : Step :=
  match denomOf operandValue with
  | .panic => .panic
  | .ok denom => if denom = 0 then .fail else .next (store denom)

/-- The registers are non-negative, `A` fits a Go int and every output is in `0..7`. -/
def Inv (s : State) : Prop :=
  0 ≤ s.A ∧ s.A < 2 ^ 63 ∧ 0 ≤ s.B ∧ 0 ≤ s.C ∧ ∀ x ∈ s.outputs, 0 ≤ x ∧ x ≤ 7

/-- The states at the loop head: `stateAfter n s` is the state after `n` full iterations
from `s`, when none of them left the loop. -/
def stateAfter (denomOf : Int → Res Int) (program : List Int) : Nat → State → Option State
  | 0, s => some s
  | n + 1, s =>
    match step denomOf program s with
    | .next s1 => stateAfter denomOf program n s1
    | _ => none

/-! ## The searches -/

/-- A concrete input for the searches: the digit loop `adv 3; out A; jnz 0` of the fixture
`[0, 3, 5, 4, 3, 0]` followed by two instructions without output and a trailing element. -/
def digitLoopProgram : List Int := [0, 3, 5, 4, 3, 0, 2, 1, 6, 1, 0]

/-- The loop `for A := first; A <= last; A++` of the searches, with `n` candidates left
and `A` the next one: the first candidate whose output is the target is returned, and
`-1` after the last candidate. `exec A` is the call `executeProgram(A, B, C, program)`. -/
def scanLoop (exec : Int → Option (Res GoString)) (target : GoString) :
    Nat → Int → Option (Res Int)
  | 0, _ => some (.ok (-1))
  | n + 1, A =>
    match exec A with
    | none => none
    | some .panic => some .panic
    | some (.ok out) =>
      if out = target then some (.ok A) else scanLoop exec target n (A + 1)

/-- How the coarse loop of the improved search ends. -/
inductive Coarse where
  /-- The statement `return A` on an exact match. -/
  | found (A : Int)
  /-- The `break` with `foundRange = true` and `lastA = A`. -/
  | range (lastA : Int)
  /-- The loop ran to its end, `foundRange` is false. -/
  | noRange
deriving DecidableEq

/-- The loop `for A := 0; A <= 1000000; A += step` of the improved search, with `n`
candidates left and `A` the next one. -/
def coarseLoop (exec : Int → Option (Res GoString)) (target : GoString) (targetLength : Int)
    (step : Int) : Nat → Int → Option (Res Coarse)
  | 0, _ => some (.ok .noRange)
  | n + 1, A =>
    match exec A with
    | none => none
    | some .panic => some .panic
    | some (.ok out) =>
      let olen : Int := if out ≠ [] then ((out.splitOn ',').length : Int) else 0
      if out = target then some (.ok (.found A))
      else if olen ≥ targetLength then some (.ok (.range A))
      else coarseLoop exec target targetLength step n (A + step)

/-- What a call of `worker` did: the candidates it passed to `executeProgram`, in the order
of the calls, and the value it sent on `results`, if any. -/
structure WorkerRun where
  tested : List Int
  sent : Option Int
deriving DecidableEq

/-- The loop `for A := startA; A <= endA; A++` of `worker` while the channel `done` is not
ready, so that each `select` takes its `default` branch: `A` is the next candidate, `tested`
are the candidates tested so far, and the first argument bounds the number of tests of the
loop condition (`none` when the bound is reached). `A++` wraps around to 64 bits, so that
with `endA` the largest Go int the condition never fails. On a match `results <- A` is
recorded and the function returns. -/
def workerLoop (exec : Int → Option (Res GoString)) (target : GoString) (endA : Int) :
    Nat → Int → List Int → Option (Res WorkerRun)
  | 0, _, _ => none
  | n + 1, A, tested =>
    if A ≤ endA then
      match exec A with
      | none => none
      | some .panic => some .panic
      | some (.ok out) =>
        if out = target then some (.ok ⟨tested ++ [A], some A⟩)
        else workerLoop exec target endA n (wrap64 (A + 1)) (tested ++ [A])
    else some (.ok ⟨tested, none⟩)

/-- The dispatch loop of `parallelSearch` while `done` is not closed: `n` turns of the
`default` branch `jobs <- A; A += blockSize`, from the variable `A` and the values `jobs`
sent so far; the sum wraps around to 64 bits. The result is the variable `A` and the values
sent on `jobs`, in order. -/
def dispatchLoop (blockSize : Int) : Nat → Int → List Int → Int × List Int
  | 0, A, jobs => (A, jobs)
  | n + 1, A, jobs => dispatchLoop blockSize n (wrap64 (A + blockSize)) (jobs ++ [A])

/-- What the main goroutine of `parallelSearch` meets at the points where the other
goroutines and the scheduler decide how it goes on. -/
structure Schedule where
  /-- Whether the `select` of turn `i` of the dispatch loop finds `done` closed. -/
  doneClosed : Nat → Bool
  /-- Whether the send `jobs <- A` of turn `i` completes; a send on a full channel from
  which no goroutine receives blocks for ever. -/
  sendCompletes : Nat → Bool
  /-- Whether `wg.Wait()` returns. -/
  waitReturns : Bool

/-- The loop `for { select { case <-done: ...; default: ... } }` of `parallelSearch`, from
turn `i` with the variable `A`, for at most `fuel` turns: `some v` is the statement
`return v`, and `none` says that the call has not returned, because it is blocked for ever
or because the bound is reached. -/
def parallelSearchLoop (sch : Schedule) (blockSize : Int) : Nat → Nat → Int → Option Int
  | 0, _, _ => none
  | fuel + 1, i, A =>
    if sch.doneClosed i then
      if sch.waitReturns then some (-1) else none
    else if sch.sendCompletes i then
      parallelSearchLoop sch blockSize fuel (i + 1) (wrap64 (A + blockSize))
    else none

end Day17

namespace Main2

open Day17

/-- The function `executeProgram` of `day17/main2.go`. -/
def executeProgram (fuel : Nat) (AInit BInit CInit : Int) (program : List Int) :
    Option (Res GoString) :=
  executeProgramWith loopDenom fuel AInit BInit CInit program

/-- The function `findMinimumAForSelfReplicatingProgram` of `day17/main2.go`; `fuel` bounds
the iterations of each interpreter run. -/
def findMinimumAForSelfReplicatingProgram (fuel : Nat) (program : List Int) :
    Option (Res Int) :=
  let B : Int := 0
  let C : Int := 0
  let minA : Int := 1900000000
  let maxA : Int := 10000000000000
  let targetOutput := joinInts program
  scanLoop (fun A => executeProgram fuel A B C program) targetOutput
    (maxA - minA + 1).toNat minA

/-- The variable `program` of `main` in `day17/main2.go`. -/
def mainProgram : List Int := [2, 4, 1, 5, 7, 5, 1, 6, 0, 3, 4, 2, 5, 5, 3, 0]

end Main2

namespace Main2Copy

open Day17

/-- The function `executeProgram` of `day17/main2.2_copy.go`. -/
def executeProgram (fuel : Nat) (AInit BInit CInit : Int) (program : List Int) :
    Option (Res GoString) :=
  executeProgramWith shiftDenom fuel AInit BInit CInit program

/-- The function `findMinimumAForSelfReplicatingProgramImproved` of
`day17/main2.2_copy.go`; `fuel` bounds the iterations of each interpreter run. -/
def findMinimumAForSelfReplicatingProgramImproved (fuel : Nat) (program : List Int) :
    Option (Res Int) :=
  let targetOutput := joinInts program
  let targetLength : Int := program.length
  let B : Int := 0
  let C : Int := 0
  let step : Int := 100
  match coarseLoop (fun A => executeProgram fuel A B C program) targetOutput targetLength
      step 10001 0 with
  | none => none
  | some .panic => some .panic
  | some (.ok (.found A)) => some (.ok A)
  | some (.ok .noRange) => some (.ok (-1))
  | some (.ok (.range lastA)) =>
    let startA : Int := if lastA - step < 1 then 1 else lastA - step
    scanLoop (fun A => executeProgram fuel A B C program) targetOutput
      (lastA - startA + 1).toNat startA

/-- The variable `program` of `main` in `day17/main2.2_copy.go`. -/
def mainProgram : List Int := [0, 3, 5, 4, 3, 0]

end Main2Copy

namespace Main3

open Day17

/-- The function `executeProgram` of `day17/main3.go`. -/
def executeProgram (fuel : Nat) (AInit BInit CInit : Int) (program : List Int) :
    Option (Res GoString) :=
  executeProgramWith loopDenom fuel AInit BInit CInit program

/-- The function `worker` of `day17/main3.go` with the channel `done` never ready; `fuel`
bounds the iterations of each interpreter run and `turns` the tests of the condition of the
loop over the candidates. The sum `startA + blockSize - 1` wraps around to 64 bits. -/
def worker (fuel turns : Nat) (program : List Int) (targetOutput : GoString)
    (startA blockSize : Int) : Option (Res WorkerRun) :=
  let B : Int := 0
  let C : Int := 0
  let endA : Int := wrap64 (startA + blockSize - 1)
  workerLoop (fun A => executeProgram fuel A B C program) targetOutput endA turns startA []

/-- The variable `blockSize` of `parallelSearch`. -/
def blockSize : Int := 100000

/-- The values sent on `jobs` by the first `n` turns of the dispatch loop of
`parallelSearch(program, startA)`, in order. -/
def dispatched (startA : Int) (n : Nat) : List Int :=
  (dispatchLoop blockSize n startA []).2

/-- The main goroutine of `parallelSearch(program, startA)` under the schedule `sch`, for at
most `fuel` turns of its dispatch loop: the value it returns, if it returns. The program and
the target reach the worker goroutines only (`_jobBody` is what a worker goroutine runs for a
value `startVal` received from `jobs`); the value received from `results` is printed by the
collecting goroutine and never reaches the main goroutine. -/
def parallelSearch (sch : Schedule) (fuel : Nat) (program : List Int) (startA : Int) :
    Option Int :=
  let targetOutput := joinInts program
  let blockSize : Int := 100000
  let _jobBody := fun (startVal : Int) (f t : Nat) =>
    worker f t program targetOutput startVal blockSize
  parallelSearchLoop sch blockSize fuel 0 startA

end Main3

/-! # Library functions of Go used by day11 and day21 -/

namespace GoLib

open Day17

/-- A decimal digit. -/
def isDigit (c : Char) : Bool := decide (48 ≤ c.toNat) && decide (c.toNat ≤ 57)

/-- How the digit loop of `strconv.ParseUint` ends. -/
inductive Parsed where
  /-- The string was read to its end: the number. -/
  | value (n : Nat)
  /-- A byte that is no digit: `return 0, syntaxError`. -/
  | syntaxError
  /-- The number does not fit in 64 bits: `return maxVal, rangeError`. -/
  | rangeError

/-- The loop `for _, c := range []byte(s)` of `strconv.ParseUint(s, 10, 64)`, from the bytes
still to read and the number `n` read so far. The bytes are read from left to right, and the
first byte that is no digit or makes the number pass `2 ^ 64 - 1` ends the loop. -/
def parseUintLoop : GoString → Nat → Parsed
  | [], n => .value n
  | c :: rest, n =>
    if ¬ isDigit c = true then .syntaxError
    else if 1844674407370955162 ≤ n then .rangeError
    else if 18446744073709551615 < n * 10 + (c.toNat - 48) then .rangeError
    else parseUintLoop rest (n * 10 + (c.toNat - 48))

/-- The function `strconv.Atoi` on a 64-bit platform; the second component tells whether
the error is not `nil`. An optional sign is removed; the empty string, a sign alone and a
byte that is no digit give `(0, syntax error)`, and a number outside the Go ints gives the
nearest Go int with a range error. (The fast path of `Atoi` for fewer than 19 bytes gives
the same results as `ParseInt`.) -/
def Atoi (s : GoString) : Int × Bool :=
  match s with
  | [] => (0, true)
  | c :: rest =>
    let neg : Bool := decide (c = '-')
    let ds : GoString := if c = '+' ∨ c = '-' then rest else c :: rest
    if ds = [] then (0, true)
    else
      match parseUintLoop ds 0 with
      | .syntaxError => (0, true)
      | .rangeError => if neg = true then (-(2 ^ 63), true) else (2 ^ 63 - 1, true)
      | .value un =>
        if neg = false ∧ 2 ^ 63 ≤ (un : Int) then (2 ^ 63 - 1, true)
        else if neg = true ∧ 2 ^ 63 < (un : Int) then (-(2 ^ 63), true)
        else if neg = true then (-(un : Int), false)
        else ((un : Int), false)

/-- The function `strings.TrimLeft`. -/
def TrimLeft (s cutset : GoString) : GoString := s.dropWhile (fun c => decide (c ∈ cutset))

end GoLib

/-! # Day 11: one stone, one blink (`day11/main2.go`) -/

namespace Day11

open Day17 GoLib

/-- The function `makeStep`; the result `(int, *int)` is a pair whose second component is
`none` for `nil`. The errors of `Atoi` are discarded, and the product `num * 2024` is a Go
`int`: it wraps around. -/
def makeStep (num : Int) : Int × Option Int :=
  let s := Itoa num
  if num = 0 then (1, none)
  else if s.length % 2 = 0 then
    let half := s.length / 2
    let leftPart := (Atoi (s.take half)).1
    let rightPart := (Atoi (s.drop half)).1
    (leftPart, some rightPart)
  else
    let res := wrap64 (num * 2024)
    (res, none)

end Day11

/-! # Day 21: the keypad search (`day21/main1.go`) -/

namespace Day21

open Day17 GoLib

/-- The type `KeypadAdjacency`, a `map[string]map[string]string`, as the list of its entries;
the entries of an inner map stand in the order in which a `range` loop visits them. -/
abbrev KeypadAdjacency := List (GoString × List (GoString × GoString))

/-- The struct `State`. -/
structure State where
  button : GoString
  index : Int
deriving DecidableEq

/-- The key `fmt.Sprintf("%s,%d", button, index)` of the map `visited`. -/
def stateKey (button : GoString) (index : Int) : GoString := button ++ [','] ++ Itoa index

/-- The map access `adjacency[button]`; a missing key gives the map without entries. -/
def neighbours : KeypadAdjacency → GoString → List (GoString × GoString)
  | [], _ => []
  | (b, moves) :: rest, button => if b = button then moves else neighbours rest button

/-- The conversion `string(b)` of a byte `b`: the UTF-8 encoding of the code point `b`, one
byte below 128 and two bytes from 128 on. -/
def byteToString (b : Char) : GoString :=
  if b.toNat < 128 then [b]
  else [Char.ofNat (192 + b.toNat / 64), Char.ofNat (128 + b.toNat % 64)]

/-- The byte `target[i]`; `none` is the index-out-of-range panic. -/
def byteAt (target : GoString) (i : Int) : Option Char :=
  if i < 0 then none else target.get? i.toNat

/-- The loop `for moveCmd, neighbor := range adjacency[current.button]`, from the entries
still to visit, the queue and the keys of `visited`. The body does not use the key
`moveCmd` of an entry: the definition is the loop with `_` in its place, as the Go compiler
rejects a variable that is declared and not used. -/
def explore (index : Int) :
    List (GoString × GoString) → List State → List GoString → List State × List GoString
  | [], queue, visited => (queue, visited)
  | (_, neighbor) :: rest, queue, visited =>
    if neighbor = [] ∨ neighbor = "None".toList then explore index rest queue visited
    else if stateKey neighbor index ∈ visited then explore index rest queue visited
    else explore index rest (queue ++ [⟨neighbor, index⟩]) (stateKey neighbor index :: visited)

/-- The attempt to press the current button: the last `if` of the loop body. -/
def press (target : GoString) (current : State) (queue : List State)
    (visited : List GoString) : Res (List State × List GoString) :=
  if current.index < target.length then
    match byteAt target current.index with
    | none => .panic
    | some c =>
      if current.button = byteToString c then
        if stateKey current.button (current.index + 1) ∈ visited then .ok (queue, visited)
        else .ok (queue ++ [⟨current.button, current.index + 1⟩],
          stateKey current.button (current.index + 1) :: visited)
      else .ok (queue, visited)
  else .ok (queue, visited)

/-- How the inner loop `for i := 0; i < levelSize; i++` ends. -/
inductive Level where
  /-- The statement `return steps`. -/
  | returned (steps : Int)
  /-- The loop ran to its end. -/
  | next (queue : List State) (visited : List GoString)
  /-- A run-time panic. -/
  | panic

/-- The inner loop of `BFS` with `n` iterations to go. -/
def level (target : GoString) (adjacency : KeypadAdjacency) (steps : Int) :
    Nat → List State → List GoString → Level
  | 0, queue, visited => .next queue visited
  | _ + 1, [], _ => .panic
  | n + 1, current :: queue, visited =>
    if current.index = target.length then .returned steps
    else
      match press target current
        (explore current.index (neighbours adjacency current.button) queue visited).1
        (explore current.index (neighbours adjacency current.button) queue visited).2 with
      | .panic => .panic
      | .ok (queue2, visited2) => level target adjacency steps n queue2 visited2

/-- The outer loop `for len(queue) > 0` of `BFS`, for at most `fuel` iterations, and the
final `return -1`. -/
def bfsLoop (target : GoString) (adjacency : KeypadAdjacency) :
    Nat → List State → Int → List GoString → Option (Res Int)
  | 0, _, _, _ => none
  | fuel + 1, queue, steps, visited =>
    if queue.length > 0 then
      match level target adjacency steps queue.length queue visited with
      | .returned r => some (.ok r)
      | .panic => some .panic
      | .next queue1 visited1 => bfsLoop target adjacency fuel queue1 (steps + 1) visited1
    else some (.ok (-1))

/-- The function `BFS`; `none` when the bound on the iterations of the outer loop is
reached. -/
def BFS (fuel : Nat) (start target : GoString) (adjacency : KeypadAdjacency) :
    Option (Res Int) :=
  bfsLoop target adjacency fuel [⟨start, 0⟩] 0 [stateKey start 0]

/-- One entry of a keypad map: the button and its neighbours up, down, left and right. -/
def keypadEntry (button up down left right : String) :
    GoString × List (GoString × GoString) :=
  (button.toList, [("^".toList, up.toList), ("v".toList, down.toList),
    ("<".toList, left.toList), (">".toList, right.toList)])

/-- The map `numericKeypadAdjacency` of `main`. -/
def numericKeypadAdjacency : KeypadAdjacency :=
  [keypadEntry "7" "None" "4" "None" "8",
   keypadEntry "8" "None" "5" "7" "9",
   keypadEntry "9" "None" "6" "8" "None",
   keypadEntry "4" "7" "1" "None" "5",
   keypadEntry "5" "8" "2" "4" "6",
   keypadEntry "6" "9" "3" "5" "None",
   keypadEntry "1" "4" "None" "None" "2",
   keypadEntry "2" "5" "None" "1" "3",
   keypadEntry "3" "6" "A" "2" "None",
   keypadEntry "0" "2" "None" "None" "A",
   keypadEntry "A" "3" "None" "0" "None"]

/-- The map `directionalKeypadAdjacency` of `main`. -/
def directionalKeypadAdjacency : KeypadAdjacency :=
  [keypadEntry "^" "None" "v" "None" "A",
   keypadEntry "v" "^" "None" "<" ">",
   keypadEntry "<" "None" "None" "None" "v",
   keypadEntry ">" "A" "None" "v" "None",
   keypadEntry "A" "None" ">" "^" "None"]

/-- The body of the loop `for _, code := range codes` of `main`: the new value of
`totalComplexity`. The slice `code[:len(code)-1]` of an empty code panics; the product and
the sum of the last step wrap around to 64 bits. -/
def processCode (fuel : Nat) (code : GoString) (totalComplexity : Int) : Option (Res Int) :=
  if code.length = 0 then some .panic
  else
    let trimmed := TrimLeft (code.take (code.length - 1)) ['0']
    let numericStr := if trimmed = [] then ['0'] else trimmed
    if (Atoi numericStr).2 then some (.ok totalComplexity)
    else
      match BFS fuel "A".toList code numericKeypadAdjacency with
      | none => none
      | some .panic => some .panic
      | some (.ok L1_steps) =>
        if L1_steps = -1 then some (.ok totalComplexity)
        else
          match BFS fuel "A".toList code directionalKeypadAdjacency with
          | none => none
          | some .panic => some .panic
          | some (.ok L2_steps) =>
            if L2_steps = -1 then some (.ok totalComplexity)
            else
              match BFS fuel "A".toList code directionalKeypadAdjacency with
              | none => none
              | some .panic => some .panic
              | some (.ok L3_steps) =>
                if L3_steps = -1 then some (.ok totalComplexity)
                else
                  let complexity := wrap64 (L3_steps * (Atoi numericStr).1)
                  some (.ok (wrap64 (totalComplexity + complexity)))

/-- The loop `for _, code := range codes` of `main`, from the codes still to process and
the value of `totalComplexity`; the result is the total that `main` prints. -/
def mainLoop (fuel : Nat) : List GoString → Int → Option (Res Int)
  | [], totalComplexity => some (.ok totalComplexity)
  | code :: rest, totalComplexity =>
    match processCode fuel code totalComplexity with
    | some (.ok total) => mainLoop fuel rest total
    | r => r

/-- The buttons that the search can come to from `start`: a move goes to a neighbour that
is neither `""` nor `"None"`. -/
inductive Reachable (adjacency : KeypadAdjacency) (start : GoString) : GoString → Prop
  | first : Reachable adjacency start start
  | move {b : GoString} {e : GoString × GoString} :
      Reachable adjacency start b → e ∈ neighbours adjacency b → e.2 ≠ [] →
        e.2 ≠ "None".toList → Reachable adjacency start e.2

/-- All values of the inner maps. -/
def allNeighbours : KeypadAdjacency → List GoString
  | [] => []
  | (_, moves) :: rest => moves.map Prod.snd ++ allNeighbours rest

/-- The keys of the states of one button with an index in `0..n`. -/
def keysOf (n : Nat) (button : GoString) : List GoString :=
  (List.range (n + 1)).map (fun (i : Nat) => stateKey button (i : Int))

/-- The keys of the states of the given buttons with an index in `0..n`. -/
def keyUniverse (n : Nat) : List GoString → List GoString
  | [] => []
  | b :: rest => keysOf n b ++ keyUniverse n rest

/-- A state of one of the given buttons with an index in `0..n`. -/
def Good (buttons : List GoString) (n : Nat) (st : State) : Prop :=
  st.button ∈ buttons ∧ 0 ≤ st.index ∧ st.index ≤ n

/-- A set `P` of states that no step of the search leaves, with keys in `V`. -/
def Closed (target : GoString) (adjacency : KeypadAdjacency) (P : State → Prop)
    (V : List GoString) : Prop :=
  (∀ st, P st → 0 ≤ st.index) ∧
  (∀ st, P st → stateKey st.button st.index ∈ V) ∧
  (∀ st, P st → ∀ e ∈ neighbours adjacency st.button, e.2 ≠ [] → e.2 ≠ "None".toList →
    P ⟨e.2, st.index⟩) ∧
  (∀ st c, P st → st.index < target.length → byteAt target st.index = some c →
    st.button = byteToString c → P ⟨st.button, st.index + 1⟩)

/-- The queue holds states of `P`, and `visited` holds keys of `V`, each once. -/
def QueueInv (P : State → Prop) (V : List GoString) (queue : List State)
    (visited : List GoString) : Prop :=
  (∀ st ∈ queue, P st) ∧ visited.Nodup ∧ ∀ k ∈ visited, k ∈ V

end Day21

namespace Day17

/-! ## Decimal rendering is injective -/

theorem digitChar_toNat {d : Nat} (h : d < 10) : (digitChar d).toNat = 48 + d := by
  interval_cases d <;> rfl

theorem digitChar_ne_comma {d : Nat} (h : d < 10) : digitChar d ≠ ',' := by
  interval_cases d <;> decide

theorem digitChar_ne_minus {d : Nat} (h : d < 10) : digitChar d ≠ '-' := by
  interval_cases d <;> decide

theorem natDigits_append (fuel n : Nat) (acc : List Char) :
    natDigits fuel n acc = natDigits fuel n [] ++ acc := by
  induction fuel generalizing n acc with
  | zero => simp [natDigits]
  | succ fuel ih =>
    simp only [natDigits]
    split
    · simp
    · rw [ih (n / 10) (digitChar (n % 10) :: acc), ih (n / 10) [digitChar (n % 10)]]
      simp

theorem digitsValue_append_singleton (l : List Char) (c : Char) :
    digitsValue (l ++ [c]) = 10 * digitsValue l + (c.toNat - 48) := by
  simp [digitsValue, List.foldl_append]

theorem digitsValue_natDigits (fuel n : Nat) (h : n < fuel) :
    digitsValue (natDigits fuel n []) = n := by
  induction fuel generalizing n with
  | zero => omega
  | succ fuel ih =>
    have hd : n % 10 < 10 := Nat.mod_lt _ (by decide)
    simp only [natDigits]
    split
    · rename_i h0
      simp [digitsValue, digitChar_toNat hd]
      omega
    · rename_i h0
      rw [natDigits_append, digitsValue_append_singleton, ih (n / 10) (by omega),
        digitChar_toNat hd]
      omega

/-- Characters of a decimal representation are digits. -/
theorem natDigits_chars (fuel n : Nat) (c : Char) (hc : c ∈ natDigits fuel n []) :
    c ≠ ',' ∧ c ≠ '-' := by
  induction fuel generalizing n with
  | zero => simp [natDigits] at hc
  | succ fuel ih =>
    have hd : n % 10 < 10 := Nat.mod_lt _ (by decide)
    simp only [natDigits] at hc
    split at hc
    · simp at hc
      subst hc
      exact ⟨digitChar_ne_comma hd, digitChar_ne_minus hd⟩
    · rw [natDigits_append] at hc
      simp at hc
      rcases hc with hc | hc
      · exact ih _ hc
      · subst hc
        exact ⟨digitChar_ne_comma hd, digitChar_ne_minus hd⟩

theorem natRepr_ne_nil (n : Nat) : natRepr n ≠ [] := by
  unfold natRepr
  simp only [natDigits]
  split
  · simp
  · rw [natDigits_append]
    simp

theorem natRepr_injective {a b : Nat} (h : natRepr a = natRepr b) : a = b := by
  have ha := digitsValue_natDigits (a + 1) a (by omega)
  have hb := digitsValue_natDigits (b + 1) b (by omega)
  unfold natRepr at h
  rw [h] at ha
  omega

theorem Itoa_ne_nil (v : Int) : Itoa v ≠ [] := by
  unfold Itoa
  split
  · simp
  · exact natRepr_ne_nil _

theorem comma_not_mem_Itoa (v : Int) : ',' ∉ Itoa v := by
  unfold Itoa
  intro h
  split at h
  · simp at h
    exact (natDigits_chars _ _ _ h).1 rfl
  · exact (natDigits_chars _ _ _ h).1 rfl

theorem Itoa_injective {a b : Int} (h : Itoa a = Itoa b) : a = b := by
  unfold Itoa at h
  have hminus : ∀ n : Nat, ∀ l, '-' :: l ≠ natRepr n := by
    intro n l hl
    have hm : '-' ∈ natRepr n := by rw [← hl]; simp
    exact (natDigits_chars _ _ _ hm).2 rfl
  split at h <;> split at h
  · simp at h
    have := natRepr_injective h
    omega
  · exact absurd h (hminus _ _)
  · exact absurd h.symm (hminus _ _)
  · have := natRepr_injective h
    omega

/-! ## Joining with commas is injective -/

theorem append_comma_inj {a b x y : List Char} (ha : ',' ∉ a) (hb : ',' ∉ b)
    (h : a ++ ',' :: x = b ++ ',' :: y) : a = b ∧ x = y := by
  induction a generalizing b with
  | nil =>
    cases b with
    | nil => simpa using h
    | cons c b =>
      simp at h
      simp [← h.1] at hb
  | cons c a ih =>
    cases b with
    | nil =>
      simp at h
      simp [h.1] at ha
    | cons d b =>
      simp at h
      simp at ha hb
      obtain ⟨h1, h2⟩ := ih ha.2 hb.2 h.2
      exact ⟨by rw [h.1, h1], h2⟩

theorem Join_cons_cons (a b : GoString) (rest : List GoString) :
    Join (a :: b :: rest) [','] = a ++ ',' :: Join (b :: rest) [','] := by
  simp [Join]

theorem Join_comma_injective (xs ys : List GoString)
    (hx : ∀ a ∈ xs, a ≠ [] ∧ ',' ∉ a) (hy : ∀ a ∈ ys, a ≠ [] ∧ ',' ∉ a)
    (h : Join xs [','] = Join ys [',']) : xs = ys := by
  induction xs generalizing ys with
  | nil =>
    cases ys with
    | nil => rfl
    | cons b ys =>
      have hb := (hy b (by simp)).1
      cases ys with
      | nil => simp [Join] at h; exact absurd h hb
      | cons b2 ys => rw [Join_cons_cons] at h; simp [Join] at h
  | cons a xs ih =>
    have ha := hx a (by simp)
    cases ys with
    | nil =>
      cases xs with
      | nil => simp [Join] at h; exact absurd h ha.1
      | cons a2 xs => rw [Join_cons_cons] at h; simp [Join] at h
    | cons b ys =>
      have hb := hy b (by simp)
      cases xs with
      | nil =>
        cases ys with
        | nil => simp [Join] at h; rw [h]
        | cons b2 ys =>
          rw [Join_cons_cons] at h
          simp only [Join] at h
          exact absurd (by rw [h]; simp) ha.2
      | cons a2 xs =>
        cases ys with
        | nil =>
          rw [Join_cons_cons] at h
          simp only [Join] at h
          exact absurd (by rw [← h]; simp) hb.2
        | cons b2 ys =>
          rw [Join_cons_cons, Join_cons_cons] at h
          obtain ⟨h1, h2⟩ := append_comma_inj ha.2 hb.2 h
          have := ih (b2 :: ys) (fun c hc => hx c (by simp [hc]))
            (fun c hc => hy c (by simp at hc ⊢; tauto)) h2
          rw [h1, this]

theorem joinInts_injective {xs ys : List Int} (h : joinInts xs = joinInts ys) : xs = ys := by
  unfold joinInts at h
  have key : ∀ l : List Int, ∀ a ∈ l.map Itoa, a ≠ [] ∧ ',' ∉ a := by
    intro l a ha
    simp at ha
    obtain ⟨v, _, rfl⟩ := ha
    exact ⟨Itoa_ne_nil v, comma_not_mem_Itoa v⟩
  have := Join_comma_injective _ _ (key xs) (key ys) h
  exact List.map_injective_iff.mpr (fun a b hab => Itoa_injective hab) this

theorem joinInts_eq_nil {xs : List Int} (h : joinInts xs = []) : xs = [] :=
  @joinInts_injective xs [] (by rw [h]; rfl)

/-! ## The main loop and its bound -/

theorem run_succ (d : Int → Res Int) (p : List Int) (fuel : Nat) (s : State) (o : Outcome)
    (h : run d p fuel s = some o) : run d p (fuel + 1) s = some o := by
  induction fuel generalizing s with
  | zero => simp [run] at h
  | succ fuel ih =>
    rw [run] at h
    rw [run]
    cases hs : step d p s with
    | next s1 => rw [hs] at h; exact ih s1 h
    | done s1 => rw [hs] at h; exact h
    | fail => rw [hs] at h; exact h
    | panic => rw [hs] at h; exact h

theorem run_mono (d : Int → Res Int) (p : List Int) {fuel fuel2 : Nat} (s : State)
    (o : Outcome) (hle : fuel ≤ fuel2) (h : run d p fuel s = some o) :
    run d p fuel2 s = some o := by
  induction hle with
  | refl => exact h
  | step _ ih => exact run_succ d p _ s o ih

theorem run_det (d : Int → Res Int) (p : List Int) {f1 f2 : Nat} (s : State)
    {o1 o2 : Outcome} (h1 : run d p f1 s = some o1) (h2 : run d p f2 s = some o2) :
    o1 = o2 := by
  have a := run_mono d p s o1 (Nat.le_max_left f1 f2) h1
  have b := run_mono d p s o2 (Nat.le_max_right f1 f2) h2
  rw [a] at b
  exact Option.some.inj b

theorem stateAfter_run (d : Int → Res Int) (p : List Int) (n k : Nat) (s s1 : State)
    (h : stateAfter d p n s = some s1) : run d p (n + k) s = run d p k s1 := by
  induction n generalizing s with
  | zero =>
    simp [stateAfter] at h
    simp [h]
  | succ n ih =>
    rw [stateAfter] at h
    rw [show n + 1 + k = (n + k) + 1 by omega, run]
    cases hs : step d p s with
    | next s2 => rw [hs] at h; exact ih s2 h
    | done s2 => rw [hs] at h; simp at h
    | fail => rw [hs] at h; simp at h
    | panic => rw [hs] at h; simp at h

theorem executeProgramWith_eq (d : Int → Res Int) (fuel : Nat) (A B C : Int) (p : List Int)
    (r : Res GoString) :
    executeProgramWith d fuel A B C p = some r ↔
      ∃ o, execute d fuel A B C p = some o ∧ o.result = r := by
  simp [executeProgramWith]

theorem executeProgramWith_mono (d : Int → Res Int) {fuel fuel2 : Nat} (A B C : Int)
    (p : List Int) (r : Res GoString) (hle : fuel ≤ fuel2)
    (h : executeProgramWith d fuel A B C p = some r) :
    executeProgramWith d fuel2 A B C p = some r := by
  rw [executeProgramWith_eq] at h ⊢
  obtain ⟨o, ho, hr⟩ := h
  exact ⟨o, run_mono d p _ o hle ho, hr⟩

theorem executeProgramWith_det (d : Int → Res Int) {f1 f2 : Nat} (A B C : Int)
    (p : List Int) {r1 r2 : Res GoString}
    (h1 : executeProgramWith d f1 A B C p = some r1)
    (h2 : executeProgramWith d f2 A B C p = some r2) : r1 = r2 := by
  rw [executeProgramWith_eq] at h1 h2
  obtain ⟨o1, ho1, hr1⟩ := h1
  obtain ⟨o2, ho2, hr2⟩ := h2
  have := run_det d p _ ho1 ho2
  rw [← hr1, ← hr2, this]

/-- A returned string equal to the joined program comes from a normal halt whose outputs
are the program. -/
theorem halted_of_result_eq_target (d : Int → Res Int) (fuel : Nat) (A B C : Int)
    (p : List Int) (h : executeProgramWith d fuel A B C p = some (.ok (joinInts p))) :
    execute d fuel A B C p = some (.halted p) := by
  rw [executeProgramWith_eq] at h
  obtain ⟨o, ho, hr⟩ := h
  cases o with
  | halted outs =>
    simp [Outcome.result] at hr
    rw [ho, joinInts_injective hr]
  | failed =>
    simp [Outcome.result] at hr
    have hp := joinInts_eq_nil hr
    subst hp
    cases fuel with
    | zero => simp [execute, run] at ho
    | succ fuel => simp [execute, run, step, initState] at ho
  | panicked => simp [Outcome.result] at hr

theorem result_of_halted (d : Int → Res Int) (fuel : Nat) (A B C : Int)
    (p outs : List Int) (h : execute d fuel A B C p = some (.halted outs)) :
    executeProgramWith d fuel A B C p = some (.ok (joinInts outs)) := by
  rw [executeProgramWith_eq]
  exact ⟨_, h, rfl⟩

/-! ## The scanning loops -/

theorem scanLoop_ok (exec : Int → Option (Res GoString)) (target : GoString) (n : Nat)
    (A0 r : Int) (h : scanLoop exec target n A0 = some (.ok r)) :
    (A0 ≤ r ∧ r < A0 + n ∧ exec r = some (.ok target) ∧
        ∀ A1, A0 ≤ A1 → A1 < r → ∃ out, exec A1 = some (.ok out) ∧ out ≠ target) ∨
      (r = -1 ∧
        ∀ A1, A0 ≤ A1 → A1 < A0 + n → ∃ out, exec A1 = some (.ok out) ∧ out ≠ target) := by
  induction n generalizing A0 with
  | zero =>
    simp [scanLoop] at h
    right
    exact ⟨h.symm, by intro A1 h1 h2; simp at h2; omega⟩
  | succ n ih =>
    rw [scanLoop] at h
    cases he : exec A0 with
    | none => rw [he] at h; simp at h
    | some res =>
      cases res with
      | panic => rw [he] at h; simp at h
      | ok out =>
        rw [he] at h
        simp only at h
        by_cases hout : out = target
        · rw [if_pos hout] at h
          simp at h
          subst h
          left
          refine ⟨le_refl _, by push_cast; omega, by rw [he, hout], ?_⟩
          intro A1 h1 h2
          omega
        · rw [if_neg hout] at h
          have hfirst : ∀ A1, A0 ≤ A1 → ¬ (A0 + 1 ≤ A1) →
              ∃ out, exec A1 = some (.ok out) ∧ out ≠ target := by
            intro A1 h1 h2
            have : A1 = A0 := by omega
            subst this
            exact ⟨out, he, hout⟩
          rcases ih (A0 + 1) h with ⟨h1, h2, h3, h4⟩ | ⟨h1, h2⟩
          · left
            refine ⟨by omega, by push_cast; omega, h3, ?_⟩
            intro A1 ha hb
            by_cases hc : A0 + 1 ≤ A1
            · exact h4 A1 hc hb
            · exact hfirst A1 ha hc
          · right
            refine ⟨h1, ?_⟩
            intro A1 ha hb
            by_cases hc : A0 + 1 ≤ A1
            · exact h2 A1 hc (by push_cast at hb; omega)
            · exact hfirst A1 ha hc

theorem scanLoop_exhausted (exec : Int → Option (Res GoString)) (target : GoString) (n : Nat)
    (A0 : Int)
    (h : ∀ A1, A0 ≤ A1 → A1 < A0 + n → ∃ out, exec A1 = some (.ok out) ∧ out ≠ target) :
    scanLoop exec target n A0 = some (.ok (-1)) := by
  induction n generalizing A0 with
  | zero => simp [scanLoop]
  | succ n ih =>
    obtain ⟨out, he, hout⟩ := h A0 (le_refl _) (by push_cast; omega)
    rw [scanLoop, he]
    simp only
    rw [if_neg hout]
    exact ih (A0 + 1) (fun A1 h1 h2 => h A1 (by omega) (by push_cast; omega))

theorem coarseLoop_found (exec : Int → Option (Res GoString)) (target : GoString)
    (targetLength step : Int) (n : Nat) (A0 A : Int)
    (h : coarseLoop exec target targetLength step n A0 = some (.ok (.found A))) :
    exec A = some (.ok target) := by
  induction n generalizing A0 with
  | zero => simp [coarseLoop] at h
  | succ n ih =>
    rw [coarseLoop] at h
    cases he : exec A0 with
    | none => rw [he] at h; simp at h
    | some res =>
      cases res with
      | panic => rw [he] at h; simp at h
      | ok out =>
        rw [he] at h
        simp only at h
        by_cases hout : out = target
        · rw [if_pos hout] at h
          simp at h
          subst h
          rw [he, hout]
        · rw [if_neg hout] at h
          split_ifs at h <;> first | exact ih _ h | simp at h

theorem uniform_fuel (exec : Nat → Int → Option (Res GoString))
    (hmono : ∀ f1 f2 A r, f1 ≤ f2 → exec f1 A = some r → exec f2 A = some r)
    (n : Nat) (A0 : Int)
    (h : ∀ A, A0 ≤ A → A < A0 + n → ∃ fuel out, exec fuel A = some (.ok out)) :
    ∃ F, ∀ A, A0 ≤ A → A < A0 + n → ∃ out, exec F A = some (.ok out) := by
  induction n generalizing A0 with
  | zero => exact ⟨0, by intro A h1 h2; simp at h2; omega⟩
  | succ n ih =>
    obtain ⟨f0, out0, h0⟩ := h A0 (le_refl _) (by push_cast; omega)
    obtain ⟨F, hF⟩ := ih (A0 + 1) (fun A h1 h2 => h A (by omega) (by push_cast; omega))
    refine ⟨max f0 F, ?_⟩
    intro A h1 h2
    by_cases hA : A = A0
    · subst hA
      exact ⟨out0, hmono _ _ _ _ (Nat.le_max_left _ _) h0⟩
    · obtain ⟨out, ho⟩ := hF A (by omega) (by push_cast at h2; omega)
      exact ⟨out, hmono _ _ _ _ (Nat.le_max_right _ _) ho⟩

theorem main2_range : ((10000000000000 : Int) - 1900000000 + 1).toNat = 9998100000001 := by
  rfl

/-! ## One iteration -/

theorem index_some {program : List Int} {i v : Int} (h : index program i = some v) :
    0 ≤ i ∧ i < program.length := by
  unfold index at h
  split at h
  · simp at h
  · have := List.get?_eq_some.mp h
    obtain ⟨hlt, _⟩ := this
    omega

theorem step_fetch (d : Int → Res Int) (program : List Int) (s : State) (opcode operand : Int)
    (hop : index program s.IP = some opcode)
    (hoperand : index program (s.IP + 1) = some operand) :
    step d program s =
      match operandTypes opcode with
      | none => .done s
      | some otype =>
        match resolveOperand otype operand s with
        | none => .fail
        | some operandValue => dispatch d opcode otype operandValue s := by
  have h1 := index_some hop
  have h2 := index_some hoperand
  unfold step
  rw [if_neg (by omega), if_neg (by omega)]
  simp only [hop, hoperand]

theorem step_halt (d : Int → Res Int) (program : List Int) (s : State)
    (h : s.IP ≥ program.length - 1) : step d program s = .done s := by
  unfold step
  by_cases h1 : s.IP < program.length
  · rw [if_neg (by omega), if_pos (by omega)]
  · rw [if_pos h1]

/-! ## The divisor -/

theorem wrap64_mul_two (x : Int) : wrap64 (wrap64 x * 2) = wrap64 (x * 2) := by
  unfold wrap64
  norm_num
  omega

theorem denomLoop_wrap (n : Nat) (x : Int) :
    denomLoop n (wrap64 x) = wrap64 (x * 2 ^ n) := by
  induction n generalizing x with
  | zero => simp [denomLoop]
  | succ n ih =>
    rw [denomLoop, wrap64_mul_two, ih]
    congr 1
    ring

theorem denomLoop_one (n : Nat) : denomLoop n 1 = wrap64 (2 ^ n) := by
  have h : wrap64 1 = 1 := by decide
  have := denomLoop_wrap n 1
  rw [h] at this
  simpa using this

theorem denomLoop_small (n : Nat) (h : n ≤ 62) : denomLoop n 1 = 2 ^ n := by
  rw [denomLoop_one]
  have h1 : (2 : Int) ^ n ≤ 2 ^ 62 := pow_le_pow_right₀ (by norm_num) h
  have h2 : (0 : Int) < 2 ^ n := by positivity
  unfold wrap64
  norm_num at h1 ⊢
  omega

theorem denomLoop_63 : denomLoop 63 1 = -(2 ^ 63) := by
  rw [denomLoop_one]
  decide

theorem denomLoop_large (n : Nat) (h : 64 ≤ n) : denomLoop n 1 = 0 := by
  rw [denomLoop_one]
  obtain ⟨k, rfl⟩ := Nat.exists_eq_add_of_le h
  unfold wrap64
  rw [pow_add, Int.add_comm, Int.add_mul_emod_self_left]
  norm_num

/-! ## Non-negative registers -/

theorem xor_nonneg {a b : Int} (ha : 0 ≤ a) (hb : 0 ≤ b) : 0 ≤ Int.xor a b := by
  obtain ⟨m, rfl⟩ := Int.eq_ofNat_of_zero_le ha
  obtain ⟨n, rfl⟩ := Int.eq_ofNat_of_zero_le hb
  show 0 ≤ ((m ^^^ n : Nat) : Int)
  exact Int.ofNat_nonneg _

theorem index_mem {program : List Int} {i v : Int} (h : index program i = some v) :
    v ∈ program := by
  unfold index at h
  split at h
  · simp at h
  · exact List.get?_mem h

theorem tdiv_loopDenom_bounds {a v denom : Int} (ha : 0 ≤ a) (ha2 : a < 2 ^ 63)
    (hd : loopDenom v = .ok denom) (h0 : denom ≠ 0) :
    0 ≤ Int.tdiv a denom ∧ Int.tdiv a denom < 2 ^ 63 := by
  unfold loopDenom at hd
  simp at hd
  subst hd
  rcases Nat.lt_trichotomy v.toNat 63 with h | h | h
  · rw [denomLoop_small _ (by omega)] at h0 ⊢
    have hp : (0 : Int) ≤ 2 ^ v.toNat := by positivity
    rw [Int.tdiv_eq_ediv ha hp]
    exact ⟨Int.ediv_nonneg ha hp, lt_of_le_of_lt (Int.ediv_le_self _ ha) ha2⟩
  · have hz : Int.tdiv a (2 ^ 63) = 0 := Int.tdiv_eq_zero_of_lt ha ha2
    rw [h, denomLoop_63, Int.tdiv_neg, hz]
    constructor
    · exact le_of_eq rfl
    · exact lt_of_le_of_lt (le_of_eq (neg_zero)) (by positivity)
  · exact absurd (denomLoop_large _ (by omega)) h0

theorem resolve_nonneg {otype : String} {operand v : Int} {s : State} (hs : Inv s)
    (hoperand : 0 ≤ operand) (h : resolveOperand otype operand s = some v) : 0 ≤ v := by
  obtain ⟨hA, _, hB, hC, _⟩ := hs
  unfold resolveOperand at h
  split_ifs at h <;> simp at h <;> omega

theorem dispatch_zero (d : Int → Res Int) (otype : String) (v : Int) (s : State) :
    dispatch d 0 otype v s =
      divStep d v (fun denom => { s with A := Int.tdiv s.A denom, IP := s.IP + 2 }) := rfl

theorem dispatch_six (d : Int → Res Int) (otype : String) (v : Int) (s : State) :
    dispatch d 6 otype v s =
      divStep d v (fun denom => { s with B := Int.tdiv s.A denom, IP := s.IP + 2 }) := rfl

theorem dispatch_seven (d : Int → Res Int) (otype : String) (v : Int) (s : State) :
    dispatch d 7 otype v s =
      divStep d v (fun denom => { s with C := Int.tdiv s.A denom, IP := s.IP + 2 }) := rfl

theorem divStep_next {d : Int → Res Int} {v : Int} {f : Int → State} {s1 : State}
    (h : divStep d v f = Step.next s1) :
    ∃ denom, d v = .ok denom ∧ denom ≠ 0 ∧ s1 = f denom := by
  unfold divStep at h
  cases hd : d v with
  | panic => rw [hd] at h; cases h
  | ok denom =>
    rw [hd] at h
    simp only at h
    by_cases h0 : denom = 0
    · rw [if_pos h0] at h; cases h
    · rw [if_neg h0] at h
      exact ⟨denom, rfl, h0, (Step.next.inj h).symm⟩

theorem divStep_ne_done {d : Int → Res Int} {v : Int} {f : Int → State} {s1 : State} :
    divStep d v f ≠ Step.done s1 := by
  intro h
  unfold divStep at h
  cases hd : d v with
  | panic => rw [hd] at h; cases h
  | ok denom =>
    rw [hd] at h
    simp only at h
    by_cases h0 : denom = 0
    · rw [if_pos h0] at h; cases h
    · rw [if_neg h0] at h; cases h

theorem dispatch_ne_done (d : Int → Res Int) (opcode : Int) (otype : String) (v : Int)
    (s s1 : State) : dispatch d opcode otype v s ≠ .done s1 := by
  intro h
  by_cases h0 : opcode = 0
  · subst h0; rw [dispatch_zero] at h; exact divStep_ne_done h
  by_cases h6 : opcode = 6
  · subst h6; rw [dispatch_six] at h; exact divStep_ne_done h
  by_cases h7 : opcode = 7
  · subst h7; rw [dispatch_seven] at h; exact divStep_ne_done h
  unfold dispatch at h
  rw [if_neg h0] at h
  split_ifs at h

theorem step_done_eq (d : Int → Res Int) (program : List Int) (s s1 : State)
    (h : step d program s = .done s1) : s1 = s := by
  unfold step at h
  by_cases h1 : ¬ (s.IP < program.length)
  · rw [if_pos h1] at h
    exact (Step.done.inj h).symm
  rw [if_neg h1] at h
  by_cases h2 : s.IP + 1 ≥ program.length
  · rw [if_pos h2] at h
    exact (Step.done.inj h).symm
  rw [if_neg h2] at h
  split at h
  · split at h
    · exact (Step.done.inj h).symm
    · split at h
      · cases h
      · exact absurd h (dispatch_ne_done _ _ _ _ _ _)
  · cases h

theorem dispatch_inv (opcode : Int) (otype : String) (v : Int) (s s1 : State) (hs : Inv s)
    (hv0 : 0 ≤ v) (h : dispatch loopDenom opcode otype v s = .next s1) : Inv s1 := by
  obtain ⟨hA, hA2, hB, hC, hout⟩ := hs
  have h8 : 0 ≤ Int.tmod v 8 ∧ Int.tmod v 8 ≤ 7 := by
    have := Int.tmod_nonneg 8 hv0
    have := Int.tmod_lt_of_pos v (show (0 : Int) < 8 by norm_num)
    omega
  by_cases h0 : opcode = 0
  · subst h0
    rw [dispatch_zero] at h
    obtain ⟨denom, hd, hd0, rfl⟩ := divStep_next h
    have hb := tdiv_loopDenom_bounds hA hA2 hd hd0
    exact ⟨hb.1, hb.2, hB, hC, hout⟩
  by_cases h6 : opcode = 6
  · subst h6
    rw [dispatch_six] at h
    obtain ⟨denom, hd, hd0, rfl⟩ := divStep_next h
    have hb := tdiv_loopDenom_bounds hA hA2 hd hd0
    exact ⟨hA, hA2, hb.1, hC, hout⟩
  by_cases h7 : opcode = 7
  · subst h7
    rw [dispatch_seven] at h
    obtain ⟨denom, hd, hd0, rfl⟩ := divStep_next h
    have hb := tdiv_loopDenom_bounds hA hA2 hd hd0
    exact ⟨hA, hA2, hB, hb.1, hout⟩
  unfold dispatch at h
  rw [if_neg h0] at h
  by_cases h1 : opcode = 1
  · rw [if_pos h1] at h
    split_ifs at h
    cases h
    exact ⟨hA, hA2, xor_nonneg hB hv0, hC, hout⟩
  rw [if_neg h1] at h
  by_cases h2 : opcode = 2
  · rw [if_pos h2] at h
    split_ifs at h
    cases h
    exact ⟨hA, hA2, h8.1, hC, hout⟩
  rw [if_neg h2] at h
  by_cases h3 : opcode = 3
  · rw [if_pos h3] at h
    split_ifs at h
    · cases h
      exact ⟨hA, hA2, hB, hC, hout⟩
    · cases h
      exact ⟨hA, hA2, hB, hC, hout⟩
  rw [if_neg h3] at h
  by_cases h4 : opcode = 4
  · rw [if_pos h4] at h
    cases h
    exact ⟨hA, hA2, xor_nonneg hB hC, hC, hout⟩
  rw [if_neg h4] at h
  by_cases h5 : opcode = 5
  · rw [if_pos h5] at h
    split_ifs at h
    cases h
    refine ⟨hA, hA2, hB, hC, ?_⟩
    intro x hx
    rcases List.mem_append.mp hx with hx | hx
    · exact hout x hx
    · rw [List.mem_singleton.mp hx]
      exact h8
  rw [if_neg h5] at h
  rw [if_neg h6, if_neg h7] at h
  cases h

theorem step_inv (program : List Int) (hprog : ∀ x ∈ program, 0 ≤ x) (s s1 : State)
    (hs : Inv s) (h : step loopDenom program s = .next s1) : Inv s1 := by
  unfold step at h
  split_ifs at h
  split at h
  · rename_i opcode operand hop hoperand
    have hoperand0 := hprog _ (index_mem hoperand)
    split at h
    · cases h
    · split at h
      · cases h
      · rename_i v hv
        exact dispatch_inv _ _ _ _ _ hs (resolve_nonneg hs hoperand0 hv) h
  · cases h

theorem run_inv (program : List Int) (hprog : ∀ x ∈ program, 0 ≤ x) (fuel : Nat) (s : State)
    (hs : Inv s) (outs : List Int) (h : run loopDenom program fuel s = some (.halted outs)) :
    ∀ x ∈ outs, 0 ≤ x ∧ x ≤ 7 := by
  induction fuel generalizing s with
  | zero => simp [run] at h
  | succ fuel ih =>
    rw [run] at h
    cases hstep : step loopDenom program s with
    | next s1 => rw [hstep] at h; exact ih s1 (step_inv program hprog s s1 hs hstep) h
    | done s1 =>
      rw [hstep] at h
      simp at h
      have := step_done_eq _ _ _ _ hstep
      subst this
      rw [← h]
      exact hs.2.2.2.2
    | fail => rw [hstep] at h; simp at h
    | panic => rw [hstep] at h; simp at h

theorem tdiv_loopDenom_shift {a v : Int} (ha : 0 ≤ a) (ha2 : a < 2 ^ 63) (hv : 0 ≤ v)
    (hv2 : v ≤ 63) :
    ∃ denom, loopDenom v = .ok denom ∧ denom ≠ 0 ∧ Int.tdiv a denom = a / 2 ^ v.toNat := by
  refine ⟨denomLoop v.toNat 1, rfl, ?_, ?_⟩
  · rcases Nat.lt_or_ge v.toNat 63 with h | h
    · rw [denomLoop_small _ (by omega)]
      positivity
    · have : v.toNat = 63 := by omega
      rw [this, denomLoop_63]
      norm_num
  · rcases Nat.lt_or_ge v.toNat 63 with h | h
    · rw [denomLoop_small _ (by omega)]
      exact Int.tdiv_eq_ediv ha (by positivity)
    · have : v.toNat = 63 := by omega
      have hz : Int.tdiv a (2 ^ 63) = 0 := Int.tdiv_eq_zero_of_lt ha ha2
      rw [this, denomLoop_63, Int.tdiv_neg, hz, Int.ediv_eq_zero_of_lt ha ha2]
      rfl

theorem divStep_shift {a v : Int} (ha : 0 ≤ a) (ha2 : a < 2 ^ 63) (hv : 0 ≤ v)
    (f : Int → State) :
    (v ≤ 63 → ∃ denom, Int.tdiv a denom = a / 2 ^ v.toNat ∧
      divStep loopDenom v f = .next (f denom)) ∧
    (64 ≤ v → divStep loopDenom v f = .fail) := by
  constructor
  · intro hv2
    obtain ⟨denom, hd, hd0, hq⟩ := tdiv_loopDenom_shift ha ha2 hv hv2
    refine ⟨denom, hq, ?_⟩
    unfold divStep
    rw [hd]
    simp only
    rw [if_neg hd0]
  · intro hv2
    unfold divStep loopDenom
    simp only
    rw [if_pos (denomLoop_large _ (by omega))]

/-! ## A self-replicating program above the start of the range -/

theorem stateAfter_add (d : Int → Res Int) (p : List Int) (m n : Nat) (s s1 s2 : State)
    (h1 : stateAfter d p m s = some s1) (h2 : stateAfter d p n s1 = some s2) :
    stateAfter d p (m + n) s = some s2 := by
  induction m generalizing s with
  | zero =>
    simp [stateAfter] at h1
    subst h1
    simpa using h2
  | succ m ih =>
    rw [stateAfter] at h1
    rw [show m + 1 + n = (m + n) + 1 by omega, stateAfter]
    cases hs : step d p s with
    | next s3 => rw [hs] at h1; exact ih s3 h1
    | done s3 => rw [hs] at h1; simp at h1
    | fail => rw [hs] at h1; simp at h1
    | panic => rw [hs] at h1; simp at h1

theorem scanLoop_first_match (exec : Int → Option (Res GoString)) (target : GoString)
    (n : Nat) (A0 A : Int) (hlo : A0 ≤ A) (hhi : A < A0 + n)
    (hbelow : ∀ A1, A0 ≤ A1 → A1 < A → ∃ out, exec A1 = some (.ok out) ∧ out ≠ target)
    (hmatch : exec A = some (.ok target)) :
    scanLoop exec target n A0 = some (.ok A) := by
  induction n generalizing A0 with
  | zero => simp at hhi; omega
  | succ n ih =>
    rw [scanLoop]
    by_cases h : A0 = A
    · subst h
      rw [hmatch]
      simp
    · obtain ⟨out, he, hout⟩ := hbelow A0 (le_refl _) (by omega)
      rw [he]
      simp only
      rw [if_neg hout]
      exact ih (A0 + 1) (by omega) (by push_cast at hhi; omega)
        (fun A1 h1 h2 => hbelow A1 (by omega) h2)

theorem ediv_eight_pow (a : Int) (ha : 0 ≤ a) (j : Nat) :
    a / 8 / 8 ^ j = a / 8 ^ (j + 1) := by
  obtain ⟨m, rfl⟩ := Int.eq_ofNat_of_zero_le ha
  norm_cast
  rw [Nat.div_div_eq_div_mul, pow_succ, mul_comm]

/-- One turn of the digit loop while the quotient is not zero. -/
theorem digitLoop_turn (a : Int) (outs : List Int) (ha : 0 ≤ a) (h : a / 8 ≠ 0) :
    stateAfter loopDenom digitLoopProgram 3 ⟨a, 0, 0, 0, outs⟩ =
      some ⟨a / 8, 0, 0, 0, outs ++ [a / 8 % 8]⟩ := by
  have hq : Int.tdiv a 8 = a / 8 := Int.tdiv_eq_ediv ha (by norm_num)
  have hr : Int.tmod (a / 8) 8 = a / 8 % 8 :=
    Int.tmod_eq_emod (Int.ediv_nonneg ha (by norm_num)) (by norm_num)
  have s1 : step loopDenom digitLoopProgram ⟨a, 0, 0, 0, outs⟩ =
      .next ⟨Int.tdiv a 8, 0, 0, 2, outs⟩ := rfl
  have s2 : step loopDenom digitLoopProgram ⟨a / 8, 0, 0, 2, outs⟩ =
      .next ⟨a / 8, 0, 0, 4, outs ++ [Int.tmod (a / 8) 8]⟩ := rfl
  have s3 : step loopDenom digitLoopProgram ⟨a / 8, 0, 0, 4, outs ++ [a / 8 % 8]⟩ =
      .next ⟨a / 8, 0, 0, 0, outs ++ [a / 8 % 8]⟩ := by
    rw [step_fetch loopDenom digitLoopProgram ⟨a / 8, 0, 0, 4, outs ++ [a / 8 % 8]⟩ 3 0 rfl rfl]
    show dispatch loopDenom 3 "literal" 0 _ = _
    unfold dispatch
    simp [h]
  rw [hq] at s1
  rw [hr] at s2
  simp only [stateAfter, s1, s2, s3]

theorem digitLoop_turns (k : Nat) (a : Int) (outs : List Int) (ha : 0 ≤ a)
    (hk : a / 8 ^ k ≠ 0) :
    stateAfter loopDenom digitLoopProgram (3 * k) ⟨a, 0, 0, 0, outs⟩ =
      some ⟨a / 8 ^ k, 0, 0, 0, outs ++ (List.range k).map (fun i => a / 8 ^ (i + 1) % 8)⟩ := by
  induction k generalizing a outs with
  | zero => simp [stateAfter]
  | succ k ih =>
    have hdiv : ∀ j : Nat, a / 8 / 8 ^ j = a / 8 ^ (j + 1) := ediv_eight_pow a ha
    have h8 : a / 8 ≠ 0 := by
      intro h0
      apply hk
      rw [← hdiv, h0]
      simp
    have hk2 : a / 8 / 8 ^ k ≠ 0 := by rw [hdiv]; exact hk
    have h1 := digitLoop_turn a outs ha h8
    have h2 := ih (a / 8) (outs ++ [a / 8 % 8]) (Int.ediv_nonneg ha (by norm_num)) hk2
    rw [show 3 * (k + 1) = 3 + 3 * k by omega, stateAfter_add _ _ _ _ _ _ _ h1 h2]
    simp only [hdiv, List.range_succ_eq_map, List.map_cons, List.map_map, List.append_assoc,
      List.singleton_append]
    simp [Function.comp_def]

/-- The last turn of the digit loop and the rest of the program. -/
theorem digitLoop_exit (a : Int) (outs : List Int) (ha : 0 ≤ a) (h : a / 8 = 0) :
    run loopDenom digitLoopProgram 6 ⟨a, 0, 0, 0, outs⟩ = some (.halted (outs ++ [0])) := by
  have hq : Int.tdiv a 8 = 0 := by rw [Int.tdiv_eq_ediv ha (by norm_num), h]
  have s1 : step loopDenom digitLoopProgram ⟨a, 0, 0, 0, outs⟩ =
      .next ⟨Int.tdiv a 8, 0, 0, 2, outs⟩ := rfl
  have s2 : run loopDenom digitLoopProgram 5 ⟨0, 0, 0, 2, outs⟩ =
      some (.halted (outs ++ [0])) := rfl
  rw [hq] at s1
  rw [run, s1]
  exact s2

/-- A seed with eleven octal digits makes the digit loop turn eleven times: the outputs
are the octal digits from the second lowest upwards and a final 0. -/
theorem digitLoop_execute (a : Int) (hlo : 8 ^ 10 ≤ a) (hhi : a < 8 ^ 11) :
    execute loopDenom 36 a 0 0 digitLoopProgram =
      some (.halted ((List.range 10).map (fun i => a / 8 ^ (i + 1) % 8) ++ [0])) := by
  have ha : 0 ≤ a := le_trans (by norm_num) hlo
  have h10 : a / 8 ^ 10 ≠ 0 := by
    have : 1 ≤ a / 8 ^ 10 := (Int.le_ediv_iff_mul_le (by norm_num)).mpr (by simpa using hlo)
    omega
  have h11 : a / 8 ^ 10 / 8 = 0 := by
    omega
  have h1 := digitLoop_turns 10 a [] ha h10
  have h2 := digitLoop_exit (a / 8 ^ 10) ([] ++ (List.range 10).map (fun i => a / 8 ^ (i + 1) % 8))
    (Int.ediv_nonneg ha (by norm_num)) h11
  unfold execute initState
  rw [show 36 = 3 * 10 + 6 by rfl, stateAfter_run _ _ _ _ _ _ h1, h2]
  simp

/-- Below `1900137152` no candidate of the range reproduces the digit-loop program. -/
theorem digitLoop_no_match (a : Int) (hlo : 1900000000 ≤ a) (hhi : a < 1900137152) :
    ∃ out, Main2.executeProgram 36 a 0 0 digitLoopProgram = some (.ok out) ∧
      out ≠ joinInts digitLoopProgram := by
  have hrun := digitLoop_execute a (by norm_num; omega) (by norm_num; omega)
  refine ⟨_, result_of_halted _ _ _ _ _ _ _ hrun, ?_⟩
  intro heq
  have hl := joinInts_injective heq
  simp [List.range_succ, digitLoopProgram] at hl
  omega

theorem digitLoop_search :
    Main2.findMinimumAForSelfReplicatingProgram 36 digitLoopProgram =
      some (.ok 1900137152) := by
  simp only [Main2.findMinimumAForSelfReplicatingProgram, main2_range]
  apply scanLoop_first_match
  · norm_num
  · norm_num
  · intro A1 h1 h2
    exact digitLoop_no_match A1 h1 h2
  · decide

/-! ## The pointer -/

theorem divStep_next_IP {d : Int → Res Int} {v : Int} {f : Int → State} {s1 : State}
    (ip : Int) (hf : ∀ denom, (f denom).IP = ip) (h : divStep d v f = .next s1) :
    s1.IP = ip := by
  obtain ⟨denom, _, _, rfl⟩ := divStep_next h
  exact hf denom

/-- After an iteration that runs to the end of the loop body the pointer has advanced by 2,
unless the instruction was a jump taken with `A ≠ 0`, to its operand. -/
theorem step_next_IP (d : Int → Res Int) (program : List Int) (s s1 : State)
    (h : step d program s = .next s1) :
    s1.IP = s.IP + 2 ∨
      (index program s.IP = some 3 ∧ s.A ≠ 0 ∧ index program (s.IP + 1) = some s1.IP) := by
  unfold step at h
  by_cases h1 : ¬ (s.IP < program.length)
  · rw [if_pos h1] at h; cases h
  rw [if_neg h1] at h
  by_cases h2 : s.IP + 1 ≥ program.length
  · rw [if_pos h2] at h; cases h
  rw [if_neg h2] at h
  split at h
  · rename_i opcode operand hop hoperand
    split at h
    · cases h
    · rename_i otype hot
      split at h
      · cases h
      · rename_i v hv
        by_cases h0 : opcode = 0
        · subst h0
          rw [dispatch_zero] at h
          exact Or.inl (divStep_next_IP _ (fun _ => rfl) h)
        by_cases h6 : opcode = 6
        · subst h6
          rw [dispatch_six] at h
          exact Or.inl (divStep_next_IP _ (fun _ => rfl) h)
        by_cases h7 : opcode = 7
        · subst h7
          rw [dispatch_seven] at h
          exact Or.inl (divStep_next_IP _ (fun _ => rfl) h)
        by_cases h3 : opcode = 3
        · subst h3
          have hlit : otype = "literal" := by
            simp [operandTypes] at hot
            exact hot.symm
          subst hlit
          have hv2 : v = operand := by
            simp [resolveOperand] at hv
            exact hv.symm
          subst hv2
          unfold dispatch at h
          by_cases hA : s.A ≠ 0
          · right
            simp [hA] at h
            subst h
            exact ⟨hop, hA, hoperand⟩
          · left
            simp [hA] at h
            subst h
            rfl
        left
        unfold dispatch at h
        rw [if_neg h0] at h
        split_ifs at h <;> cases h <;> rfl
  · cases h

/-- A register `A` equal to 0 stays 0. -/
theorem step_next_A_zero (program : List Int) (s s1 : State) (hA : s.A = 0)
    (h : step loopDenom program s = .next s1) : s1.A = 0 := by
  unfold step at h
  by_cases h1 : ¬ (s.IP < program.length)
  · rw [if_pos h1] at h; cases h
  rw [if_neg h1] at h
  by_cases h2 : s.IP + 1 ≥ program.length
  · rw [if_pos h2] at h; cases h
  rw [if_neg h2] at h
  split at h
  · rename_i opcode operand hop hoperand
    split at h
    · cases h
    · split at h
      · cases h
      · by_cases h0 : opcode = 0
        · subst h0
          rw [dispatch_zero] at h
          obtain ⟨denom, _, _, rfl⟩ := divStep_next h
          show Int.tdiv s.A denom = 0
          rw [hA]
          exact Int.zero_tdiv _
        by_cases h6 : opcode = 6
        · subst h6
          rw [dispatch_six] at h
          obtain ⟨denom, _, _, rfl⟩ := divStep_next h
          exact hA
        by_cases h7 : opcode = 7
        · subst h7
          rw [dispatch_seven] at h
          obtain ⟨denom, _, _, rfl⟩ := divStep_next h
          exact hA
        unfold dispatch at h
        rw [if_neg h0] at h
        split_ifs at h <;> cases h <;> exact hA
  · cases h

theorem run_without_jump (program : List Int) (n : Nat) (s : State)
    (hj : 3 ∉ program ∨ s.A = 0) (hn : (program.length : Int) - s.IP ≤ 2 * n + 1) :
    ∃ o, run loopDenom program (n + 1) s = some o := by
  induction n generalizing s with
  | zero =>
    rw [run, step_halt _ _ _ (by push_cast at hn; omega)]
    exact ⟨_, rfl⟩
  | succ n ih =>
    rw [run]
    cases hs : step loopDenom program s with
    | next s1 =>
      simp only
      have hip : s1.IP = s.IP + 2 := by
        rcases step_next_IP _ _ _ _ hs with h | ⟨h3, hA, _⟩
        · exact h
        · rcases hj with hj | hj
          · exact absurd (index_mem h3) hj
          · exact absurd hj hA
      have hj1 : 3 ∉ program ∨ s1.A = 0 := by
        rcases hj with hj | hj
        · exact Or.inl hj
        · exact Or.inr (step_next_A_zero _ _ _ hj hs)
      exact ih s1 hj1 (by rw [hip]; push_cast at hn ⊢; omega)
    | done s1 => exact ⟨_, rfl⟩
    | fail => exact ⟨_, rfl⟩
    | panic => exact ⟨_, rfl⟩

theorem run_jump_to_self (fuel : Nat) :
    run loopDenom [3, 0] fuel ⟨1, 0, 0, 0, []⟩ = none := by
  induction fuel with
  | zero => rfl
  | succ fuel ih =>
    rw [run]
    exact ih

theorem index_of_bounds {program : List Int} {i : Int} (h0 : 0 ≤ i)
    (h1 : i < program.length) : ∃ v, index program i = some v := by
  unfold index
  rw [if_neg (by omega)]
  have : i.toNat < program.length := by omega
  exact ⟨program[i.toNat], by rw [List.get?_eq_getElem?]; exact List.getElem?_eq_getElem this⟩

theorem step_next_IP_nonneg (program : List Int) (hprog : ∀ x ∈ program, 0 ≤ x)
    (s s1 : State) (hip : 0 ≤ s.IP) (h : step loopDenom program s = .next s1) :
    0 ≤ s1.IP := by
  rcases step_next_IP _ _ _ _ h with h2 | ⟨_, _, h3⟩
  · omega
  · exact hprog _ (index_mem h3)

theorem index_append_singleton (P : List Int) (x : Int) (i : Int) (h : i < P.length) :
    index (P ++ [x]) i = index P i := by
  unfold index
  by_cases h0 : i < 0
  · rw [if_pos h0, if_pos h0]
  · rw [if_neg h0, if_neg h0, List.get?_eq_getElem?, List.get?_eq_getElem?,
      List.getElem?_append_left (by omega)]

/-- At an even pointer an iteration does not see the element after a program of even
length. -/
theorem step_append_singleton (d : Int → Res Int) (P : List Int) (x : Int) (s : State)
    (hlen : P.length % 2 = 0) (hip : s.IP % 2 = 0) :
    step d (P ++ [x]) s = step d P s := by
  have hl : ((P ++ [x]).length : Int) = P.length + 1 := by simp
  by_cases h1 : s.IP + 1 < P.length
  · unfold step
    rw [if_neg (by omega), if_neg (by omega), if_neg (by omega), if_neg (by omega),
      index_append_singleton P x _ (by omega), index_append_singleton P x _ h1]
  · have hge : (P.length : Int) ≤ s.IP := by omega
    rw [step_halt d (P ++ [x]) s (by omega), step_halt d P s (by omega)]

theorem run_append_singleton (d : Int → Res Int) (P : List Int) (x : Int)
    (hlen : P.length % 2 = 0)
    (hjump : ∀ i, i < P.length → i % 2 = 0 → P.getD i 0 = 3 → P.getD (i + 1) 0 % 2 = 0)
    (fuel : Nat) (s : State) (hip : s.IP % 2 = 0) :
    run d (P ++ [x]) fuel s = run d P fuel s := by
  induction fuel generalizing s with
  | zero => rfl
  | succ fuel ih =>
    rw [run, run, step_append_singleton d P x s hlen hip]
    cases hs : step d P s with
    | next s1 =>
      simp only
      apply ih
      rcases step_next_IP _ _ _ _ hs with h | ⟨h3, _, ht⟩
      · omega
      · have b3 := index_some h3
        have bt := index_some ht
        have hi : s.IP.toNat < P.length := by omega
        have e3 : P.getD s.IP.toNat 0 = 3 := by
          unfold index at h3
          rw [if_neg (by omega), List.get?_eq_getElem?] at h3
          rw [List.getD_eq_getElem?_getD, h3]
          rfl
        have et : P.getD (s.IP.toNat + 1) 0 = s1.IP := by
          unfold index at ht
          rw [if_neg (by omega), List.get?_eq_getElem?] at ht
          have : (s.IP + 1).toNat = s.IP.toNat + 1 := by omega
          rw [this] at ht
          rw [List.getD_eq_getElem?_getD, ht]
          rfl
        have := hjump s.IP.toNat hi (by omega) e3
        rw [et] at this
        exact this
    | done s1 => rfl
    | fail => rfl
    | panic => rfl

/-! ## The worker and the dispatch loop -/

theorem range_succ_map_add (k : Nat) (A0 : Int) :
    (List.range (k + 1)).map (fun (i : Nat) => A0 + (i : Int)) =
      A0 :: (List.range k).map (fun (i : Nat) => A0 + 1 + (i : Int)) := by
  rw [List.range_succ_eq_map, List.map_cons, List.map_map]
  simp only [Nat.cast_zero, add_zero, List.cons.injEq, true_and]
  apply List.map_congr_left
  intro i _
  simp only [Function.comp, Nat.cast_succ]
  ring

theorem wrap64_id {x : Int} (h1 : -(2 ^ 63) ≤ x) (h2 : x < 2 ^ 63) : wrap64 x = x := by
  unfold wrap64
  omega

/-- What a worker that returns has done, when its block ends below the largest Go int. -/
theorem workerLoop_spec (exec : Int → Option (Res GoString)) (target : GoString) (endA : Int)
    (hend : endA < 2 ^ 63 - 1) (n : Nat) (A0 : Int) (hA0 : -(2 ^ 63) ≤ A0) (acc : List Int)
    (w : WorkerRun) (h : workerLoop exec target endA n A0 acc = some (.ok w)) :
    (∃ A, w.sent = some A ∧ A0 ≤ A ∧ A ≤ endA ∧ exec A = some (.ok target) ∧
        (∀ A1, A0 ≤ A1 → A1 < A → ∃ out, exec A1 = some (.ok out) ∧ out ≠ target) ∧
        w.tested = acc ++ (List.range (A - A0 + 1).toNat).map (fun (i : Nat) => A0 + (i : Int))) ∨
      (w.sent = none ∧
        (∀ A1, A0 ≤ A1 → A1 ≤ endA → ∃ out, exec A1 = some (.ok out) ∧ out ≠ target) ∧
        w.tested = acc ++
          (List.range (endA - A0 + 1).toNat).map (fun (i : Nat) => A0 + (i : Int))) := by
  induction n generalizing A0 acc with
  | zero => simp [workerLoop] at h
  | succ n ih =>
    rw [workerLoop] at h
    by_cases hle : A0 ≤ endA
    · rw [if_pos hle] at h
      cases he : exec A0 with
      | none => rw [he] at h; simp at h
      | some res =>
        cases res with
        | panic => rw [he] at h; simp at h
        | ok out =>
          rw [he] at h
          simp only at h
          by_cases hout : out = target
          · rw [if_pos hout] at h
            simp at h
            subst h
            left
            refine ⟨A0, rfl, le_refl _, hle, by rw [he, hout], ?_, ?_⟩
            · intro A1 h1 h2; omega
            · simp [List.range_succ]
          · rw [if_neg hout, wrap64_id (by omega) (by omega)] at h
            have hfirst : ∀ A1, A0 ≤ A1 → ¬ (A0 + 1 ≤ A1) →
                ∃ out, exec A1 = some (.ok out) ∧ out ≠ target := by
              intro A1 h1 h2
              have : A1 = A0 := by omega
              subst this
              exact ⟨out, he, hout⟩
            rcases ih (A0 + 1) (by omega) (acc ++ [A0]) h with
              ⟨A, h1, h2, h3, h4, h5, h6⟩ | ⟨h1, h2, h3⟩
            · left
              refine ⟨A, h1, by omega, h3, h4, ?_, ?_⟩
              · intro A1 ha hb
                by_cases hc : A0 + 1 ≤ A1
                · exact h5 A1 hc hb
                · exact hfirst A1 ha hc
              · rw [h6]
                have : (A - A0 + 1).toNat = (A - (A0 + 1) + 1).toNat + 1 := by omega
                rw [this, range_succ_map_add]
                simp
            · right
              refine ⟨h1, ?_, ?_⟩
              · intro A1 ha hb
                by_cases hc : A0 + 1 ≤ A1
                · exact h2 A1 hc hb
                · exact hfirst A1 ha hc
              · rw [h3]
                have : (endA - A0 + 1).toNat = (endA - (A0 + 1) + 1).toNat + 1 := by omega
                rw [this, range_succ_map_add]
                simp
    · rw [if_neg hle] at h
      simp at h
      subst h
      right
      refine ⟨rfl, by intro A1 h1 h2; omega, ?_⟩
      have : (endA - A0 + 1).toNat = 0 := by omega
      rw [this]
      simp

/-- When every run on a candidate of the block returns, the worker returns within one test of
the loop condition more than the block has candidates. -/
theorem workerLoop_total (exec : Int → Option (Res GoString)) (target : GoString) (endA : Int)
    (hend : endA < 2 ^ 63 - 1) (n : Nat) (A0 : Int) (hA0 : -(2 ^ 63) ≤ A0) (acc : List Int)
    (h : ∀ A1, A0 ≤ A1 → A1 ≤ endA → ∃ out, exec A1 = some (.ok out))
    (hn : (endA - A0 + 1).toNat < n) :
    ∃ w, workerLoop exec target endA n A0 acc = some (.ok w) := by
  induction n generalizing A0 acc with
  | zero => omega
  | succ n ih =>
    rw [workerLoop]
    by_cases hle : A0 ≤ endA
    · rw [if_pos hle]
      obtain ⟨out, he⟩ := h A0 (le_refl _) hle
      rw [he]
      simp only
      by_cases hout : out = target
      · rw [if_pos hout]
        exact ⟨_, rfl⟩
      · rw [if_neg hout, wrap64_id (by omega) (by omega)]
        exact ih (A0 + 1) (by omega) _ (fun A1 h1 h2 => h A1 (by omega) h2) (by omega)
    · rw [if_neg hle]
      exact ⟨_, rfl⟩

/-- The values dispatched while no sum passes the largest Go int. -/
theorem dispatchLoop_jobs (b : Int) (hb : 0 ≤ b) (n : Nat) (A : Int) (hA : -(2 ^ 63) ≤ A)
    (hn : A + n * b < 2 ^ 63 + b) (jobs : List Int) :
    (dispatchLoop b n A jobs).2 =
      jobs ++ (List.range n).map (fun (k : Nat) => A + (k : Int) * b) := by
  induction n generalizing A jobs with
  | zero => simp [dispatchLoop]
  | succ n ih =>
    rw [dispatchLoop]
    cases n with
    | zero => simp [dispatchLoop, List.range_succ]
    | succ m =>
      have hm : (0 : Int) ≤ (m : Int) * b := mul_nonneg (Int.ofNat_nonneg m) hb
      have hw : wrap64 (A + b) = A + b := by
        apply wrap64_id (by omega)
        push_cast at hn
        nlinarith
      rw [hw, ih (A + b) (by omega) (by push_cast at hn ⊢; nlinarith)]
      simp only [List.range_succ_eq_map (m + 1), List.map_cons, List.map_map, List.append_assoc,
        List.singleton_append, Nat.cast_zero, zero_mul, add_zero]
      congr 2
      apply List.map_congr_left
      intro k _
      simp only [Function.comp, Nat.cast_succ]
      ring


/-- The only `return` statement of `parallelSearch` is `return -1`. -/
theorem parallelSearchLoop_result (sch : Schedule) (b : Int) (fuel i : Nat) (A v : Int)
    (h : parallelSearchLoop sch b fuel i A = some v) : v = -1 := by
  induction fuel generalizing i A with
  | zero => simp [parallelSearchLoop] at h
  | succ fuel ih =>
    rw [parallelSearchLoop] at h
    split_ifs at h
    · exact (Option.some.inj h).symm
    · exact ih _ _ h

set_option maxRecDepth 100000 in
/-- The seed 117440 of the fixture program, run by the interpreter of main3.go. -/
theorem fixture_seed :
    Main3.executeProgram 20 117440 0 0 [0, 3, 5, 4, 3, 0] =
      some (.ok (joinInts [0, 3, 5, 4, 3, 0])) := by
  decide

/-- A worker started on the largest Go int with a block of two candidates: `endA` wraps
around to the least Go int and the loop body is never entered. -/
theorem worker_at_max :
    Main3.executeProgram 2 9223372036854775807 0 0 [5, 0] = some (.ok ['0']) ∧
      ∀ fuel turns, Main3.worker fuel (turns + 1) [5, 0] ['0'] 9223372036854775807 2 =
        some (.ok ⟨[], none⟩) := by
  refine ⟨by decide, ?_⟩
  intro fuel turns
  rfl

/-! ## The program of `main` in main2.go -/

theorem xor_five_bounds (a : Int) (ha : 0 ≤ a) :
    0 ≤ Int.xor (Int.tmod a 8) 5 ∧ Int.xor (Int.tmod a 8) 5 ≤ 63 := by
  have h1 := Int.tmod_nonneg 8 ha
  have h2 := Int.tmod_lt_of_pos a (show (0 : Int) < 8 by norm_num)
  generalize Int.tmod a 8 = r at h1 h2
  interval_cases r <;> decide

/-- One turn of the loop of `Main2.mainProgram` up to its jump: `A` is divided by 8 and one
value is output. -/
theorem mainProgram_turn (a b c : Int) (outs : List Int) (ha : 0 ≤ a) (ha2 : a < 2 ^ 63) :
    ∃ b1 c1 o, stateAfter loopDenom Main2.mainProgram 7 ⟨a, b, c, 0, outs⟩ =
      some ⟨a / 8, b1, c1, 14, outs ++ [o]⟩ := by
  have hq : Int.tdiv a 8 = a / 8 := Int.tdiv_eq_ediv ha (by norm_num)
  have s1 : step loopDenom Main2.mainProgram ⟨a, b, c, 0, outs⟩ =
      .next ⟨a, Int.tmod a 8, c, 2, outs⟩ := rfl
  have s2 : step loopDenom Main2.mainProgram ⟨a, Int.tmod a 8, c, 2, outs⟩ =
      .next ⟨a, Int.xor (Int.tmod a 8) 5, c, 4, outs⟩ := rfl
  obtain ⟨hb0, hb1⟩ := xor_five_bounds a ha
  obtain ⟨denom, hd, hd0, _⟩ :=
    tdiv_loopDenom_shift (v := Int.xor (Int.tmod a 8) 5) ha ha2 hb0 hb1
  have s3 : step loopDenom Main2.mainProgram ⟨a, Int.xor (Int.tmod a 8) 5, c, 4, outs⟩ =
      .next ⟨a, Int.xor (Int.tmod a 8) 5, Int.tdiv a denom, 6, outs⟩ := by
    rw [step_fetch loopDenom Main2.mainProgram
      ⟨a, Int.xor (Int.tmod a 8) 5, c, 4, outs⟩ 7 5 rfl rfl]
    show dispatch loopDenom 7 "combo" (Int.xor (Int.tmod a 8) 5) _ = _
    rw [dispatch_seven]
    unfold divStep
    rw [hd]
    simp only
    rw [if_neg hd0]
    rfl
  generalize Int.xor (Int.tmod a 8) 5 = b2 at s2 s3
  generalize Int.tdiv a denom = c2 at s3
  have s4 : step loopDenom Main2.mainProgram ⟨a, b2, c2, 6, outs⟩ =
      .next ⟨a, Int.xor b2 6, c2, 8, outs⟩ := rfl
  have s5 : step loopDenom Main2.mainProgram ⟨a, Int.xor b2 6, c2, 8, outs⟩ =
      .next ⟨Int.tdiv a 8, Int.xor b2 6, c2, 10, outs⟩ := rfl
  have s6 : step loopDenom Main2.mainProgram ⟨a / 8, Int.xor b2 6, c2, 10, outs⟩ =
      .next ⟨a / 8, Int.xor (Int.xor b2 6) c2, c2, 12, outs⟩ := rfl
  have s7 : step loopDenom Main2.mainProgram
      ⟨a / 8, Int.xor (Int.xor b2 6) c2, c2, 12, outs⟩ =
      .next ⟨a / 8, Int.xor (Int.xor b2 6) c2, c2, 14,
        outs ++ [Int.tmod (Int.xor (Int.xor b2 6) c2) 8]⟩ := rfl
  rw [hq] at s5
  refine ⟨Int.xor (Int.xor b2 6) c2, c2, Int.tmod (Int.xor (Int.xor b2 6) c2) 8, ?_⟩
  simp only [stateAfter, s1, s2, s3, s4, s5, s6, s7]

/-- The jump of `Main2.mainProgram`. -/
theorem mainProgram_jump (a b c : Int) (outs : List Int) :
    step loopDenom Main2.mainProgram ⟨a, b, c, 14, outs⟩ =
      .next ⟨a, b, c, if a ≠ 0 then 0 else 16, outs⟩ := by
  rw [step_fetch loopDenom Main2.mainProgram ⟨a, b, c, 14, outs⟩ 3 0 rfl rfl]
  show dispatch loopDenom 3 "literal" 0 _ = _
  unfold dispatch
  by_cases h : a ≠ 0
  · simp [h]
  · simp [h]

/-- A seed below `8 ^ (k + 1)` makes `Main2.mainProgram` halt within `8 * (k + 1) + 1`
iterations, with at most `k + 1` outputs more. -/
theorem mainProgram_run (k : Nat) (a b c : Int) (outs : List Int) (ha : 0 ≤ a)
    (hk : a < 8 ^ (k + 1)) (ha2 : a < 2 ^ 63) :
    ∃ outs1, run loopDenom Main2.mainProgram (8 * (k + 1) + 1) ⟨a, b, c, 0, outs⟩ =
        some (.halted outs1) ∧
      outs.length < outs1.length ∧ outs1.length ≤ outs.length + (k + 1) := by
  induction k generalizing a b c outs with
  | zero =>
    obtain ⟨b1, c1, o, h7⟩ := mainProgram_turn a b c outs ha ha2
    have h0 : a / 8 = 0 := Int.ediv_eq_zero_of_lt ha (by simpa using hk)
    have hj := mainProgram_jump (a / 8) b1 c1 (outs ++ [o])
    rw [h0] at h7 hj
    simp only [ne_eq, not_true_eq_false, if_false] at hj
    refine ⟨outs ++ [o], ?_, by simp, by simp⟩
    rw [show 8 * (0 + 1) + 1 = 7 + 2 by rfl, stateAfter_run _ _ _ _ _ _ h7, run, hj]
    rfl
  | succ k ih =>
    obtain ⟨b1, c1, o, h7⟩ := mainProgram_turn a b c outs ha ha2
    have hj := mainProgram_jump (a / 8) b1 c1 (outs ++ [o])
    have ha8 : 0 ≤ a / 8 := Int.ediv_nonneg ha (by norm_num)
    have hk8 : a / 8 < 8 ^ (k + 1) := by
      have : a < 8 ^ (k + 1) * 8 := by rw [← pow_succ]; exact hk
      exact Int.ediv_lt_of_lt_mul (by norm_num) this
    have ha28 : a / 8 < 2 ^ 63 := lt_of_le_of_lt (Int.ediv_le_self _ ha) ha2
    by_cases h0 : a / 8 = 0
    · rw [h0] at h7 hj
      simp only [ne_eq, not_true_eq_false, if_false] at hj
      refine ⟨outs ++ [o], ?_, by simp, by simp⟩
      have : run loopDenom Main2.mainProgram (7 + 2) ⟨a, b, c, 0, outs⟩ =
          some (.halted (outs ++ [o])) := by
        rw [stateAfter_run _ _ _ _ _ _ h7, run, hj]
        rfl
      exact run_mono _ _ _ _ (by omega) this
    · simp only [ne_eq, h0, not_false_eq_true, if_true] at hj
      obtain ⟨outs1, hrun, hl1, hl2⟩ := ih (a / 8) b1 c1 (outs ++ [o]) ha8 hk8 ha28
      refine ⟨outs1, ?_, ?_, ?_⟩
      · rw [show 8 * (k + 1 + 1) + 1 = 7 + (8 * (k + 1) + 1 + 1) by omega,
          stateAfter_run _ _ _ _ _ _ h7, run, hj]
        exact hrun
      · simp at hl1; omega
      · simp at hl2; omega

/-- No seed below `8 ^ 15` makes `Main2.mainProgram` output its 16 values. -/
theorem mainProgram_no_match (a : Int) (ha : 0 ≤ a) (hk : a < 8 ^ 15) :
    ∃ out, Main2.executeProgram 121 a 0 0 Main2.mainProgram = some (.ok out) ∧
      out ≠ joinInts Main2.mainProgram := by
  obtain ⟨outs1, hrun, _, hl2⟩ := mainProgram_run 14 a 0 0 [] ha hk
    (lt_trans hk (by norm_num))
  refine ⟨_, result_of_halted _ _ _ _ _ _ _ hrun, ?_⟩
  intro heq
  have := joinInts_injective heq
  rw [this] at hl2
  simp [Main2.mainProgram] at hl2

/-! ## More fuel changes no result of a search -/

theorem scanLoop_mono (exec1 exec2 : Int → Option (Res GoString))
    (hexec : ∀ A r, exec1 A = some r → exec2 A = some r) (target : GoString) (n : Nat)
    (A0 : Int) (r : Res Int) (h : scanLoop exec1 target n A0 = some r) :
    scanLoop exec2 target n A0 = some r := by
  induction n generalizing A0 with
  | zero => exact h
  | succ n ih =>
    rw [scanLoop] at h ⊢
    cases he : exec1 A0 with
    | none => rw [he] at h; cases h
    | some res =>
      rw [he] at h
      rw [hexec A0 res he]
      cases res with
      | panic => exact h
      | ok out =>
        simp only at h ⊢
        split_ifs at h ⊢ with hout
        · exact h
        · exact ih _ h

theorem coarseLoop_mono (exec1 exec2 : Int → Option (Res GoString))
    (hexec : ∀ A r, exec1 A = some r → exec2 A = some r) (target : GoString)
    (targetLength step : Int) (n : Nat) (A0 : Int) (r : Res Coarse)
    (h : coarseLoop exec1 target targetLength step n A0 = some r) :
    coarseLoop exec2 target targetLength step n A0 = some r := by
  induction n generalizing A0 with
  | zero => exact h
  | succ n ih =>
    rw [coarseLoop] at h ⊢
    cases he : exec1 A0 with
    | none => rw [he] at h; cases h
    | some res =>
      rw [he] at h
      rw [hexec A0 res he]
      cases res with
      | panic => exact h
      | ok out =>
        simp only at h ⊢
        split_ifs at h ⊢
        · exact h
        · exact h
        · exact ih _ h
        · exact h
        · exact ih _ h

theorem improved_mono (fuel k : Nat) (P : List Int) (r : Res Int)
    (h : Main2Copy.findMinimumAForSelfReplicatingProgramImproved fuel P = some r) :
    Main2Copy.findMinimumAForSelfReplicatingProgramImproved (fuel + k) P = some r := by
  have hexec : ∀ A r, Main2Copy.executeProgram fuel A 0 0 P = some r →
      Main2Copy.executeProgram (fuel + k) A 0 0 P = some r :=
    fun A r h => executeProgramWith_mono _ _ _ _ _ _ (Nat.le_add_right _ _) h
  simp only [Main2Copy.findMinimumAForSelfReplicatingProgramImproved] at h ⊢
  cases hc : coarseLoop (fun A => Main2Copy.executeProgram fuel A 0 0 P) (joinInts P)
      P.length 100 10001 0 with
  | none => rw [hc] at h; cases h
  | some res =>
    rw [hc] at h
    rw [coarseLoop_mono _ _ hexec _ _ _ _ _ _ hc]
    cases res with
    | panic => exact h
    | ok c =>
      cases c with
      | found A => exact h
      | noRange => exact h
      | range lastA => exact scanLoop_mono _ _ hexec _ _ _ _ h

set_option maxRecDepth 1000000 in
set_option maxHeartbeats 4000000 in
/-- On the program of its own `main` the improved search leaves its coarse loop at
`A = 32800`, the first multiple of 100 with six outputs, scans `32700..32800` and returns
`-1`. -/
theorem improved_on_mainProgram :
    Main2Copy.findMinimumAForSelfReplicatingProgramImproved 20 Main2Copy.mainProgram =
      some (.ok (-1)) := by
  decide

/-! ## The `return ""` statements -/

theorem run_failed_iff (d : Int → Res Int) (program : List Int) (fuel : Nat) (s0 : State) :
    run d program fuel s0 = some .failed ↔
      ∃ n s, n < fuel ∧ stateAfter d program n s0 = some s ∧ step d program s = .fail := by
  induction fuel generalizing s0 with
  | zero => simp [run]
  | succ fuel ih =>
    rw [run]
    cases hs : step d program s0 with
    | next s1 =>
      simp only
      rw [ih s1]
      constructor
      · rintro ⟨n, s, hn, hst, hf⟩
        exact ⟨n + 1, s, by omega, by rw [stateAfter, hs]; exact hst, hf⟩
      · rintro ⟨n, s, hn, hst, hf⟩
        cases n with
        | zero =>
          simp [stateAfter] at hst
          subst hst
          rw [hs] at hf
          cases hf
        | succ n =>
          rw [stateAfter, hs] at hst
          exact ⟨n, s, by omega, hst, hf⟩
    | done s1 =>
      simp only
      constructor
      · intro h; cases h
      · rintro ⟨n, s, hn, hst, hf⟩
        cases n with
        | zero =>
          simp [stateAfter] at hst
          subst hst
          rw [hs] at hf
          cases hf
        | succ n => rw [stateAfter, hs] at hst; cases hst
    | fail =>
      simp only
      constructor
      · intro _
        exact ⟨0, s0, by omega, rfl, hs⟩
      · intro _; trivial
    | panic =>
      simp only
      constructor
      · intro h; cases h
      · rintro ⟨n, s, hn, hst, hf⟩
        cases n with
        | zero =>
          simp [stateAfter] at hst
          subst hst
          rw [hs] at hf
          cases hf
        | succ n => rw [stateAfter, hs] at hst; cases hst

theorem denomLoop_eq_zero_iff (n : Nat) : denomLoop n 1 = 0 ↔ 64 ≤ n := by
  constructor
  · intro h
    by_contra hn
    rcases Nat.lt_or_ge n 63 with h1 | h1
    · rw [denomLoop_small _ (by omega)] at h
      have : (0 : Int) < 2 ^ n := by positivity
      omega
    · have : n = 63 := by omega
      rw [this, denomLoop_63] at h
      norm_num at h
  · exact denomLoop_large n

theorem divStep_loopDenom_fail_iff (v : Int) (f : Int → State) :
    divStep loopDenom v f = .fail ↔ 64 ≤ v := by
  unfold divStep loopDenom
  simp only
  by_cases h : denomLoop v.toNat 1 = 0
  · rw [if_pos h]
    have := (denomLoop_eq_zero_iff _).mp h
    constructor
    · intro _; omega
    · intro _; trivial
  · rw [if_neg h]
    have := fun h64 => h ((denomLoop_eq_zero_iff v.toNat).mpr h64)
    constructor
    · intro h1; cases h1
    · intro h1; exact absurd (by omega : 64 ≤ v.toNat) this

theorem resolve_combo_none_iff (operand : Int) (s : State) :
    resolveOperand "combo" operand s = none ↔ ¬ (0 ≤ operand ∧ operand ≤ 6) := by
  unfold resolveOperand
  rw [if_neg (by decide), if_pos rfl]
  split_ifs <;> simp <;> omega

theorem resolve_literal (operand : Int) (s : State) :
    resolveOperand "literal" operand s = some operand := by
  unfold resolveOperand
  rw [if_pos rfl]

theorem resolve_ignored (operand : Int) (s : State) :
    resolveOperand "ignored" operand s = some 0 := by
  unfold resolveOperand
  rw [if_neg (by decide), if_neg (by decide), if_pos rfl]

/-- The iterations that end in `return ""`: a combo operand outside `0..6`, or a division
whose operand value is 64 or more. -/
theorem step_fail_iff (program : List Int) (s : State) :
    step loopDenom program s = .fail ↔
      ∃ opcode operand, index program s.IP = some opcode ∧
        index program (s.IP + 1) = some operand ∧
        (((opcode = 0 ∨ opcode = 2 ∨ opcode = 5 ∨ opcode = 6 ∨ opcode = 7) ∧
            ¬ (0 ≤ operand ∧ operand ≤ 6)) ∨
          ((opcode = 0 ∨ opcode = 6 ∨ opcode = 7) ∧
            ∃ v, resolveOperand "combo" operand s = some v ∧ 64 ≤ v)) := by
  constructor
  · intro h
    have h0 := h
    unfold step at h0
    by_cases h1 : ¬ (s.IP < program.length)
    · rw [if_pos h1] at h0; cases h0
    rw [if_neg h1] at h0
    by_cases h2 : s.IP + 1 ≥ program.length
    · rw [if_pos h2] at h0; cases h0
    clear h0
    obtain ⟨opcode, hop⟩ := index_of_bounds (by
      by_contra hneg
      unfold step at h
      rw [if_neg h1, if_neg h2] at h
      have : index program s.IP = none := by unfold index; rw [if_pos (by omega)]
      rw [this] at h
      cases h) (by omega : s.IP < program.length)
    have hip := (index_some hop).1
    obtain ⟨operand, hoperand⟩ :=
      index_of_bounds (by omega : 0 ≤ s.IP + 1) (by omega : s.IP + 1 < program.length)
    refine ⟨opcode, operand, hop, hoperand, ?_⟩
    rw [step_fetch loopDenom program s opcode operand hop hoperand] at h
    by_cases c0 : opcode = 0
    · subst c0
      rw [show operandTypes 0 = some "combo" by decide] at h
      simp only at h
      cases hr : resolveOperand "combo" operand s with
      | none => exact Or.inl ⟨by simp, (resolve_combo_none_iff _ _).mp hr⟩
      | some v =>
        rw [hr] at h
        simp only at h
        rw [dispatch_zero] at h
        exact Or.inr ⟨by simp, v, rfl, (divStep_loopDenom_fail_iff _ _).mp h⟩
    by_cases c6 : opcode = 6
    · subst c6
      rw [show operandTypes 6 = some "combo" by decide] at h
      simp only at h
      cases hr : resolveOperand "combo" operand s with
      | none => exact Or.inl ⟨by simp, (resolve_combo_none_iff _ _).mp hr⟩
      | some v =>
        rw [hr] at h
        simp only at h
        rw [dispatch_six] at h
        exact Or.inr ⟨by simp, v, rfl, (divStep_loopDenom_fail_iff _ _).mp h⟩
    by_cases c7 : opcode = 7
    · subst c7
      rw [show operandTypes 7 = some "combo" by decide] at h
      simp only at h
      cases hr : resolveOperand "combo" operand s with
      | none => exact Or.inl ⟨by simp, (resolve_combo_none_iff _ _).mp hr⟩
      | some v =>
        rw [hr] at h
        simp only at h
        rw [dispatch_seven] at h
        exact Or.inr ⟨by simp, v, rfl, (divStep_loopDenom_fail_iff _ _).mp h⟩
    by_cases c2 : opcode = 2
    · subst c2
      rw [show operandTypes 2 = some "combo" by decide] at h
      simp only at h
      cases hr : resolveOperand "combo" operand s with
      | none => exact Or.inl ⟨by simp, (resolve_combo_none_iff _ _).mp hr⟩
      | some v =>
        rw [hr] at h
        simp [dispatch] at h
    by_cases c5 : opcode = 5
    · subst c5
      rw [show operandTypes 5 = some "combo" by decide] at h
      simp only at h
      cases hr : resolveOperand "combo" operand s with
      | none => exact Or.inl ⟨by simp, (resolve_combo_none_iff _ _).mp hr⟩
      | some v =>
        rw [hr] at h
        simp [dispatch] at h
    by_cases c1 : opcode = 1
    · subst c1
      rw [show operandTypes 1 = some "literal" by decide] at h
      simp only at h
      rw [resolve_literal] at h
      simp [dispatch] at h
    by_cases c3 : opcode = 3
    · subst c3
      rw [show operandTypes 3 = some "literal" by decide] at h
      simp only at h
      rw [resolve_literal] at h
      simp only [dispatch] at h
      split_ifs at h with hl
      exact absurd rfl hl
    by_cases c4 : opcode = 4
    · subst c4
      rw [show operandTypes 4 = some "ignored" by decide] at h
      simp only at h
      rw [resolve_ignored] at h
      simp [dispatch] at h
    · have hn : operandTypes opcode = none := by
        unfold operandTypes
        rw [if_neg c0, if_neg c1, if_neg c2, if_neg c3, if_neg c4, if_neg c5, if_neg c6,
          if_neg c7]
      rw [hn] at h
      cases h
  · rintro ⟨opcode, operand, hop, hoperand, hc⟩
    rw [step_fetch loopDenom program s opcode operand hop hoperand]
    rcases hc with ⟨hk, hbad⟩ | ⟨hk, v, hv, h64⟩
    · have hr := (resolve_combo_none_iff operand s).mpr hbad
      have hk2 : operandTypes opcode = some "combo" := by
        rcases hk with rfl | rfl | rfl | rfl | rfl <;> decide
      rw [hk2]
      simp only
      rw [hr]
    · have hk2 : operandTypes opcode = some "combo" := by
        rcases hk with rfl | rfl | rfl <;> decide
      rw [hk2]
      simp only
      rw [hv]
      simp only
      rcases hk with rfl | rfl | rfl
      · rw [dispatch_zero]
        exact (divStep_loopDenom_fail_iff _ _).mpr h64
      · rw [dispatch_six]
        exact (divStep_loopDenom_fail_iff _ _).mpr h64
      · rw [dispatch_seven]
        exact (divStep_loopDenom_fail_iff _ _).mpr h64

/-! ## One output for each octal digit -/

/-- A seed with exactly `k + 1` octal digits (or the seed 0, with `k = 0`) makes
`Main2.mainProgram` halt within `8 * (k + 1) + 1` iterations with exactly `k + 1` outputs
more. -/
theorem mainProgram_run_exact (k : Nat) (a b c : Int) (outs : List Int) (ha : 0 ≤ a)
    (hk : a < 8 ^ (k + 1)) (hlow : k = 0 ∨ 8 ^ k ≤ a) (ha2 : a < 2 ^ 63) :
    ∃ outs1, run loopDenom Main2.mainProgram (8 * (k + 1) + 1) ⟨a, b, c, 0, outs⟩ =
        some (.halted outs1) ∧ outs1.length = outs.length + (k + 1) := by
  induction k generalizing a b c outs with
  | zero =>
    obtain ⟨b1, c1, o, h7⟩ := mainProgram_turn a b c outs ha ha2
    have h0 : a / 8 = 0 := Int.ediv_eq_zero_of_lt ha (by simpa using hk)
    have hj := mainProgram_jump (a / 8) b1 c1 (outs ++ [o])
    rw [h0] at h7 hj
    simp only [ne_eq, not_true_eq_false, if_false] at hj
    refine ⟨outs ++ [o], ?_, by simp⟩
    rw [show 8 * (0 + 1) + 1 = 7 + 2 by rfl, stateAfter_run _ _ _ _ _ _ h7, run, hj]
    rfl
  | succ k ih =>
    have hlow1 : (8 : Int) ^ (k + 1) ≤ a := by
      rcases hlow with h | h
      · omega
      · exact h
    obtain ⟨b1, c1, o, h7⟩ := mainProgram_turn a b c outs ha ha2
    have hj := mainProgram_jump (a / 8) b1 c1 (outs ++ [o])
    have ha8 : 0 ≤ a / 8 := Int.ediv_nonneg ha (by norm_num)
    have hk8 : a / 8 < 8 ^ (k + 1) := by
      have : a < 8 ^ (k + 1) * 8 := by rw [← pow_succ]; exact hk
      exact Int.ediv_lt_of_lt_mul (by norm_num) this
    have hlow8 : (8 : Int) ^ k ≤ a / 8 := by
      rw [pow_succ] at hlow1
      exact Int.le_ediv_of_mul_le (by norm_num) hlow1
    have ha28 : a / 8 < 2 ^ 63 := lt_of_le_of_lt (Int.ediv_le_self _ ha) ha2
    have h0 : a / 8 ≠ 0 := by
      have : (0 : Int) < 8 ^ k := by positivity
      omega
    simp only [ne_eq, h0, not_false_eq_true, if_true] at hj
    obtain ⟨outs1, hrun, hl⟩ :=
      ih (a / 8) b1 c1 (outs ++ [o]) ha8 hk8 (Or.inr hlow8) ha28
    refine ⟨outs1, ?_, ?_⟩
    · rw [show 8 * (k + 1 + 1) + 1 = 7 + (8 * (k + 1) + 1 + 1) by omega,
        stateAfter_run _ _ _ _ _ _ h7, run, hj]
      exact hrun
    · simp at hl; omega

/-! ## The two ways to compute the divisor -/

theorem shiftDenom_eq_loopDenom (v : Int) (hv : 0 ≤ v) : shiftDenom v = loopDenom v := by
  unfold shiftDenom loopDenom
  rw [if_neg (by omega)]
  by_cases h : 64 ≤ v
  · rw [if_pos h, denomLoop_large _ (by omega)]
  · rw [if_neg h, denomLoop_one]

theorem divStep_shift_eq_loop (v : Int) (hv : 0 ≤ v) (f : Int → State) :
    divStep shiftDenom v f = divStep loopDenom v f := by
  unfold divStep
  rw [shiftDenom_eq_loopDenom v hv]

theorem dispatch_shift_eq_loop (opcode : Int) (otype : String) (v : Int) (hv : 0 ≤ v)
    (s : State) : dispatch shiftDenom opcode otype v s = dispatch loopDenom opcode otype v s := by
  by_cases h0 : opcode = 0
  · subst h0; rw [dispatch_zero, dispatch_zero, divStep_shift_eq_loop v hv]
  by_cases h6 : opcode = 6
  · subst h6; rw [dispatch_six, dispatch_six, divStep_shift_eq_loop v hv]
  by_cases h7 : opcode = 7
  · subst h7; rw [dispatch_seven, dispatch_seven, divStep_shift_eq_loop v hv]
  unfold dispatch
  rw [if_neg h0, if_neg h0]
  simp only [if_neg h6, if_neg h7]

theorem step_shift_eq_loop (program : List Int) (hprog : ∀ x ∈ program, 0 ≤ x) (s : State)
    (hs : Inv s) : step shiftDenom program s = step loopDenom program s := by
  unfold step
  by_cases h1 : ¬ (s.IP < program.length)
  · rw [if_pos h1, if_pos h1]
  rw [if_neg h1, if_neg h1]
  by_cases h2 : s.IP + 1 ≥ program.length
  · rw [if_pos h2, if_pos h2]
  rw [if_neg h2, if_neg h2]
  cases hop : index program s.IP with
  | none => rfl
  | some opcode =>
    cases hoperand : index program (s.IP + 1) with
    | none => rfl
    | some operand =>
      simp only
      cases hot : operandTypes opcode with
      | none => rfl
      | some otype =>
        simp only
        cases hr : resolveOperand otype operand s with
        | none => rfl
        | some v =>
          simp only
          exact dispatch_shift_eq_loop _ _ _
            (resolve_nonneg hs (hprog _ (index_mem hoperand)) hr) _

set_option maxRecDepth 100000 in
/-- A run that divides by `2 ^ 63` and then by `2 ^ 64`. -/
theorem overflowing_divisors :
    Main2.executeProgram 5 5 63 64 [0, 5, 5, 4, 0, 6] = some (.ok []) ∧
      execute loopDenom 5 5 63 64 [0, 5, 5, 4] = some (.halted [0]) := by
  decide

theorem run_shift_eq_loop (program : List Int) (hprog : ∀ x ∈ program, 0 ≤ x) (fuel : Nat)
    (s : State) (hs : Inv s) : run shiftDenom program fuel s = run loopDenom program fuel s := by
  induction fuel generalizing s with
  | zero => rfl
  | succ fuel ih =>
    rw [run, run, step_shift_eq_loop program hprog s hs]
    cases hstep : step loopDenom program s with
    | next s1 => exact ih s1 (step_inv program hprog s s1 hs hstep)
    | done s1 => rfl
    | fail => rfl
    | panic => rfl

/-! ## Registers within the range of a Go int -/

theorem tdiv_loopDenom_le {a v denom : Int} (ha : 0 ≤ a) (ha2 : a < 2 ^ 63)
    (hd : loopDenom v = .ok denom) (h0 : denom ≠ 0) : Int.tdiv a denom ≤ a := by
  unfold loopDenom at hd
  simp at hd
  subst hd
  rcases Nat.lt_trichotomy v.toNat 63 with h | h | h
  · rw [denomLoop_small _ (by omega)] at h0 ⊢
    have hp : (0 : Int) ≤ 2 ^ v.toNat := by positivity
    rw [Int.tdiv_eq_ediv ha hp]
    exact Int.ediv_le_self _ ha
  · have hz : Int.tdiv a (2 ^ 63) = 0 := Int.tdiv_eq_zero_of_lt ha ha2
    rw [h, denomLoop_63, Int.tdiv_neg, hz]
    simpa using ha
  · exact absurd (denomLoop_large _ (by omega)) h0

theorem xor_lt {a b : Int} (ha : 0 ≤ a) (hb : 0 ≤ b) (ha2 : a < 2 ^ 63) (hb2 : b < 2 ^ 63) :
    Int.xor a b < 2 ^ 63 := by
  obtain ⟨m, rfl⟩ := Int.eq_ofNat_of_zero_le ha
  obtain ⟨n, rfl⟩ := Int.eq_ofNat_of_zero_le hb
  show ((m ^^^ n : Nat) : Int) < 2 ^ 63
  have hm : m < 2 ^ 63 := by exact_mod_cast ha2
  have hn : n < 2 ^ 63 := by exact_mod_cast hb2
  exact_mod_cast Nat.xor_lt_two_pow hm hn

/-- What one executed instruction does to the registers when they are not negative:
`A` does not grow, and `B` and `C` stay below `2 ^ 63` when they and the operand value
are. -/
theorem dispatch_regs (opcode : Int) (otype : String) (v : Int) (s s1 : State) (hs : Inv s)
    (hv0 : 0 ≤ v) (h : dispatch loopDenom opcode otype v s = .next s1) :
    s1.A ≤ s.A ∧
      (v < 2 ^ 63 → s.B < 2 ^ 63 → s.C < 2 ^ 63 → s1.B < 2 ^ 63 ∧ s1.C < 2 ^ 63) := by
  obtain ⟨hA, hA2, hB, hC, hout⟩ := hs
  have h8 : Int.tmod v 8 < 2 ^ 63 := by
    have := Int.tmod_lt_of_pos v (show (0 : Int) < 8 by norm_num)
    omega
  by_cases h0 : opcode = 0
  · subst h0
    rw [dispatch_zero] at h
    obtain ⟨denom, hd, hd0, rfl⟩ := divStep_next h
    exact ⟨tdiv_loopDenom_le hA hA2 hd hd0, fun _ h1 h2 => ⟨h1, h2⟩⟩
  by_cases h6 : opcode = 6
  · subst h6
    rw [dispatch_six] at h
    obtain ⟨denom, hd, hd0, rfl⟩ := divStep_next h
    exact ⟨le_refl _, fun _ _ h2 => ⟨(tdiv_loopDenom_bounds hA hA2 hd hd0).2, h2⟩⟩
  by_cases h7 : opcode = 7
  · subst h7
    rw [dispatch_seven] at h
    obtain ⟨denom, hd, hd0, rfl⟩ := divStep_next h
    exact ⟨le_refl _, fun _ h1 _ => ⟨h1, (tdiv_loopDenom_bounds hA hA2 hd hd0).2⟩⟩
  unfold dispatch at h
  rw [if_neg h0] at h
  by_cases h1 : opcode = 1
  · rw [if_pos h1] at h
    split_ifs at h
    cases h
    exact ⟨le_refl _, fun hv b1 c1 => ⟨xor_lt hB hv0 b1 hv, c1⟩⟩
  rw [if_neg h1] at h
  by_cases h2 : opcode = 2
  · rw [if_pos h2] at h
    split_ifs at h
    cases h
    exact ⟨le_refl _, fun _ _ c1 => ⟨h8, c1⟩⟩
  rw [if_neg h2] at h
  by_cases h3 : opcode = 3
  · rw [if_pos h3] at h
    split_ifs at h
    · cases h
      exact ⟨le_refl _, fun _ b1 c1 => ⟨b1, c1⟩⟩
    · cases h
      exact ⟨le_refl _, fun _ b1 c1 => ⟨b1, c1⟩⟩
  rw [if_neg h3] at h
  by_cases h4 : opcode = 4
  · rw [if_pos h4] at h
    cases h
    exact ⟨le_refl _, fun _ b1 c1 => ⟨xor_lt hB hC b1 c1, c1⟩⟩
  rw [if_neg h4] at h
  by_cases h5 : opcode = 5
  · rw [if_pos h5] at h
    split_ifs at h
    cases h
    exact ⟨le_refl _, fun _ b1 c1 => ⟨b1, c1⟩⟩
  rw [if_neg h5] at h
  rw [if_neg h6, if_neg h7] at h
  cases h

theorem resolve_lt {otype : String} {operand v : Int} {s : State} (hs : Inv s)
    (hoperand : operand < 2 ^ 63) (hB : s.B < 2 ^ 63) (hC : s.C < 2 ^ 63)
    (h : resolveOperand otype operand s = some v) : v < 2 ^ 63 := by
  obtain ⟨_, hA2, _, _, _⟩ := hs
  unfold resolveOperand at h
  split_ifs at h <;> simp at h <;> omega

theorem step_regs (program : List Int) (hprog : ∀ x ∈ program, 0 ≤ x) (s s1 : State)
    (hs : Inv s) (h : step loopDenom program s = .next s1) :
    s1.A ≤ s.A ∧
      ((∀ x ∈ program, x < 2 ^ 63) → s.B < 2 ^ 63 → s.C < 2 ^ 63 →
        s1.B < 2 ^ 63 ∧ s1.C < 2 ^ 63) := by
  unfold step at h
  split_ifs at h
  split at h
  · rename_i opcode operand hop hoperand
    have hoperand0 := hprog _ (index_mem hoperand)
    split at h
    · cases h
    · split at h
      · cases h
      · rename_i v hv
        have hd := dispatch_regs _ _ _ _ _ hs (resolve_nonneg hs hoperand0 hv) h
        exact ⟨hd.1, fun hp b1 c1 =>
          hd.2 (resolve_lt hs (hp _ (index_mem hoperand)) b1 c1 hv) b1 c1⟩
  · cases h

/-- The state after any number of executed instructions, from non-negative registers on a
program of non-negative integers. -/
theorem stateAfter_regs (program : List Int) (hprog : ∀ x ∈ program, 0 ≤ x) (n : Nat)
    (s0 s : State) (hs : Inv s0) (hip : 0 ≤ s0.IP)
    (h : stateAfter loopDenom program n s0 = some s) :
    Inv s ∧ 0 ≤ s.IP ∧ s.A ≤ s0.A ∧
      ((∀ x ∈ program, x < 2 ^ 63) → s0.B < 2 ^ 63 → s0.C < 2 ^ 63 →
        s.B < 2 ^ 63 ∧ s.C < 2 ^ 63) := by
  induction n generalizing s0 with
  | zero =>
    simp [stateAfter] at h
    subst h
    exact ⟨hs, hip, le_refl _, fun _ b1 c1 => ⟨b1, c1⟩⟩
  | succ n ih =>
    rw [stateAfter] at h
    cases hstep : step loopDenom program s0 with
    | next s1 =>
      rw [hstep] at h
      have hr := step_regs program hprog s0 s1 hs hstep
      obtain ⟨i1, i2, i3, i4⟩ := ih s1 (step_inv program hprog s0 s1 hs hstep)
        (step_next_IP_nonneg program hprog s0 s1 hip hstep) h
      refine ⟨i1, i2, le_trans i3 hr.1, fun hp b1 c1 => ?_⟩
      obtain ⟨b2, c2⟩ := hr.2 hp b1 c1
      exact i4 hp b2 c2
    | done s1 => rw [hstep] at h; simp at h
    | fail => rw [hstep] at h; simp at h
    | panic => rw [hstep] at h; simp at h

/-! ## Runs whose pointer grows -/

theorem stateAfter_succ_of_next (d : Int → Res Int) (p : List Int) (s s1 : State)
    (hs : step d p s = .next s1) (m : Nat) :
    stateAfter d p (m + 1) s = stateAfter d p m s1 := by
  rw [stateAfter, hs]

/-- A run whose pointer grows by at least `k` in every iteration ends within
`(len(program) - IP) / k + 1` iterations. -/
theorem run_progress (program : List Int) (k : Int) (n : Nat) (s : State)
    (hinc : ∀ m s1 s2, stateAfter loopDenom program m s = some s1 →
      step loopDenom program s1 = .next s2 → s1.IP + k ≤ s2.IP)
    (hn : (program.length : Int) - s.IP ≤ k * n + 1) :
    ∃ o, run loopDenom program (n + 1) s = some o := by
  induction n generalizing s with
  | zero =>
    rw [run, step_halt _ _ _ (by push_cast at hn; omega)]
    exact ⟨_, rfl⟩
  | succ n ih =>
    rw [run]
    cases hs : step loopDenom program s with
    | next s1 =>
      simp only
      have hip := hinc 0 s s1 rfl hs
      refine ih s1 ?_ ?_
      · intro m t1 t2 ht1 ht2
        exact hinc (m + 1) t1 t2 (by rw [stateAfter_succ_of_next _ _ _ _ hs]; exact ht1) ht2
      · have : k * ((n + 1 : Nat) : Int) = k * n + k := by push_cast; ring
        rw [this] at hn
        linarith
    | done s1 => exact ⟨_, rfl⟩
    | fail => exact ⟨_, rfl⟩
    | panic => exact ⟨_, rfl⟩

theorem stateAfter_A_zero (program : List Int) (n : Nat) (s0 s : State) (h0 : s0.A = 0)
    (h : stateAfter loopDenom program n s0 = some s) : s.A = 0 := by
  induction n generalizing s0 with
  | zero =>
    simp [stateAfter] at h
    subst h
    exact h0
  | succ n ih =>
    rw [stateAfter] at h
    cases hs : step loopDenom program s0 with
    | next s1 =>
      rw [hs] at h
      exact ih s1 (step_next_A_zero _ _ _ h0 hs) h
    | done s1 => rw [hs] at h; simp at h
    | fail => rw [hs] at h; simp at h
    | panic => rw [hs] at h; simp at h

/-- Without a jump instruction at an even pointer the pointer stays even. -/
theorem stateAfter_IP_even (program : List Int)
    (hno : ∀ i : Int, i % 2 = 0 → index program i ≠ some 3) (n : Nat) (s0 s : State)
    (h0 : s0.IP % 2 = 0) (h : stateAfter loopDenom program n s0 = some s) : s.IP % 2 = 0 := by
  induction n generalizing s0 with
  | zero =>
    simp [stateAfter] at h
    subst h
    exact h0
  | succ n ih =>
    rw [stateAfter] at h
    cases hs : step loopDenom program s0 with
    | next s1 =>
      rw [hs] at h
      refine ih s1 ?_ h
      rcases step_next_IP _ _ _ _ hs with h2 | ⟨h3, _, _⟩
      · omega
      · exact absurd h3 (hno _ h0)
    | done s1 => rw [hs] at h; simp at h
    | fail => rw [hs] at h; simp at h
    | panic => rw [hs] at h; simp at h

/-- The program `[0, 3, 5, 4]` has no entry 3 at an even index. -/
theorem no_jump_example (i : Int) (h : i % 2 = 0) : index [0, 3, 5, 4] i ≠ some 3 := by
  intro h3
  obtain ⟨h0, h1⟩ := index_some h3
  have : i = 0 ∨ i = 2 := by
    simp only [List.length_cons, List.length_nil] at h1
    omega
  rcases this with rfl | rfl <;> exact absurd h3 (by decide)

/-- In `[3, 4, 5, 1, 5, 2]` the only entry 3 is followed by 4. -/
theorem forward_jumps_example2 (i t : Int) (h3 : index [3, 4, 5, 1, 5, 2] i = some 3)
    (ht : index [3, 4, 5, 1, 5, 2] (i + 1) = some t) : i < t := by
  obtain ⟨h0, h1⟩ := index_some h3
  have : i = 0 ∨ i = 1 ∨ i = 2 ∨ i = 3 ∨ i = 4 ∨ i = 5 := by
    simp only [List.length_cons, List.length_nil] at h1
    omega
  rcases this with rfl | rfl | rfl | rfl | rfl | rfl
  · have : t = 4 := by
      have h5 : index [3, 4, 5, 1, 5, 2] (0 + 1) = some 4 := by decide
      rw [h5] at ht
      exact (Option.some.inj ht).symm
    omega
  all_goals exact absurd h3 (by decide)

end Day17

namespace Day11

open Day17 GoLib

/-! ## Decimal digits -/

theorem natDigits_eq_digits (fuel n : Nat) (acc : List Char) (hn : 0 < n) (h : n < fuel) :
    natDigits fuel n acc = ((Nat.digits 10 n).reverse).map digitChar ++ acc := by
  induction fuel generalizing n acc with
  | zero => omega
  | succ fuel ih =>
    rw [natDigits, Nat.digits_def' (by norm_num) hn]
    by_cases h0 : n / 10 = 0
    · rw [if_pos h0, h0]
      simp
    · rw [if_neg h0, ih (n / 10) _ (by omega) (by omega)]
      simp

theorem natRepr_eq_digits (n : Nat) (hn : 0 < n) :
    natRepr n = ((Nat.digits 10 n).reverse).map digitChar := by
  unfold natRepr
  rw [natDigits_eq_digits _ _ _ hn (by omega)]
  simp

theorem digitsValue_map_digitChar (ds : List Nat) (hds : ∀ d ∈ ds, d < 10) :
    digitsValue (ds.map digitChar) = Nat.ofDigits 10 ds.reverse := by
  induction ds using List.reverseRecOn with
  | nil => rfl
  | append_singleton l d ih =>
    rw [List.map_append, List.map_singleton, digitsValue_append_singleton,
      ih (fun x hx => hds x (List.mem_append_left _ hx)),
      digitChar_toNat (hds d (by simp)), List.reverse_append, List.reverse_singleton,
      List.singleton_append, Nat.ofDigits_cons]
    omega

theorem all_isDigit_map_digitChar (ds : List Nat) (hds : ∀ d ∈ ds, d < 10) :
    (ds.map digitChar).all isDigit = true := by
  rw [List.all_eq_true]
  intro c hc
  obtain ⟨d, hd, rfl⟩ := List.mem_map.mp hc
  have hd10 := hds d hd
  have := digitChar_toNat hd10
  simp [isDigit, this]
  omega

theorem digitsValue_eq_foldl (l : List Char) :
    digitsValue l = l.foldl (fun v c => 10 * v + (c.toNat - 48)) 0 := rfl

theorem foldl_digits_ge (l : List Char) (n : Nat) :
    n ≤ l.foldl (fun v c => 10 * v + (c.toNat - 48)) n := by
  induction l generalizing n with
  | nil => exact le_refl _
  | cons c rest ih =>
    rw [List.foldl_cons]
    exact le_trans (by omega) (ih _)

/-- On decimal digits whose number fits a Go int the loop of `ParseUint` reads the
number. -/
theorem parseUintLoop_digits (l : List Char) (n : Nat) (hl : l.all isDigit = true)
    (hfit : l.foldl (fun v c => 10 * v + (c.toNat - 48)) n < 2 ^ 63) :
    parseUintLoop l n = .value (l.foldl (fun v c => 10 * v + (c.toNat - 48)) n) := by
  induction l generalizing n with
  | nil => rfl
  | cons c rest ih =>
    rw [List.all_cons, Bool.and_eq_true] at hl
    rw [List.foldl_cons] at hfit ⊢
    have hge := foldl_digits_ge rest (10 * n + (c.toNat - 48))
    have h63 : (2 : Nat) ^ 63 = 9223372036854775808 := by norm_num
    rw [parseUintLoop, if_neg (by simp [hl.1]), if_neg (by omega), if_neg (by omega),
      show n * 10 + (c.toNat - 48) = 10 * n + (c.toNat - 48) by omega]
    exact ih _ hl.2 hfit

/-- On a non-empty string of decimal digits whose number fits a Go int, `Atoi` is the
number. -/
theorem Atoi_map_digitChar (ds : List Nat) (hds : ∀ d ∈ ds, d < 10) (hne : ds ≠ [])
    (hfit : Nat.ofDigits 10 ds.reverse < 2 ^ 63) :
    Atoi (ds.map digitChar) = (((Nat.ofDigits 10 ds.reverse : Nat) : Int), false) := by
  have hval := digitsValue_map_digitChar ds hds
  have hall := all_isDigit_map_digitChar ds hds
  rw [← hval] at hfit ⊢
  generalize hs : ds.map digitChar = s at hall hfit ⊢
  cases ds with
  | nil => exact absurd rfl hne
  | cons d rest =>
    have hd := hds d (by simp)
    have h1 := digitChar_ne_minus hd
    have h2 : digitChar d ≠ '+' := by interval_cases d <;> decide
    rw [List.map_cons] at hs
    subst hs
    have hp := parseUintLoop_digits _ 0 hall hfit
    rw [← digitsValue_eq_foldl] at hp
    have hlt : ((digitsValue (digitChar d :: List.map digitChar rest) : Nat) : Int) < 2 ^ 63 := by
      exact_mod_cast hfit
    unfold Atoi
    simp only [h1, h2, or_self, if_false, decide_False, hp]
    rw [if_neg (by simp), if_neg (by omega), if_neg (by simp)]
    simp

/-- The two halves of a number with `2 * h` decimal digits. -/
theorem split_halves (n h : Nat) (hn : 0 < n) (hlen : (Nat.digits 10 n).length = 2 * h)
    (hfit : n < 2 ^ 63) :
    (Atoi ((natRepr n).take h)).1 = ((n / 10 ^ h : Nat) : Int) ∧
      (Atoi ((natRepr n).drop h)).1 = ((n % 10 ^ h : Nat) : Int) := by
  have hlt : ∀ d ∈ Nat.digits 10 n, d < 10 := fun d hd => Nat.digits_lt_base (by norm_num) hd
  have hh : 0 < h := by
    rcases Nat.eq_zero_or_pos h with h0 | h0
    · subst h0
      have : Nat.digits 10 n = [] := List.length_eq_zero.mp (by simpa using hlen)
      rw [Nat.digits_eq_nil_iff_eq_zero] at this
      omega
    · exact h0
  have hdiv := Nat.self_div_pow_eq_ofDigits_drop h n (show 2 ≤ 10 by norm_num)
  have hsplit : n = Nat.ofDigits 10 ((Nat.digits 10 n).take h) +
      10 ^ h * Nat.ofDigits 10 ((Nat.digits 10 n).drop h) := by
    have := @Nat.ofDigits_append 10 ((Nat.digits 10 n).take h) ((Nat.digits 10 n).drop h)
    rw [List.take_append_drop, Nat.ofDigits_digits, List.length_take, hlen,
      Nat.min_eq_left (by omega)] at this
    exact this
  have htake_lt : Nat.ofDigits 10 ((Nat.digits 10 n).take h) < 10 ^ h := by
    have := @Nat.ofDigits_lt_base_pow_length 10 ((Nat.digits 10 n).take h) (by norm_num)
      (fun x hx => hlt x (List.mem_of_mem_take hx))
    rwa [List.length_take, hlen, Nat.min_eq_left (by omega)] at this
  have hmod : n % 10 ^ h = Nat.ofDigits 10 ((Nat.digits 10 n).take h) := by
    conv_lhs => rw [hsplit]
    rw [Nat.add_mul_mod_self_left, Nat.mod_eq_of_lt htake_lt]
  rw [natRepr_eq_digits n hn, ← List.map_take, ← List.map_drop, List.take_reverse,
    List.drop_reverse, hlen, show 2 * h - h = h by omega]
  constructor
  · rw [Atoi_map_digitChar _ (fun d hd => hlt d (List.mem_of_mem_drop (List.mem_reverse.mp hd)))
      (by
        intro hnil
        have := congrArg List.length hnil
        simp [hlen] at this
        omega)
      (by
        rw [List.reverse_reverse, ← hdiv]
        exact lt_of_le_of_lt (Nat.div_le_self _ _) hfit)]
    rw [List.reverse_reverse, hdiv]
  · rw [Atoi_map_digitChar _ (fun d hd => hlt d (List.mem_of_mem_take (List.mem_reverse.mp hd)))
      (by
        intro hnil
        have := congrArg List.length hnil
        simp [hlen] at this
        omega)
      (by
        rw [List.reverse_reverse, ← hmod]
        exact lt_of_le_of_lt (Nat.mod_le _ _) hfit)]
    rw [List.reverse_reverse, hmod]

theorem Itoa_length (num : Int) (hnum : 1 ≤ num) :
    (Itoa num).length = (Nat.digits 10 num.toNat).length := by
  unfold Itoa
  rw [if_neg (by omega), show num.natAbs = num.toNat by omega,
    natRepr_eq_digits _ (by omega)]
  simp

end Day11

namespace Day21

open Day17 GoLib

/-! ## The search ends -/

theorem explore_inv (P : State → Prop) (V : List GoString) (index : Int)
    (moves : List (GoString × GoString))
    (hmoves : ∀ e ∈ moves, e.2 ≠ [] → e.2 ≠ "None".toList →
      P ⟨e.2, index⟩ ∧ stateKey e.2 index ∈ V)
    (queue : List State) (visited : List GoString) (h : QueueInv P V queue visited) :
    QueueInv P V (explore index moves queue visited).1 (explore index moves queue visited).2 ∧
      (explore index moves queue visited).1.length + visited.length =
        queue.length + (explore index moves queue visited).2.length ∧
      queue.length ≤ (explore index moves queue visited).1.length := by
  induction moves generalizing queue visited with
  | nil => exact ⟨h, rfl, le_refl _⟩
  | cons e rest ih =>
    obtain ⟨m, neighbor⟩ := e
    have hrest : ∀ e ∈ rest, e.2 ≠ [] → e.2 ≠ "None".toList →
        P ⟨e.2, index⟩ ∧ stateKey e.2 index ∈ V :=
      fun e he => hmoves e (List.mem_cons_of_mem _ he)
    rw [explore]
    by_cases h1 : neighbor = [] ∨ neighbor = "None".toList
    · rw [if_pos h1]
      exact ih hrest queue visited h
    · rw [if_neg h1]
      by_cases h2 : stateKey neighbor index ∈ visited
      · rw [if_pos h2]
        exact ih hrest queue visited h
      · rw [if_neg h2]
        have hn := hmoves (m, neighbor) (List.mem_cons_self _ _)
          (fun hx => h1 (Or.inl hx)) (fun hx => h1 (Or.inr hx))
        have h' : QueueInv P V (queue ++ [⟨neighbor, index⟩])
            (stateKey neighbor index :: visited) := by
          refine ⟨?_, List.nodup_cons.mpr ⟨h2, h.2.1⟩, ?_⟩
          · intro st hst
            rcases List.mem_append.mp hst with hst | hst
            · exact h.1 st hst
            · rw [List.mem_singleton.mp hst]
              exact hn.1
          · intro k hk
            rcases List.mem_cons.mp hk with hk | hk
            · rw [hk]; exact hn.2
            · exact h.2.2 k hk
        obtain ⟨i1, i2, i3⟩ := ih hrest _ _ h'
        simp only [List.length_append, List.length_singleton, List.length_cons,
          List.length_nil] at i2 i3
        exact ⟨i1, by omega, by omega⟩

theorem byteAt_some (target : GoString) (i : Int) (h0 : 0 ≤ i) (h1 : i < target.length) :
    ∃ c, byteAt target i = some c := by
  unfold byteAt
  rw [if_neg (by omega)]
  have : i.toNat < target.length := by omega
  exact ⟨target[i.toNat], by rw [List.get?_eq_getElem?]; exact List.getElem?_eq_getElem this⟩

theorem press_inv (P : State → Prop) (V : List GoString) (target : GoString)
    (current : State) (h0 : 0 ≤ current.index)
    (hpress : ∀ c, current.index < target.length → byteAt target current.index = some c →
      current.button = byteToString c →
        P ⟨current.button, current.index + 1⟩ ∧
          stateKey current.button (current.index + 1) ∈ V)
    (queue : List State) (visited : List GoString) (h : QueueInv P V queue visited) :
    ∃ q v, press target current queue visited = .ok (q, v) ∧ QueueInv P V q v ∧
      q.length + visited.length = queue.length + v.length ∧ queue.length ≤ q.length := by
  unfold press
  by_cases h1 : current.index < target.length
  · rw [if_pos h1]
    obtain ⟨c, hc⟩ := byteAt_some target current.index h0 h1
    rw [hc]
    simp only
    by_cases h2 : current.button = byteToString c
    · rw [if_pos h2]
      by_cases h3 : stateKey current.button (current.index + 1) ∈ visited
      · rw [if_pos h3]
        exact ⟨queue, visited, rfl, h, rfl, le_refl _⟩
      · rw [if_neg h3]
        have hn := hpress c h1 hc h2
        refine ⟨_, _, rfl, ⟨?_, List.nodup_cons.mpr ⟨h3, h.2.1⟩, ?_⟩, ?_, ?_⟩
        · intro st hst
          rcases List.mem_append.mp hst with hst | hst
          · exact h.1 st hst
          · rw [List.mem_singleton.mp hst]
            exact hn.1
        · intro k hk
          rcases List.mem_cons.mp hk with hk | hk
          · rw [hk]; exact hn.2
          · exact h.2.2 k hk
        · simp only [List.length_append, List.length_singleton, List.length_cons,
            List.length_nil]
          omega
        · simp only [List.length_append, List.length_singleton, List.length_cons,
            List.length_nil]
          omega
    · rw [if_neg h2]
      exact ⟨queue, visited, rfl, h, rfl, le_refl _⟩
  · rw [if_neg h1]
    exact ⟨queue, visited, rfl, h, rfl, le_refl _⟩

/-- The inner loop, from a queue with at least `n` states: it does not panic, it returns
only at a state whose index is the length of the target, and else each of its `n`
iterations has taken one state from the queue and has added as many states as keys. -/
theorem level_inv (target : GoString) (adjacency : KeypadAdjacency) (P : State → Prop)
    (V : List GoString) (hP : Closed target adjacency P V) (steps : Int) (n : Nat)
    (queue : List State) (visited : List GoString) (h : QueueInv P V queue visited)
    (hn : n ≤ queue.length) :
    (∃ r, level target adjacency steps n queue visited = .returned r ∧
        ∃ st, P st ∧ st.index = target.length) ∨
      ∃ q v, level target adjacency steps n queue visited = .next q v ∧ QueueInv P V q v ∧
        q.length + visited.length + n = queue.length + v.length := by
  obtain ⟨c1, c2, c3, c4⟩ := hP
  induction n generalizing queue visited with
  | zero => exact Or.inr ⟨queue, visited, rfl, h, rfl⟩
  | succ n ih =>
    cases queue with
    | nil => simp at hn
    | cons current queue =>
      have hcur : P current := h.1 current (List.mem_cons_self _ _)
      rw [level]
      by_cases hlen : current.index = target.length
      · rw [if_pos hlen]
        exact Or.inl ⟨steps, rfl, current, hcur, hlen⟩
      · rw [if_neg hlen]
        have hq : QueueInv P V queue visited :=
          ⟨fun st hst => h.1 st (List.mem_cons_of_mem _ hst), h.2.1, h.2.2⟩
        obtain ⟨e1, e2, e3⟩ := explore_inv P V current.index
          (neighbours adjacency current.button)
          (fun e he hx hy => ⟨c3 current hcur e he hx hy, c2 _ (c3 current hcur e he hx hy)⟩)
          queue visited hq
        obtain ⟨q, v, hpr, p1, p2, p3⟩ := press_inv P V target current (c1 current hcur)
          (fun c hx hy hz => ⟨c4 current c hcur hx hy hz, c2 _ (c4 current c hcur hx hy hz)⟩)
          _ _ e1
        rw [hpr]
        simp only
        have hn2 : n ≤ q.length := by
          simp only [List.length_cons] at hn
          omega
        rcases ih q v p1 hn2 with hr | ⟨q2, v2, hl, i1, i2⟩
        · exact Or.inl hr
        · refine Or.inr ⟨q2, v2, hl, i1, ?_⟩
          simp only [List.length_cons]
          omega

theorem visited_length_le (P : State → Prop) (V : List GoString) (queue : List State)
    (visited : List GoString) (h : QueueInv P V queue visited) : visited.length ≤ V.length :=
  (List.Nodup.subperm h.2.1 (fun k hk => h.2.2 k hk)).length_le

/-- What the search returns, when it returns. -/
theorem bfsLoop_result (target : GoString) (adjacency : KeypadAdjacency) (P : State → Prop)
    (V : List GoString) (hP : Closed target adjacency P V) (fuel : Nat) (queue : List State)
    (steps : Int) (visited : List GoString) (h : QueueInv P V queue visited) (r : Res Int)
    (hr : bfsLoop target adjacency fuel queue steps visited = some r) :
    ∃ x, r = .ok x ∧ (x = -1 ∨ ∃ st, P st ∧ st.index = target.length) := by
  induction fuel generalizing queue steps visited with
  | zero => simp [bfsLoop] at hr
  | succ fuel ih =>
    rw [bfsLoop] at hr
    by_cases hq : queue.length > 0
    · rw [if_pos hq] at hr
      rcases level_inv target adjacency P V hP steps queue.length queue visited h
        (le_refl _) with ⟨x, hl, hst⟩ | ⟨q, v, hl, i1, _⟩
      · rw [hl] at hr
        simp only [Option.some.injEq] at hr
        exact ⟨x, hr.symm, Or.inr hst⟩
      · rw [hl] at hr
        exact ih q (steps + 1) v i1 hr
    · rw [if_neg hq] at hr
      simp only [Option.some.injEq] at hr
      exact ⟨-1, hr.symm, Or.inl rfl⟩

/-- The search returns within as many iterations of its outer loop as there are keys that
are not yet in `visited`, and one more. -/
theorem bfsLoop_terminates (target : GoString) (adjacency : KeypadAdjacency)
    (P : State → Prop) (V : List GoString) (hP : Closed target adjacency P V) (fuel : Nat)
    (queue : List State) (steps : Int) (visited : List GoString)
    (h : QueueInv P V queue visited)
    (hfuel : V.length + queue.length < fuel + visited.length) :
    ∃ r, bfsLoop target adjacency fuel queue steps visited = some r := by
  induction fuel generalizing queue steps visited with
  | zero =>
    have := visited_length_le P V queue visited h
    omega
  | succ fuel ih =>
    rw [bfsLoop]
    by_cases hq : queue.length > 0
    · rw [if_pos hq]
      rcases level_inv target adjacency P V hP steps queue.length queue visited h
        (le_refl _) with ⟨x, hl, _⟩ | ⟨q, v, hl, i1, i2⟩
      · rw [hl]
        exact ⟨_, rfl⟩
      · rw [hl]
        exact ih q (steps + 1) v i1 (by omega)
    · rw [if_neg hq]
      exact ⟨_, rfl⟩

/-! ## The states of a keypad -/

theorem neighbours_mem (adjacency : KeypadAdjacency) (b : GoString)
    (e : GoString × GoString) (he : e ∈ neighbours adjacency b) :
    e.2 ∈ allNeighbours adjacency := by
  induction adjacency with
  | nil => simp [neighbours] at he
  | cons entry rest ih =>
    obtain ⟨b1, moves⟩ := entry
    rw [neighbours] at he
    rw [allNeighbours]
    by_cases hb : b1 = b
    · rw [if_pos hb] at he
      exact List.mem_append_left _ (List.mem_map_of_mem _ he)
    · rw [if_neg hb] at he
      exact List.mem_append_right _ (ih he)

theorem keyUniverse_length (n : Nat) (buttons : List GoString) :
    (keyUniverse n buttons).length = buttons.length * (n + 1) := by
  induction buttons with
  | nil => simp [keyUniverse]
  | cons b rest ih =>
    rw [keyUniverse, List.length_append, ih, keysOf, List.length_map, List.length_range,
      List.length_cons]
    ring

theorem key_mem_universe (buttons : List GoString) (n : Nat) (st : State)
    (h : Good buttons n st) : stateKey st.button st.index ∈ keyUniverse n buttons := by
  obtain ⟨hb, h0, h1⟩ := h
  induction buttons with
  | nil => simp at hb
  | cons b rest ih =>
    rw [keyUniverse]
    rcases List.mem_cons.mp hb with hb | hb
    · apply List.mem_append_left
      rw [keysOf, List.mem_map]
      refine ⟨st.index.toNat, List.mem_range.mpr (by omega), ?_⟩
      rw [hb, Int.toNat_of_nonneg h0]
    · exact List.mem_append_right _ (ih hb)

/-- The states of the buttons of a keypad with an index up to the length of the target are
closed under the steps of the search. -/
theorem good_closed (start target : GoString) (adjacency : KeypadAdjacency) :
    Closed target adjacency (Good (start :: allNeighbours adjacency) target.length)
      (keyUniverse target.length (start :: allNeighbours adjacency)) := by
  refine ⟨fun st h => h.2.1, fun st h => key_mem_universe _ _ st h, ?_, ?_⟩
  · intro st h e he _ _
    exact ⟨List.mem_cons_of_mem _ (neighbours_mem adjacency _ e he), h.2.1, h.2.2⟩
  · intro st c h hlt _ _
    exact ⟨h.1, by have := h.2.1; show 0 ≤ st.index + 1; omega,
      by show st.index + 1 ≤ _; omega⟩

theorem start_inv (start target : GoString) (adjacency : KeypadAdjacency)
    (P : State → Prop) (hstart : P ⟨start, 0⟩)
    (hP : Closed target adjacency P (keyUniverse target.length (start :: allNeighbours adjacency))) :
    QueueInv P (keyUniverse target.length (start :: allNeighbours adjacency))
      [⟨start, 0⟩] [stateKey start 0] := by
  refine ⟨?_, List.nodup_singleton _, ?_⟩
  · intro st hst
    rw [List.mem_singleton.mp hst]
    exact hstart
  · intro k hk
    rw [List.mem_singleton.mp hk]
    exact hP.2.1 ⟨start, 0⟩ hstart

/-- A call of `BFS` returns within `buttons * (len(target) + 1) + 1` iterations of its outer
loop, where `buttons` counts `start` and the values of the inner maps. -/
theorem BFS_returns (start target : GoString) (adjacency : KeypadAdjacency) (fuel : Nat)
    (hfuel : ((allNeighbours adjacency).length + 1) * (target.length + 1) < fuel) :
    ∃ x, BFS fuel start target adjacency = some (.ok x) := by
  have hP := good_closed start target adjacency
  have h0 := start_inv start target adjacency _
    ⟨List.mem_cons_self _ _, le_refl _, by simp⟩ hP
  obtain ⟨r, hr⟩ := bfsLoop_terminates target adjacency _ _ hP fuel _ 0 _ h0 (by
    rw [keyUniverse_length]
    simp only [List.length_cons, List.length_nil]
    omega)
  obtain ⟨x, hx, _⟩ := bfsLoop_result target adjacency _ _ hP fuel _ 0 _ h0 r hr
  exact ⟨x, by rw [BFS, hr, hx]⟩

theorem reachable_mem (start : GoString) (adjacency : KeypadAdjacency) (b : GoString)
    (h : Reachable adjacency start b) : b ∈ start :: allNeighbours adjacency := by
  induction h with
  | first => exact List.mem_cons_self _ _
  | move _ he _ _ _ => exact List.mem_cons_of_mem _ (neighbours_mem adjacency _ _ he)

/-- A target with a byte that names no reachable button: the search never returns a number
of steps. -/
theorem BFS_untypable (start target : GoString) (adjacency : KeypadAdjacency) (i0 : Nat)
    (c : Char) (hc : target.get? i0 = some c)
    (hno : ∀ b, Reachable adjacency start b → b ≠ byteToString c) (fuel : Nat) (r : Res Int)
    (hr : BFS fuel start target adjacency = some r) : r = .ok (-1) := by
  have hi0 : i0 < target.length := (List.get?_eq_some.mp hc).1
  have hP : Closed target adjacency
      (fun st => Good (start :: allNeighbours adjacency) target.length st ∧
        Reachable adjacency start st.button ∧ st.index ≤ i0)
      (keyUniverse target.length (start :: allNeighbours adjacency)) := by
    obtain ⟨g1, g2, g3, g4⟩ := good_closed start target adjacency
    refine ⟨fun st h => g1 st h.1, fun st h => g2 st h.1, ?_, ?_⟩
    · intro st h e he hx hy
      exact ⟨g3 st h.1 e he hx hy, Reachable.move h.2.1 he hx hy, h.2.2⟩
    · intro st c1 h hlt hb hbut
      refine ⟨g4 st c1 h.1 hlt hb hbut, h.2.1, ?_⟩
      show st.index + 1 ≤ i0
      have hle := h.2.2
      have h0 := h.1.2.1
      by_contra hcon
      have heq : st.index = i0 := by omega
      unfold byteAt at hb
      rw [if_neg (by omega), heq, Int.toNat_ofNat, hc] at hb
      have hcc : c1 = c := (Option.some.inj hb).symm
      rw [hcc] at hbut
      exact hno st.button h.2.1 hbut
  have h0 := start_inv start target adjacency _
    ⟨⟨List.mem_cons_self _ _, le_refl _, by simp⟩, Reachable.first, by simp⟩ hP
  obtain ⟨x, hx, hcase⟩ := bfsLoop_result target adjacency _ _ hP fuel _ 0 _ h0 r hr
  rcases hcase with h1 | ⟨st, hst, hlen⟩
  · rw [hx, h1]
  · have := hst.2.2
    omega

/-! ## The directional keypad -/

theorem directional_buttons (b : GoString)
    (h : Reachable directionalKeypadAdjacency "A".toList b) :
    b = "^".toList ∨ b = "v".toList ∨ b = "<".toList ∨ b = ">".toList ∨ b = "A".toList := by
  have hall := reachable_mem _ _ _ h
  have hne : ∀ {x : GoString}, Reachable directionalKeypadAdjacency "A".toList x →
      x = "A".toList ∨ x ≠ "None".toList := by
    intro x hx
    cases hx with
    | first => exact Or.inl rfl
    | move _ _ _ hy => exact Or.inr hy
  rcases hne h with h1 | h1
  · simp [h1]
  · simp [allNeighbours, directionalKeypadAdjacency, keypadEntry] at hall
    simp at h1
    tauto

theorem digit_is_no_direction (c : Char) (hc : isDigit c = true) (b : GoString)
    (h : Reachable directionalKeypadAdjacency "A".toList b) : b ≠ byteToString c := by
  intro hb
  simp only [isDigit, Bool.and_eq_true, decide_eq_true_eq] at hc
  have hbs : byteToString c = [c] := by
    unfold byteToString
    rw [if_pos (by omega)]
  rw [hbs] at hb
  rcases directional_buttons b h with h1 | h1 | h1 | h1 | h1 <;>
  · rw [h1] at hb
    have := (List.cons.inj hb).1
    subst this
    revert hc
    decide

/-! ## The loop of `main` -/

theorem processCode_digit (fuel : Nat) (code : GoString) (total : Int)
    (hdigit : ∃ c ∈ code, isDigit c = true) (hfuel : 45 * (code.length + 1) < fuel) :
    processCode fuel code total = some (.ok total) := by
  obtain ⟨c, hc, hd⟩ := hdigit
  obtain ⟨i0, hi0⟩ := List.mem_iff_get?.mp hc
  have hne : ¬ code.length = 0 := by
    intro h
    rw [List.length_eq_zero] at h
    rw [h] at hc
    cases hc
  obtain ⟨x1, h1⟩ := BFS_returns "A".toList code numericKeypadAdjacency fuel (by
    rw [show (allNeighbours numericKeypadAdjacency).length = 44 from rfl]
    omega)
  obtain ⟨x2, h2⟩ := BFS_returns "A".toList code directionalKeypadAdjacency fuel (by
    rw [show (allNeighbours directionalKeypadAdjacency).length = 20 from rfl]
    omega)
  have h3 := BFS_untypable "A".toList code directionalKeypadAdjacency i0 c hi0
    (digit_is_no_direction c hd) fuel _ h2
  have hx2 : x2 = -1 := Res.ok.inj h3
  subst hx2
  unfold processCode
  rw [if_neg hne, h1, h2]
  simp only
  split_ifs <;> rfl

theorem mainLoop_digits (fuel : Nat) (codes : List GoString) (total : Int)
    (h : ∀ code ∈ codes, (∃ c ∈ code, isDigit c = true) ∧ 45 * (code.length + 1) < fuel) :
    mainLoop fuel codes total = some (.ok total) := by
  induction codes with
  | nil => rfl
  | cons code rest ih =>
    obtain ⟨hd, hf⟩ := h code (List.mem_cons_self _ _)
    rw [mainLoop, processCode_digit fuel code total hd hf]
    exact ih (fun c hc => h c (List.mem_cons_of_mem _ hc))

theorem exists_fuel (codes : List GoString) :
    ∃ fuel0 : Nat, ∀ code ∈ codes, 45 * (code.length + 1) < fuel0 := by
  induction codes with
  | nil => exact ⟨0, fun _ h => by cases h⟩
  | cons code rest ih =>
    obtain ⟨f, hf⟩ := ih
    refine ⟨max f (45 * (code.length + 1) + 1), ?_⟩
    intro c hc
    rcases List.mem_cons.mp hc with hc | hc
    · rw [hc]
      exact lt_of_lt_of_le (Nat.lt_succ_self _) (le_max_right _ _)
    · exact lt_of_lt_of_le (hf c hc) (le_max_left _ _)

/-! ## A target that cannot be typed -/

/-- The search of `day21/main1.go` on a target that cannot be typed, for the function as it
runs once the unused loop variable `moveCmd` is replaced by `_`. For every adjacency map,
start button and target string, `BFS` returns a number, within
`buttons * (len(target) + 1) + 1` iterations of its outer loop, where `buttons` counts the
start button and the values of the inner maps. When the target has a byte `b` such that
`string(b)` is not the name of a button reachable from `start` (by moves to neighbours other
than `""` and `"None"`), the number is `-1`. So `BFS("A", code, directionalKeypadAdjacency)`
is `-1` for every code with a decimal digit, each such code leaves `totalComplexity`
unchanged, and the total for a list of such codes is 0. -/
theorem untypable_target (start target : GoString) (adjacency : Day21.KeypadAdjacency) :
    (∀ fuel, ((Day21.allNeighbours adjacency).length + 1) * (target.length + 1) < fuel →
      ∃ x, Day21.BFS fuel start target adjacency = some (.ok x)) ∧
    (∀ c ∈ target, (∀ b, Day21.Reachable adjacency start b → b ≠ Day21.byteToString c) →
      ∀ fuel, ((Day21.allNeighbours adjacency).length + 1) * (target.length + 1) < fuel →
        Day21.BFS fuel start target adjacency = some (.ok (-1))) ∧
    (∀ code : GoString, (∃ c ∈ code, GoLib.isDigit c = true) →
      ∀ fuel, 21 * (code.length + 1) < fuel →
        Day21.BFS fuel "A".toList code Day21.directionalKeypadAdjacency = some (.ok (-1))) ∧
    (∀ (fuel : Nat) (code : GoString) (total : Int), (∃ c ∈ code, GoLib.isDigit c = true) →
      45 * (code.length + 1) < fuel → Day21.processCode fuel code total = some (.ok total)) ∧
    (∀ codes : List GoString, (∀ code ∈ codes, ∃ c ∈ code, GoLib.isDigit c = true) →
      ∃ fuel0, ∀ fuel, fuel0 ≤ fuel → Day21.mainLoop fuel codes 0 = some (.ok 0)) := by
  refine ⟨fun fuel hf => Day21.BFS_returns start target adjacency fuel hf, ?_, ?_, ?_, ?_⟩
  · intro c hc hno fuel hf
    obtain ⟨i0, hi0⟩ := List.mem_iff_get?.mp hc
    obtain ⟨x, hx⟩ := Day21.BFS_returns start target adjacency fuel hf
    rw [hx, Day21.BFS_untypable start target adjacency i0 c hi0 hno fuel _ hx]
  · rintro code ⟨c, hc, hd⟩ fuel hf
    obtain ⟨i0, hi0⟩ := List.mem_iff_get?.mp hc
    obtain ⟨x, hx⟩ := Day21.BFS_returns "A".toList code Day21.directionalKeypadAdjacency
      fuel (by
        rw [show (Day21.allNeighbours Day21.directionalKeypadAdjacency).length = 20 from rfl]
        omega)
    rw [hx, Day21.BFS_untypable _ code _ i0 c hi0 (Day21.digit_is_no_direction c hd) fuel _ hx]
  · intro fuel code total hd hf
    exact Day21.processCode_digit fuel code total hd hf
  · intro codes hcodes
    obtain ⟨fuel0, h0⟩ := Day21.exists_fuel codes
    exact ⟨fuel0, fun fuel hle => Day21.mainLoop_digits fuel codes 0
      (fun code hc => ⟨hcodes code hc, lt_of_lt_of_le (h0 code hc) hle⟩)⟩

/-! ## Examples -/

/-- A button named `"Ã"` (the bytes `0xC3 0x83`) types the target of the single byte
`0xC3`, because `string(target[0])` is the UTF-8 encoding of the code point `0xC3`. -/
theorem BFS_high_byte :
    BFS 3 [Char.ofNat 195, Char.ofNat 131] [Char.ofNat 195] [] = some (.ok 1) := by
  decide

/-- The code `029A` takes 12 steps on the numeric keypad and cannot be typed on the
directional keypad. -/
theorem BFS_numeric_code :
    BFS 13 "A".toList "029A".toList numericKeypadAdjacency = some (.ok 12) ∧
      BFS 13 "A".toList "029A".toList directionalKeypadAdjacency = some (.ok (-1)) := by
  decide

/-- Values of `strconv.Atoi`: a number beyond the Go ints in front of a byte that is no
digit is a range error, not a syntax error. -/
theorem Atoi_examples :
    Atoi "99999999999999999999x".toList = (2 ^ 63 - 1, true) ∧
      Atoi "-99999999999999999999".toList = (-(2 ^ 63), true) ∧
      Atoi "12x".toList = (0, true) ∧ Atoi "-".toList = (0, true) ∧
      Atoi [] = (0, true) ∧ Atoi "+7".toList = (7, false) ∧
      Atoi "-9223372036854775808".toList = (-(2 ^ 63), false) ∧
      Atoi "9223372036854775808".toList = (2 ^ 63 - 1, true) := by
  decide

end Day21

/-! ## The claims -/

open Day17

/-- C1. Round trip of the seed search: a value `A` other than `-1` returned by
`findMinimumAForSelfReplicatingProgram` (main2.go) or by
`findMinimumAForSelfReplicatingProgramImproved` (main2.2_copy.go) makes the interpreter of
the same file halt normally with the program itself as its output sequence, so that the
returned string is the joined program. -/
theorem seed_search_round_trip (fuel : Nat) (P : List Int) (A : Int) (hA : A ≠ -1) :
    (Main2.findMinimumAForSelfReplicatingProgram fuel P = some (.ok A) →
      execute loopDenom fuel A 0 0 P = some (.halted P) ∧
        Main2.executeProgram fuel A 0 0 P = some (.ok (joinInts P))) ∧
    (Main2Copy.findMinimumAForSelfReplicatingProgramImproved fuel P = some (.ok A) →
      execute shiftDenom fuel A 0 0 P = some (.halted P) ∧
        Main2Copy.executeProgram fuel A 0 0 P = some (.ok (joinInts P))) := by
  constructor
  · intro h
    simp only [Main2.findMinimumAForSelfReplicatingProgram] at h
    rcases scanLoop_ok _ _ _ _ _ h with ⟨_, _, h3, _⟩ | ⟨h1, _⟩
    · exact ⟨halted_of_result_eq_target _ _ _ _ _ _ h3, h3⟩
    · exact absurd h1 hA
  · intro h
    simp only [Main2Copy.findMinimumAForSelfReplicatingProgramImproved] at h
    have key : Main2Copy.executeProgram fuel A 0 0 P = some (.ok (joinInts P)) := by
      split at h
      · simp at h
      · simp at h
      · rename_i A1 hc
        simp at h
        subst h
        exact coarseLoop_found _ _ _ _ _ _ _ hc
      · simp at h
        exact absurd h.symm hA
      · rcases scanLoop_ok _ _ _ _ _ h with ⟨_, _, h3, _⟩ | ⟨h1, _⟩
        · exact h3
        · exact absurd h1 hA
    exact ⟨halted_of_result_eq_target _ _ _ _ _ _ key, key⟩

/-- C1, on the digit-loop program, which the sequential search reproduces at `1900137152`,
and on the empty program, for which the improved search returns its first candidate. -/
theorem seed_search_round_trip_witness :
    (execute loopDenom 36 1900137152 0 0 [0, 3, 5, 4, 3, 0, 2, 1, 6, 1, 0] =
        some (.halted [0, 3, 5, 4, 3, 0, 2, 1, 6, 1, 0]) ∧
      Main2.executeProgram 36 1900137152 0 0 [0, 3, 5, 4, 3, 0, 2, 1, 6, 1, 0] =
        some (.ok (joinInts [0, 3, 5, 4, 3, 0, 2, 1, 6, 1, 0]))) ∧
    (execute shiftDenom 1 0 0 0 [] = some (.halted []) ∧
      Main2Copy.executeProgram 1 0 0 0 [] = some (.ok (joinInts []))) :=
  ⟨(seed_search_round_trip 36 digitLoopProgram 1900137152 (by decide)).1 digitLoop_search,
    (seed_search_round_trip 1 [] 0 (by decide)).2 (by decide)⟩

/-- C2. Minimality of the sequential search: when
`findMinimumAForSelfReplicatingProgram` returns `A` other than `-1`, no candidate `A1` with
`1900000000 ≤ A1 < A` reproduces the program: its run, whatever the bound on its iterations,
neither returns the joined program nor halts with the program as output. -/
theorem sequential_search_minimal (fuel : Nat) (P : List Int) (A : Int) (hA : A ≠ -1)
    (h : Main2.findMinimumAForSelfReplicatingProgram fuel P = some (.ok A))
    (A1 : Int) (hlo : 1900000000 ≤ A1) (hhi : A1 < A) (fuel1 : Nat) :
    Main2.executeProgram fuel1 A1 0 0 P ≠ some (.ok (joinInts P)) ∧
      execute loopDenom fuel1 A1 0 0 P ≠ some (.halted P) := by
  simp only [Main2.findMinimumAForSelfReplicatingProgram] at h
  have hne : Main2.executeProgram fuel1 A1 0 0 P ≠ some (.ok (joinInts P)) := by
    rcases scanLoop_ok _ _ _ _ _ h with ⟨_, _, _, h4⟩ | ⟨h1, _⟩
    · obtain ⟨out, ho, hout⟩ := h4 A1 hlo hhi
      intro hc
      have := executeProgramWith_det _ _ _ _ _ ho hc
      simp at this
      exact hout this
    · exact absurd h1 hA
  refine ⟨hne, ?_⟩
  intro hc
  exact hne (result_of_halted _ _ _ _ _ _ _ hc)

/-- C2, on the digit-loop program: the search returns `1900137152`, and the candidate just
below it does not reproduce the program. -/
theorem sequential_search_minimal_witness :
    Main2.executeProgram 50 1900137151 0 0 [0, 3, 5, 4, 3, 0, 2, 1, 6, 1, 0] ≠
        some (.ok (joinInts [0, 3, 5, 4, 3, 0, 2, 1, 6, 1, 0])) ∧
      execute loopDenom 50 1900137151 0 0 [0, 3, 5, 4, 3, 0, 2, 1, 6, 1, 0] ≠
        some (.halted [0, 3, 5, 4, 3, 0, 2, 1, 6, 1, 0]) :=
  sequential_search_minimal 36 digitLoopProgram 1900137152 (by decide) digitLoop_search
    1900137151 (by decide) (by decide) 50

/-- C3 fails: `parallelSearch` has the single statement `return -1`, so whatever the other
goroutines and the scheduler do, a call that returns, returns `-1`, and the value it returns
does not depend on the program. The seed `117440` reproduces the fixture program
`[0, 3, 5, 4, 3, 0]` under the interpreter of main3.go, and `parallelSearch` started at 0 on
this program never returns it. -/
theorem parallel_search_returns_no_seed :
    (∀ sch fuel program startA v,
      Main3.parallelSearch sch fuel program startA = some v → v = -1) ∧
    (∀ sch fuel program1 program2 startA,
      Main3.parallelSearch sch fuel program1 startA =
        Main3.parallelSearch sch fuel program2 startA) ∧
    Main3.executeProgram 20 117440 0 0 [0, 3, 5, 4, 3, 0] =
      some (.ok (joinInts [0, 3, 5, 4, 3, 0])) ∧
    (∀ sch fuel, Main3.parallelSearch sch fuel [0, 3, 5, 4, 3, 0] 0 ≠ some 117440) := by
  refine ⟨?_, fun _ _ _ _ _ => rfl, fixture_seed, ?_⟩
  · intro sch fuel program startA v h
    exact parallelSearchLoop_result sch _ _ _ _ _ h
  · intro sch fuel h
    have := parallelSearchLoop_result sch _ _ _ _ _ h
    omega

/-- C4. An opcode outside `0..7` does not fail in `day17/main2.go`: the lookup in
`operandTypes` misses and the loop is left by `break`, so the outputs accumulated so far are
returned. On `[5, 1, 8, 0]` the call returns `"1"`, not the empty string. -/
theorem invalid_opcode_returns_outputs :
    operandTypes 8 = none ∧
      execute loopDenom 2 0 0 0 [5, 1, 8, 0] = some (.halted [1]) ∧
      Main2.executeProgram 2 0 0 0 [5, 1, 8, 0] = some (.ok ['1']) ∧
      Main2.executeProgram 2 0 0 0 [5, 1, 8, 0] ≠ some (.ok []) := by
  decide

/-- C5. Combo operand 7 is a Fail: when a run reaches, after `n` iterations, a state whose
instruction has a combo-kind opcode (0, 2, 5, 6 or 7) and operand 7, that iteration ends in
`return ""` whatever the registers and the outputs so far, and the call returns the empty
string. -/
theorem combo_operand_seven_fails (program : List Int) (s0 s : State) (n fuel : Nat)
    (opcode : Int)
    (hreach : stateAfter loopDenom program n s0 = some s)
    (hop : index program s.IP = some opcode)
    (hkind : opcode = 0 ∨ opcode = 2 ∨ opcode = 5 ∨ opcode = 6 ∨ opcode = 7)
    (h7 : index program (s.IP + 1) = some 7) (hfuel : n < fuel) :
    step loopDenom program s = .fail ∧
      run loopDenom program fuel s0 = some .failed ∧
      ∀ A B C, s0 = initState A B C →
        Main2.executeProgram fuel A B C program = some (.ok []) := by
  have hstep : step loopDenom program s = .fail := by
    rw [step_fetch _ _ _ _ _ hop h7]
    rcases hkind with h | h | h | h | h <;> subst h <;> rfl
  have hrun : run loopDenom program fuel s0 = some .failed := by
    obtain ⟨k, rfl⟩ := Nat.exists_eq_add_of_lt hfuel
    rw [show n + k + 1 = n + (k + 1) by omega, stateAfter_run _ _ _ _ _ _ hreach, run, hstep]
  refine ⟨hstep, hrun, ?_⟩
  intro A B C h0
  subst h0
  simp only [Main2.executeProgram, executeProgramWith, execute, hrun]
  rfl

/-- C5, on `[5, 1, 2, 7]` from `A = 9`: the second instruction is `bst` with operand 7, and
the output 1 of the first instruction is not returned. -/
theorem combo_operand_seven_fails_witness :
    step loopDenom [5, 1, 2, 7] ⟨9, 0, 0, 2, [1]⟩ = .fail ∧
      run loopDenom [5, 1, 2, 7] 2 (initState 9 0 0) = some .failed ∧
      Main2.executeProgram 2 9 0 0 [5, 1, 2, 7] = some (.ok []) :=
  have h := combo_operand_seven_fails [5, 1, 2, 7] (initState 9 0 0) ⟨9, 0, 0, 2, [1]⟩ 1 2 2
    (by decide) (by decide) (by decide) (by decide) (by decide)
  ⟨h.1, h.2.1, h.2.2 9 0 0 rfl⟩

/-- C6 as stated fails at a shift count of 64: with `A = 64` the instruction `adv` with
operand 4 resolves its operand to 64, the doubled divisor has wrapped to 0 and the
iteration ends in `return ""` instead of setting `A` to `64 >> 64 = 0`. -/
theorem shift_by_64_fails :
    resolveOperand "combo" 4 ⟨64, 0, 0, 0, []⟩ = some 64 ∧
      step loopDenom [0, 4] ⟨64, 0, 0, 0, []⟩ = .fail ∧
      step loopDenom [0, 4] ⟨64, 0, 0, 0, []⟩ ≠ .next ⟨64 / 2 ^ 64, 0, 0, 2, []⟩ := by
  refine ⟨by decide, ?_, ?_⟩
  · rw [step_fetch _ _ _ 0 4 (by decide) (by decide)]
    show dispatch loopDenom 0 "combo" 64 _ = _
    rw [dispatch_zero]
    simp [divStep, loopDenom, denomLoop_large]
  · rw [step_fetch _ _ _ 0 4 (by decide) (by decide)]
    show dispatch loopDenom 0 "combo" 64 _ ≠ _
    rw [dispatch_zero]
    simp [divStep, loopDenom, denomLoop_large]

/-- C6, amended. For `0 ≤ A < 2^63` and a combo-resolved operand value `v` with
`0 ≤ v ≤ 63`, one iteration on opcode 0 sets `A` to `A / 2^v`, on opcode 6 sets `B` to
`A / 2^v` and on opcode 7 sets `C` to `A / 2^v`; the other registers and the outputs are
unchanged and the pointer advances by 2. For `v ≥ 64` the iteration ends in `return ""`. -/
theorem shift_instructions (program : List Int) (s : State) (opcode operand v : Int)
    (hop : index program s.IP = some opcode)
    (hoperand : index program (s.IP + 1) = some operand)
    (hA : 0 ≤ s.A) (hA2 : s.A < 2 ^ 63)
    (hres : resolveOperand "combo" operand s = some v) (hv : 0 ≤ v) :
    (v ≤ 63 →
      (opcode = 0 → step loopDenom program s =
        .next { s with A := s.A / 2 ^ v.toNat, IP := s.IP + 2 }) ∧
      (opcode = 6 → step loopDenom program s =
        .next { s with B := s.A / 2 ^ v.toNat, IP := s.IP + 2 }) ∧
      (opcode = 7 → step loopDenom program s =
        .next { s with C := s.A / 2 ^ v.toNat, IP := s.IP + 2 })) ∧
    (64 ≤ v → opcode = 0 ∨ opcode = 6 ∨ opcode = 7 →
      step loopDenom program s = .fail) := by
  have hstep := step_fetch loopDenom _ _ _ _ hop hoperand
  constructor
  · intro hv2
    refine ⟨?_, ?_, ?_⟩
    · intro h
      subst h
      rw [hstep]
      show (match resolveOperand "combo" operand s with
        | none => Step.fail
        | some operandValue => dispatch loopDenom 0 "combo" operandValue s) = _
      rw [hres]
      simp only
      rw [dispatch_zero]
      obtain ⟨denom, hq, hd⟩ := (divStep_shift hA hA2 hv _).1 hv2
      rw [hd, hq]
    · intro h
      subst h
      rw [hstep]
      show (match resolveOperand "combo" operand s with
        | none => Step.fail
        | some operandValue => dispatch loopDenom 6 "combo" operandValue s) = _
      rw [hres]
      simp only
      rw [dispatch_six]
      obtain ⟨denom, hq, hd⟩ := (divStep_shift hA hA2 hv _).1 hv2
      rw [hd, hq]
    · intro h
      subst h
      rw [hstep]
      show (match resolveOperand "combo" operand s with
        | none => Step.fail
        | some operandValue => dispatch loopDenom 7 "combo" operandValue s) = _
      rw [hres]
      simp only
      rw [dispatch_seven]
      obtain ⟨denom, hq, hd⟩ := (divStep_shift hA hA2 hv _).1 hv2
      rw [hd, hq]
  · intro hv2 hk
    rw [hstep]
    rcases hk with h | h | h <;> subst h
    · show (match resolveOperand "combo" operand s with
        | none => Step.fail
        | some operandValue => dispatch loopDenom 0 "combo" operandValue s) = _
      rw [hres]
      simp only
      rw [dispatch_zero]
      exact (divStep_shift hA hA2 hv _).2 hv2
    · show (match resolveOperand "combo" operand s with
        | none => Step.fail
        | some operandValue => dispatch loopDenom 6 "combo" operandValue s) = _
      rw [hres]
      simp only
      rw [dispatch_six]
      exact (divStep_shift hA hA2 hv _).2 hv2
    · show (match resolveOperand "combo" operand s with
        | none => Step.fail
        | some operandValue => dispatch loopDenom 7 "combo" operandValue s) = _
      rw [hres]
      simp only
      rw [dispatch_seven]
      exact (divStep_shift hA hA2 hv _).2 hv2

/-- C6 amended, on `A = 2024`: `cdv` with operand 3 stores `2024 / 8 = 253` in `C`, and
`bdv` with operand 4 (shift count 2024) fails. -/
theorem shift_instructions_witness :
    step loopDenom [7, 3] ⟨2024, 0, 0, 0, []⟩ = .next ⟨2024, 0, 253, 2, []⟩ ∧
      step loopDenom [6, 4] ⟨2024, 0, 0, 0, []⟩ = .fail :=
  ⟨((shift_instructions [7, 3] ⟨2024, 0, 0, 0, []⟩ 7 3 3 (by decide) (by decide) (by decide)
      (by decide) (by decide) (by decide)).1 (by decide)).2.2 rfl,
    (shift_instructions [6, 4] ⟨2024, 0, 0, 0, []⟩ 6 4 2024 (by decide) (by decide)
      (by decide) (by decide) (by decide) (by decide)).2 (by decide) (Or.inr (Or.inl rfl))⟩

/-- C7. Jump instruction: one iteration on opcode 3 with operand `n` sets the pointer to `n`
when `A ≠ 0` and to pointer + 2 when `A = 0`, and changes nothing else; an iteration on any
other opcode that runs to the end of the loop body advances the pointer by exactly 2. -/
theorem jump_and_advance (program : List Int) (s : State) (opcode operand : Int)
    (hop : index program s.IP = some opcode)
    (hoperand : index program (s.IP + 1) = some operand) :
    (opcode = 3 → step loopDenom program s =
      .next { s with IP := if s.A ≠ 0 then operand else s.IP + 2 }) ∧
    (opcode ≠ 3 → ∀ s1, step loopDenom program s = .next s1 → s1.IP = s.IP + 2) := by
  have hstep := step_fetch loopDenom _ _ _ _ hop hoperand
  constructor
  · intro h
    subst h
    rw [hstep]
    show dispatch loopDenom 3 "literal" operand s = _
    unfold dispatch
    by_cases hA : s.A ≠ 0
    · simp [hA]
    · simp [hA]
  · intro h3 s1 h
    rw [hstep] at h
    split at h
    · cases h
    · split at h
      · cases h
      · rename_i otype _ v _
        by_cases h0 : opcode = 0
        · subst h0
          rw [dispatch_zero] at h
          obtain ⟨denom, _, _, rfl⟩ := divStep_next h
          rfl
        by_cases h6 : opcode = 6
        · subst h6
          rw [dispatch_six] at h
          obtain ⟨denom, _, _, rfl⟩ := divStep_next h
          rfl
        by_cases h7 : opcode = 7
        · subst h7
          rw [dispatch_seven] at h
          obtain ⟨denom, _, _, rfl⟩ := divStep_next h
          rfl
        unfold dispatch at h
        rw [if_neg h0] at h
        split_ifs at h <;> cases h <;> rfl

/-- C7, on `[3, 4, 5, 1, 5, 2]`: the jump is taken with `A = 1`, not taken with `A = 0`, and
the `out` instruction at pointer 2 advances the pointer to 4. -/
theorem jump_and_advance_witness :
    step loopDenom [3, 4, 5, 1, 5, 2] ⟨1, 0, 0, 0, []⟩ = .next ⟨1, 0, 0, 4, []⟩ ∧
      step loopDenom [3, 4, 5, 1, 5, 2] ⟨0, 0, 0, 0, []⟩ = .next ⟨0, 0, 0, 2, []⟩ ∧
      (⟨0, 0, 0, 4, [1]⟩ : State).IP = 2 + 2 :=
  ⟨(jump_and_advance [3, 4, 5, 1, 5, 2] ⟨1, 0, 0, 0, []⟩ 3 4 (by decide) (by decide)).1 rfl,
    (jump_and_advance [3, 4, 5, 1, 5, 2] ⟨0, 0, 0, 0, []⟩ 3 4 (by decide) (by decide)).1 rfl,
    (jump_and_advance [3, 4, 5, 1, 5, 2] ⟨0, 0, 0, 2, []⟩ 5 1 (by decide) (by decide)).2
      (by decide) ⟨0, 0, 0, 4, [1]⟩ (by decide)⟩

/-- C8. Normal halt: when a run reaches, after `n` iterations, a loop head at which the
pointer is at least `len(program) - 1`, the call halts and returns exactly the outputs
accumulated so far; an empty or single-element program returns the empty output for every
initial registers. -/
theorem normal_halt :
    (∀ (program : List Int) (s0 s : State) (n fuel : Nat),
      stateAfter loopDenom program n s0 = some s → s.IP ≥ program.length - 1 → n < fuel →
        run loopDenom program fuel s0 = some (.halted s.outputs) ∧
        ∀ A B C, s0 = initState A B C →
          Main2.executeProgram fuel A B C program = some (.ok (joinInts s.outputs))) ∧
    (∀ (program : List Int) (A B C : Int) (fuel : Nat), program.length ≤ 1 → 0 < fuel →
      execute loopDenom fuel A B C program = some (.halted []) ∧
      Main2.executeProgram fuel A B C program = some (.ok [])) := by
  have main : ∀ (program : List Int) (s0 s : State) (n fuel : Nat),
      stateAfter loopDenom program n s0 = some s → s.IP ≥ program.length - 1 → n < fuel →
        run loopDenom program fuel s0 = some (.halted s.outputs) := by
    intro program s0 s n fuel hreach hip hfuel
    obtain ⟨k, rfl⟩ := Nat.exists_eq_add_of_lt hfuel
    rw [show n + k + 1 = n + (k + 1) by omega, stateAfter_run _ _ _ _ _ _ hreach, run,
      step_halt _ _ _ hip]
  constructor
  · intro program s0 s n fuel hreach hip hfuel
    have hrun := main program s0 s n fuel hreach hip hfuel
    refine ⟨hrun, ?_⟩
    intro A B C h0
    subst h0
    simp only [Main2.executeProgram, executeProgramWith, execute, hrun]
    rfl
  · intro program A B C fuel hlen hfuel
    have hrun := main program (initState A B C) (initState A B C) 0 fuel rfl
      (by show (0 : Int) ≥ program.length - 1; omega) hfuel
    refine ⟨hrun, ?_⟩
    simp only [Main2.executeProgram, executeProgramWith, execute, hrun]
    rfl

/-- C8, on `[5, 1, 3, 7]` from `A = 1` (the jump to 7 leaves the program after one output)
and on the single-element program `[5]`. -/
theorem normal_halt_witness :
    (run loopDenom [5, 1, 3, 7] 3 (initState 1 0 0) = some (.halted [1]) ∧
      Main2.executeProgram 3 1 0 0 [5, 1, 3, 7] = some (.ok (joinInts [1]))) ∧
    (execute loopDenom 1 4 5 6 [5] = some (.halted []) ∧
      Main2.executeProgram 1 4 5 6 [5] = some (.ok [])) :=
  have h := normal_halt.1 [5, 1, 3, 7] (initState 1 0 0) ⟨1, 0, 0, 7, [1]⟩ 2 3 (by decide)
    (by decide) (by decide)
  ⟨⟨h.1, h.2 1 0 0 rfl⟩, normal_halt.2 [5] 4 5 6 1 (by decide) (by decide)⟩

/-- C9 as stated fails for a negative register: Go's `%` keeps the sign of the dividend, so
`executeProgram(-1, 0, 0, [5, 4])` outputs `-1` and returns `"-1"`. A negative literal in
the program does the same from registers 0: `[1, -1, 5, 5]` outputs `-1`. -/
theorem negative_output :
    execute loopDenom 2 (-1) 0 0 [5, 4] = some (.halted [-1]) ∧
      Main2.executeProgram 2 (-1) 0 0 [5, 4] = some (.ok ['-', '1']) ∧
      execute loopDenom 3 0 0 0 [1, -1, 5, 5] = some (.halted [-1]) ∧
      ¬ (∀ x ∈ [(-1 : Int)], 0 ≤ x ∧ x ≤ 7) := by
  decide

/-- C9, amended. For a program of non-negative integers and non-negative initial registers
(`A` a Go int), every value of the output sequence of a halting run lies in `0..7`. -/
theorem output_range (fuel : Nat) (A B C : Int) (program outs : List Int)
    (hprog : ∀ x ∈ program, 0 ≤ x) (hA : 0 ≤ A) (hA2 : A < 2 ^ 63) (hB : 0 ≤ B) (hC : 0 ≤ C)
    (h : execute loopDenom fuel A B C program = some (.halted outs)) :
    Main2.executeProgram fuel A B C program = some (.ok (joinInts outs)) ∧
      ∀ x ∈ outs, 0 ≤ x ∧ x ≤ 7 :=
  ⟨result_of_halted _ _ _ _ _ _ _ h,
    run_inv program hprog fuel (initState A B C)
      ⟨hA, hA2, hB, hC, by intro x hx; cases hx⟩ outs h⟩

/-- C9 amended, on the fixture `[0, 3, 5, 4, 3, 0]` from `A = 2024`. -/
theorem output_range_witness :
    Main2.executeProgram 20 2024 0 0 [0, 3, 5, 4, 3, 0] = some (.ok (joinInts [5, 7, 3, 0])) ∧
      ∀ x ∈ [(5 : Int), 7, 3, 0], 0 ≤ x ∧ x ≤ 7 :=
  output_range 20 2024 0 0 [0, 3, 5, 4, 3, 0] [5, 7, 3, 0] (by decide) (by decide)
    (by decide) (by decide) (by decide) (by decide)

/-- C10. Search exhaustion: when every interpreter run on a candidate of the range returns,
`findMinimumAForSelfReplicatingProgram` returns `-1` if and only if no `A` in
`[1900000000, 10000000000000]` makes the run halt with the program as its output. -/
theorem search_exhaustion_iff (P : List Int)
    (hterm : ∀ A : Int, 1900000000 ≤ A → A ≤ 10000000000000 →
      ∃ fuel out, Main2.executeProgram fuel A 0 0 P = some (.ok out)) :
    (∃ fuel, Main2.findMinimumAForSelfReplicatingProgram fuel P = some (.ok (-1))) ↔
      ¬ ∃ A : Int, 1900000000 ≤ A ∧ A ≤ 10000000000000 ∧
          ∃ fuel, execute loopDenom fuel A 0 0 P = some (.halted P) := by
  constructor
  · rintro ⟨fuel, h⟩ ⟨A, hlo, hhi, fuel1, hrun⟩
    simp only [Main2.findMinimumAForSelfReplicatingProgram, main2_range] at h
    rcases scanLoop_ok _ _ _ _ _ h with ⟨h1, _⟩ | ⟨_, h2⟩
    · omega
    · obtain ⟨out, ho, hout⟩ := h2 A hlo (by push_cast; omega)
      have := executeProgramWith_det _ _ _ _ _ ho (result_of_halted _ _ _ _ _ _ _ hrun)
      simp at this
      exact hout this
  · intro hno
    obtain ⟨F, hF⟩ := uniform_fuel (fun fuel A => Main2.executeProgram fuel A 0 0 P)
      (fun f1 f2 A r hle h => executeProgramWith_mono _ _ _ _ _ _ hle h)
      9998100000001 1900000000
      (fun A h1 h2 => hterm A h1 (by push_cast at h2; omega))
    refine ⟨F, ?_⟩
    simp only [Main2.findMinimumAForSelfReplicatingProgram, main2_range]
    apply scanLoop_exhausted
    intro A h1 h2
    obtain ⟨out, ho⟩ := hF A h1 h2
    refine ⟨out, ho, ?_⟩
    intro hout
    subst hout
    exact hno ⟨A, h1, by push_cast at h2; omega, F, halted_of_result_eq_target _ _ _ _ _ _ ho⟩

/-- C10, on `[5, 0]`: every run outputs the single value 0 and returns `"0"`. -/
theorem search_exhaustion_iff_witness :
    (∃ fuel, Main2.findMinimumAForSelfReplicatingProgram fuel [5, 0] = some (.ok (-1))) ↔
      ¬ ∃ A : Int, 1900000000 ≤ A ∧ A ≤ 10000000000000 ∧
          ∃ fuel, execute loopDenom fuel A 0 0 [5, 0] = some (.halted [5, 0]) :=
  search_exhaustion_iff [5, 0] (fun _ _ _ => ⟨2, ['0'], rfl⟩)

/-- C11 as stated fails: on `[3, 0]` with `A = 1` the jump goes back to pointer 0 with the
registers unchanged, so no number of iterations ends the call. -/
theorem jump_to_self_never_returns :
    (¬ ∃ fuel o, execute loopDenom fuel 1 0 0 [3, 0] = some o) ∧
      ¬ ∃ fuel r, Main2.executeProgram fuel 1 0 0 [3, 0] = some r := by
  constructor
  · rintro ⟨fuel, o, h⟩
    rw [execute, initState, run_jump_to_self] at h
    cases h
  · rintro ⟨fuel, r, h⟩
    simp [Main2.executeProgram, executeProgramWith, execute, initState, run_jump_to_self] at h

/-- C11, amended. A call of `executeProgram` ends after at most `len(program)` executed
instructions when every jump that the run takes (an opcode 3 executed with `A ≠ 0`) goes to
a pointer larger than its own, and after at most `len(program) / 2` executed instructions
when the run takes no jump at all. The first holds for every program in which each entry 3
is followed by an entry larger than its index (forward jumps); the second holds for every
program without an entry 3 at an even index (no jump instruction) and for every program
when `A` is 0 at the start. -/
theorem terminates_when_jumps_go_forward (program : List Int) (A B C : Int) :
    ((∀ n s t, stateAfter loopDenom program n (initState A B C) = some s →
        index program s.IP = some 3 → s.A ≠ 0 → index program (s.IP + 1) = some t →
          s.IP < t) →
      (∃ o, execute loopDenom (program.length + 1) A B C program = some o) ∧
        ∃ r, Main2.executeProgram (program.length + 1) A B C program = some r) ∧
    ((∀ n s, stateAfter loopDenom program n (initState A B C) = some s →
        index program s.IP = some 3 → s.A = 0) →
      (∃ o, execute loopDenom (program.length / 2 + 1) A B C program = some o) ∧
        ∃ r, Main2.executeProgram (program.length / 2 + 1) A B C program = some r) ∧
    ((∀ i t, index program i = some 3 → index program (i + 1) = some t → i < t) →
      (∃ o, execute loopDenom (program.length + 1) A B C program = some o) ∧
        ∃ r, Main2.executeProgram (program.length + 1) A B C program = some r) ∧
    ((∀ i : Int, i % 2 = 0 → index program i ≠ some 3) →
      (∃ o, execute loopDenom (program.length / 2 + 1) A B C program = some o) ∧
        ∃ r, Main2.executeProgram (program.length / 2 + 1) A B C program = some r) ∧
    (A = 0 →
      (∃ o, execute loopDenom (program.length / 2 + 1) A B C program = some o) ∧
        ∃ r, Main2.executeProgram (program.length / 2 + 1) A B C program = some r) := by
  have hres : ∀ fuel, (∃ o, execute loopDenom fuel A B C program = some o) →
      (∃ o, execute loopDenom fuel A B C program = some o) ∧
        ∃ r, Main2.executeProgram fuel A B C program = some r := by
    rintro fuel ⟨o, ho⟩
    refine ⟨⟨o, ho⟩, o.result, ?_⟩
    simp [Main2.executeProgram, executeProgramWith, ho]
  have hforward : (∀ n s t, stateAfter loopDenom program n (initState A B C) = some s →
      index program s.IP = some 3 → s.A ≠ 0 → index program (s.IP + 1) = some t →
        s.IP < t) →
      (∃ o, execute loopDenom (program.length + 1) A B C program = some o) ∧
        ∃ r, Main2.executeProgram (program.length + 1) A B C program = some r := by
    intro hfwd
    apply hres
    apply run_progress program 1 program.length (initState A B C)
    · intro m s1 s2 h1 h2
      rcases step_next_IP _ _ _ _ h2 with h | ⟨h3, hA, ht⟩
      · omega
      · have := hfwd m s1 _ h1 h3 hA ht
        omega
    · show (program.length : Int) - 0 ≤ _
      omega
  have hnone : (∀ n s, stateAfter loopDenom program n (initState A B C) = some s →
      index program s.IP = some 3 → s.A = 0) →
      (∃ o, execute loopDenom (program.length / 2 + 1) A B C program = some o) ∧
        ∃ r, Main2.executeProgram (program.length / 2 + 1) A B C program = some r := by
    intro hno
    apply hres
    apply run_progress program 2 (program.length / 2) (initState A B C)
    · intro m s1 s2 h1 h2
      rcases step_next_IP _ _ _ _ h2 with h | ⟨h3, hA, _⟩
      · omega
      · exact absurd (hno m s1 h1 h3) hA
    · show (program.length : Int) - 0 ≤ _
      push_cast
      omega
  refine ⟨hforward, hnone, ?_, ?_, ?_⟩
  · intro hstatic
    exact hforward (fun _ s t _ h3 _ ht => hstatic s.IP t h3 ht)
  · intro hno3
    exact hnone (fun n s hst h3 =>
      absurd h3 (hno3 _
        (stateAfter_IP_even program hno3 n (initState A B C) s
          (by show (0 : Int) % 2 = 0; rfl) hst)))
  · intro hA
    exact hnone (fun n s hst _ => stateAfter_A_zero program n _ s hA hst)

/-- C11 amended, on `[0, 3, 5, 4]`, which has the entry 3 but no jump instruction, on
`[3, 4, 5, 1, 5, 2]`, whose jump goes forward to pointer 4, and on the fixture started with
`A = 0`, where no jump is taken. -/
theorem terminates_when_jumps_go_forward_witness :
    ((∃ o, execute loopDenom 3 9 0 0 [0, 3, 5, 4] = some o) ∧
        ∃ r, Main2.executeProgram 3 9 0 0 [0, 3, 5, 4] = some r) ∧
      ((∃ o, execute loopDenom 7 1 0 0 [3, 4, 5, 1, 5, 2] = some o) ∧
        ∃ r, Main2.executeProgram 7 1 0 0 [3, 4, 5, 1, 5, 2] = some r) ∧
      ((∃ o, execute loopDenom 4 0 7 7 [0, 3, 5, 4, 3, 0] = some o) ∧
        ∃ r, Main2.executeProgram 4 0 7 7 [0, 3, 5, 4, 3, 0] = some r) :=
  ⟨(terminates_when_jumps_go_forward [0, 3, 5, 4] 9 0 0).2.2.2.1 no_jump_example,
    (terminates_when_jumps_go_forward [3, 4, 5, 1, 5, 2] 1 0 0).2.2.1 forward_jumps_example2,
    (terminates_when_jumps_go_forward [0, 3, 5, 4, 3, 0] 0 7 7).2.2.2.2 rfl⟩

/-- C13 as stated fails when a jump goes to an odd pointer: on `[3, 1, 5, 5]` from `A = 1`
execution continues at pointer 1 and halts at pointer 3 with no output, while on
`[3, 1, 5, 5, 1]` the pair at pointer 3 is the instruction `out 1`. -/
theorem trailing_element_read_after_odd_jump :
    Main2.executeProgram 4 1 0 0 [3, 1, 5, 5] = some (.ok []) ∧
      Main2.executeProgram 4 1 0 0 ([3, 1, 5, 5] ++ [1]) = some (.ok ['1']) ∧
      Main2.executeProgram 4 1 0 0 ([3, 1, 5, 5] ++ [1]) ≠
        Main2.executeProgram 4 1 0 0 [3, 1, 5, 5] := by
  decide

/-- C13, amended. Trailing odd element is ignored when every jump goes to an even pointer:
for a program `P` of even length in which the operand of every opcode 3 at an even index is
even, `executeProgram(A, B, C, P ++ [x])` and `executeProgram(A, B, C, P)` end in the same
way, whatever the bound on the iterations. -/
theorem trailing_element_ignored (P : List Int) (x A B C : Int) (fuel : Nat)
    (hlen : P.length % 2 = 0)
    (hjump : ∀ i, i < P.length → i % 2 = 0 → P.getD i 0 = 3 → P.getD (i + 1) 0 % 2 = 0) :
    execute loopDenom fuel A B C (P ++ [x]) = execute loopDenom fuel A B C P ∧
      Main2.executeProgram fuel A B C (P ++ [x]) = Main2.executeProgram fuel A B C P := by
  have h : execute loopDenom fuel A B C (P ++ [x]) = execute loopDenom fuel A B C P :=
    run_append_singleton loopDenom P x hlen hjump fuel (initState A B C) rfl
  refine ⟨h, ?_⟩
  simp only [Main2.executeProgram, executeProgramWith, h]

/-- C13 amended, on the fixture `[0, 3, 5, 4, 3, 0]`, whose jump goes to pointer 0. -/
theorem trailing_element_ignored_witness :
    execute loopDenom 20 2024 0 0 ([0, 3, 5, 4, 3, 0] ++ [7]) =
        execute loopDenom 20 2024 0 0 [0, 3, 5, 4, 3, 0] ∧
      Main2.executeProgram 20 2024 0 0 ([0, 3, 5, 4, 3, 0] ++ [7]) =
        Main2.executeProgram 20 2024 0 0 [0, 3, 5, 4, 3, 0] :=
  trailing_element_ignored [0, 3, 5, 4, 3, 0] 7 2024 0 0 20 (by decide) (by decide)

/-- C14 as stated fails: the failing call `executeProgram(0, 0, 0, [0, 7])` and the normally
halting call `executeProgram(0, 0, 0, [])` both return the empty string. -/
theorem fail_equals_empty_halt :
    execute loopDenom 1 0 0 0 [0, 7] = some .failed ∧
      execute loopDenom 1 0 0 0 [] = some (.halted []) ∧
      Main2.executeProgram 1 0 0 0 [0, 7] = Main2.executeProgram 1 0 0 0 [] := by
  decide

/-- C14, amended. A failing run returns the empty string; a normally halting run returns
the same value exactly when it has no output, and a different value as soon as it has
output one value. -/
theorem fail_result (fuel1 fuel2 : Nat) (A1 B1 C1 A2 B2 C2 : Int) (P1 P2 outs : List Int)
    (hfail : execute loopDenom fuel1 A1 B1 C1 P1 = some .failed)
    (hhalt : execute loopDenom fuel2 A2 B2 C2 P2 = some (.halted outs)) :
    Main2.executeProgram fuel1 A1 B1 C1 P1 = some (.ok []) ∧
      (Main2.executeProgram fuel1 A1 B1 C1 P1 = Main2.executeProgram fuel2 A2 B2 C2 P2 ↔
        outs = []) := by
  have h1 : Main2.executeProgram fuel1 A1 B1 C1 P1 = some (.ok []) := by
    simp only [Main2.executeProgram, executeProgramWith, hfail]
    rfl
  have h2 : Main2.executeProgram fuel2 A2 B2 C2 P2 = some (.ok (joinInts outs)) :=
    result_of_halted _ _ _ _ _ _ _ hhalt
  refine ⟨h1, ?_⟩
  rw [h1, h2]
  constructor
  · intro h
    have : joinInts outs = [] := by
      simp at h
      exact h
    exact joinInts_eq_nil this
  · intro h
    subst h
    rfl

/-- C14 amended, on a failing call and on a halting call with the output 1. -/
theorem fail_result_witness :
    Main2.executeProgram 1 0 0 0 [0, 7] = some (.ok []) ∧
      (Main2.executeProgram 1 0 0 0 [0, 7] = Main2.executeProgram 2 0 0 0 [5, 1] ↔
        [(1 : Int)] = []) :=
  fail_result 1 2 0 0 0 0 0 0 [0, 7] [5, 1] [1] (by decide) (by decide)

/-- C15 as stated fails at the end of the Go ints: for `startA = 2 ^ 63 - 1` and
`blockSize = 2` the sum `startA + blockSize - 1` wraps around to `-2 ^ 63`, the loop body is
never entered and `worker` tests and sends nothing, although the run on `startA` returns
the target. -/
theorem worker_block_wraps :
    Main3.executeProgram 2 9223372036854775807 0 0 [5, 0] = some (.ok ['0']) ∧
      (∀ fuel turns, Main3.worker fuel (turns + 1) [5, 0] ['0'] 9223372036854775807 2 =
        some (.ok ⟨[], none⟩)) :=
  worker_at_max

/-- C15, amended. Worker block scan: let `startA` and `blockSize` be Go ints such that
`startA + blockSize - 1` is a Go int below the largest one, so that neither `endA` nor `A++`
wraps around. With `done` never ready and every interpreter run of the block returning,
`worker` returns, having tested the candidates `startA, startA+1, ...` in this order with
registers `(A, 0, 0)`. When it sends a value, this is the least `A` of the block whose run
returns the target, and it is the last candidate tested; when it sends nothing, no
candidate of the block returns the target and the whole block was tested. -/
theorem worker_block_scan (program : List Int) (target : GoString) (startA blockSize : Int)
    (hlo : -(2 ^ 63) ≤ startA) (hlow : -(2 ^ 63) ≤ startA + blockSize - 1)
    (hhi : startA + blockSize - 1 < 2 ^ 63 - 1)
    (hterm : ∀ A, startA ≤ A → A ≤ startA + blockSize - 1 →
      ∃ fuel out, Main3.executeProgram fuel A 0 0 program = some (.ok out)) :
    ∃ fuel turns w, Main3.worker fuel turns program target startA blockSize = some (.ok w) ∧
      (∀ A, w.sent = some A →
        startA ≤ A ∧ A ≤ startA + blockSize - 1 ∧
        Main3.executeProgram fuel A 0 0 program = some (.ok target) ∧
        (∀ A1 f, startA ≤ A1 → A1 < A →
          Main3.executeProgram f A1 0 0 program ≠ some (.ok target)) ∧
        w.tested = (List.range (A - startA + 1).toNat).map (fun (i : Nat) => startA + (i : Int))) ∧
      (w.sent = none →
        (∀ A1 f, startA ≤ A1 → A1 ≤ startA + blockSize - 1 →
          Main3.executeProgram f A1 0 0 program ≠ some (.ok target)) ∧
        w.tested = (List.range blockSize.toNat).map (fun (i : Nat) => startA + (i : Int))) := by
  have hend : wrap64 (startA + blockSize - 1) = startA + blockSize - 1 :=
    wrap64_id hlow (by omega)
  have hn : (startA + blockSize - 1 - startA + 1).toNat = blockSize.toNat := by
    congr 1
    ring
  obtain ⟨F, hF⟩ := uniform_fuel (fun fuel A => Main3.executeProgram fuel A 0 0 program)
    (fun f1 f2 A r hle h => executeProgramWith_mono _ _ _ _ _ _ hle h)
    blockSize.toNat startA (fun A h1 h2 => hterm A h1 (by omega))
  obtain ⟨w, hw⟩ := workerLoop_total (fun A => Main3.executeProgram F A 0 0 program) target
    (startA + blockSize - 1) hhi (blockSize.toNat + 1) startA hlo []
    (fun A h1 h2 => hF A h1 (by omega)) (by omega)
  have hdiff : ∀ A1 f out, Main3.executeProgram F A1 0 0 program = some (.ok out) →
      out ≠ target → Main3.executeProgram f A1 0 0 program ≠ some (.ok target) := by
    intro A1 f out ho hne hc
    have := executeProgramWith_det _ _ _ _ _ ho hc
    simp at this
    exact hne this
  refine ⟨F, blockSize.toNat + 1, w, ?_, ?_, ?_⟩
  · simp only [Main3.worker, hend]
    exact hw
  · intro A hs
    rcases workerLoop_spec _ _ _ hhi _ _ hlo _ _ hw with
      ⟨A2, h1, h2, h3, h4, h5, h6⟩ | ⟨h1, _, _⟩
    · rw [hs] at h1
      cases h1
      rw [List.nil_append] at h6
      refine ⟨h2, h3, h4, ?_, h6⟩
      intro A1 f ha hb
      obtain ⟨out, ho, hne⟩ := h5 A1 ha hb
      exact hdiff A1 f out ho hne
    · rw [hs] at h1
      cases h1
  · intro hs
    rcases workerLoop_spec _ _ _ hhi _ _ hlo _ _ hw with ⟨A2, h1, _⟩ | ⟨_, h2, h3⟩
    · rw [hs] at h1
      cases h1
    · rw [List.nil_append, hn] at h3
      refine ⟨?_, h3⟩
      intro A1 f ha hb
      obtain ⟨out, ho, hne⟩ := h2 A1 ha hb
      exact hdiff A1 f out ho hne

/-- C15 amended, on the program `[5, 0]`, which outputs 0 from every `A`, with the target
`"0"` and the block of 5 candidates from 7. -/
theorem worker_block_scan_witness :
    ∃ fuel turns w, Main3.worker fuel turns [5, 0] ['0'] 7 5 = some (.ok w) ∧
      (∀ A, w.sent = some A →
        7 ≤ A ∧ A ≤ 7 + 5 - 1 ∧
        Main3.executeProgram fuel A 0 0 [5, 0] = some (.ok ['0']) ∧
        (∀ A1 f, 7 ≤ A1 → A1 < A →
          Main3.executeProgram f A1 0 0 [5, 0] ≠ some (.ok ['0'])) ∧
        w.tested = (List.range (A - 7 + 1).toNat).map (fun (i : Nat) => 7 + (i : Int))) ∧
      (w.sent = none →
        (∀ A1 f, 7 ≤ A1 → A1 ≤ 7 + 5 - 1 →
          Main3.executeProgram f A1 0 0 [5, 0] ≠ some (.ok ['0'])) ∧
        w.tested = (List.range (5 : Int).toNat).map (fun (i : Nat) => 7 + (i : Int))) :=
  worker_block_scan [5, 0] ['0'] 7 5 (by decide) (by decide) (by decide)
    (fun _ _ _ => ⟨2, ['0'], rfl⟩)

/-- C16 as stated fails at the end of the Go ints: from `startA = 2 ^ 63 - 1` the second
value sent on `jobs` is `-2 ^ 63 + 99999`, because `A += blockSize` wraps around. -/
theorem block_start_wraps :
    Main3.dispatched 9223372036854775807 2 =
        [9223372036854775807, -9223372036854675809] ∧
      Main3.dispatched 9223372036854775807 2 ≠
        (List.range 2).map (fun (k : Nat) => 9223372036854775807 + (k : Int) * 100000) := by
  decide

/-- C16, amended. Block partition: let `startA` be a Go int and `n` such that
`startA + n * 100000` does not pass the largest Go int. The first `n` values that the
dispatch loop of `parallelSearch` sends on `jobs` are `startA + k * 100000` for
`k = 0, ..., n - 1`, in increasing order. A worker started on such a value `s` with the block
size 100000 tests `s, s + 1, ...` in this order: the whole block `[s, s + 99999]` when it
sends nothing, and the candidates up to the value `m` of the block that it sends else; it
returns when every run of the block returns. Two distinct blocks are disjoint, and the
first `n` blocks cover exactly `[startA, startA + n * 100000 - 1]`. -/
theorem block_partition (startA : Int) (n : Nat) (hlo : -(2 ^ 63) ≤ startA)
    (hhi : startA + n * 100000 < 2 ^ 63) :
    Main3.dispatched startA n = (List.range n).map (fun (k : Nat) => startA + (k : Int) * 100000) ∧
    (Main3.dispatched startA n).Pairwise (fun a b => a < b) ∧
    (∀ (k : Nat) fuel turns program target w, k < n →
      Main3.worker fuel turns program target (startA + k * 100000) Main3.blockSize =
          some (.ok w) →
        (w.sent = none →
          w.tested = (List.range 100000).map
            (fun (i : Nat) => startA + k * 100000 + (i : Int))) ∧
        (∀ m, w.sent = some m →
          startA + k * 100000 ≤ m ∧ m ≤ startA + k * 100000 + 99999 ∧
          w.tested = (List.range (m - (startA + k * 100000) + 1).toNat).map
            (fun (i : Nat) => startA + k * 100000 + (i : Int))) ∧
        (∀ x ∈ w.tested, startA + k * 100000 ≤ x ∧ x ≤ startA + k * 100000 + 99999)) ∧
    (∀ (k : Nat) program target, k < n →
      (∀ A, startA + k * 100000 ≤ A → A ≤ startA + k * 100000 + 99999 →
        ∃ fuel out, Main3.executeProgram fuel A 0 0 program = some (.ok out)) →
      ∃ fuel turns w,
        Main3.worker fuel turns program target (startA + k * 100000) Main3.blockSize =
          some (.ok w)) ∧
    (∀ j k : Nat, j ≠ k → ∀ x : Int,
      ¬ ((startA + j * 100000 ≤ x ∧ x ≤ startA + j * 100000 + 99999) ∧
        (startA + k * 100000 ≤ x ∧ x ≤ startA + k * 100000 + 99999))) ∧
    (∀ x : Int, (startA ≤ x ∧ x ≤ startA + n * 100000 - 1) ↔
      ∃ k : Nat, k < n ∧ startA + k * 100000 ≤ x ∧ x ≤ startA + k * 100000 + 99999) := by
  have hd : Main3.dispatched startA n =
      (List.range n).map (fun (k : Nat) => startA + (k : Int) * 100000) := by
    simp only [Main3.dispatched, Main3.blockSize]
    rw [dispatchLoop_jobs 100000 (by norm_num) n startA hlo (by omega), List.nil_append]
  have hblock : ∀ k : Nat, k < n → -(2 ^ 63) ≤ startA + (k : Int) * 100000 ∧
      startA + (k : Int) * 100000 + 100000 - 1 < 2 ^ 63 - 1 := by
    intro k hk
    have : (k : Int) + 1 ≤ n := by exact_mod_cast hk
    constructor <;> omega
  refine ⟨hd, ?_, ?_, ?_, ?_, ?_⟩
  · rw [hd, List.pairwise_map]
    exact List.Pairwise.imp (fun h => by omega) (List.pairwise_lt_range n)
  · intro k fuel turns program target w hk hw
    obtain ⟨b1, b2⟩ := hblock k hk
    simp only [Main3.worker, Main3.blockSize] at hw
    rw [wrap64_id (by omega) (by omega)] at hw
    rcases workerLoop_spec _ _ _ b2 _ _ b1 _ _ hw with
      ⟨A, h1, h2, h3, _, _, h6⟩ | ⟨h1, _, h3⟩
    · rw [List.nil_append] at h6
      refine ⟨?_, ?_, ?_⟩
      · intro hs
        rw [hs] at h1
        cases h1
      · intro m hm
        rw [hm] at h1
        cases h1
        exact ⟨h2, by omega, h6⟩
      · intro x hx
        rw [h6, List.mem_map] at hx
        obtain ⟨i, hi, rfl⟩ := hx
        rw [List.mem_range] at hi
        omega
    · rw [List.nil_append] at h3
      have hcount : (startA + (k : Int) * 100000 + 100000 - 1 -
          (startA + (k : Int) * 100000) + 1).toNat = 100000 := by
        have : startA + (k : Int) * 100000 + 100000 - 1 -
            (startA + (k : Int) * 100000) + 1 = 100000 := by ring
        rw [this]
        rfl
      rw [hcount] at h3
      refine ⟨fun _ => h3, ?_, ?_⟩
      · intro m hm
        rw [hm] at h1
        cases h1
      · intro x hx
        rw [h3, List.mem_map] at hx
        obtain ⟨i, hi, rfl⟩ := hx
        rw [List.mem_range] at hi
        omega
  · intro k program target hk hterm
    obtain ⟨b1, b2⟩ := hblock k hk
    obtain ⟨F, hF⟩ := uniform_fuel (fun fuel A => Main3.executeProgram fuel A 0 0 program)
      (fun f1 f2 A r hle h => executeProgramWith_mono _ _ _ _ _ _ hle h)
      100000 (startA + (k : Int) * 100000) (fun A h1 h2 => hterm A h1 (by push_cast at h2; omega))
    obtain ⟨w, hw⟩ := workerLoop_total (fun A => Main3.executeProgram F A 0 0 program) target
      (startA + (k : Int) * 100000 + 100000 - 1) b2 100002 (startA + (k : Int) * 100000) b1 []
      (fun A h1 h2 => hF A h1 (by push_cast; omega)) (by omega)
    refine ⟨F, 100002, w, ?_⟩
    simp only [Main3.worker, Main3.blockSize]
    rw [wrap64_id (by omega) (by omega)]
    exact hw
  · intro j k hjk x
    rcases Nat.lt_or_gt_of_ne hjk with h | h <;> omega
  · intro x
    constructor
    · rintro ⟨h1, h2⟩
      refine ⟨((x - startA) / 100000).toNat, ?_, ?_, ?_⟩ <;> omega
    · rintro ⟨k, hk, h1, h2⟩
      omega

/-- C16 amended, on the start `17160000000` of `main` and the first three blocks. -/
theorem block_partition_witness :
    Main3.dispatched 17160000000 3 =
        (List.range 3).map (fun (k : Nat) => 17160000000 + (k : Int) * 100000) ∧
      (Main3.dispatched 17160000000 3).Pairwise (fun a b => a < b) ∧
      Main3.dispatched 17160000000 3 = [17160000000, 17160100000, 17160200000] :=
  ⟨(block_partition 17160000000 3 (by decide) (by decide)).1,
    (block_partition 17160000000 3 (by decide) (by decide)).2.1, by decide⟩

/-- C17. A failing run never counts as a match: when the run from `(A, 0, 0)` ends in Fail,
the call returns the empty string, which differs from the joined program, so the loop of
`findMinimumAForSelfReplicatingProgram` goes on with `A + 1`, and the loop of `worker`, when
its condition `A <= endA` holds, goes on with `A + 1` (as a Go int) after recording `A` as
tested. -/
theorem failing_run_is_no_match (fuel : Nat) (P : List Int) (A : Int)
    (h : execute loopDenom fuel A 0 0 P = some .failed) :
    Main2.executeProgram fuel A 0 0 P = some (.ok []) ∧
      ([] : GoString) ≠ joinInts P ∧
      (∀ n, scanLoop (fun A => Main2.executeProgram fuel A 0 0 P) (joinInts P) (n + 1) A =
        scanLoop (fun A => Main2.executeProgram fuel A 0 0 P) (joinInts P) n (A + 1)) ∧
      (∀ endA n tested,
        workerLoop (fun A => Main3.executeProgram fuel A 0 0 P) (joinInts P) endA (n + 1) A
            tested =
          if A ≤ endA then
            workerLoop (fun A => Main3.executeProgram fuel A 0 0 P) (joinInts P) endA n
              (wrap64 (A + 1)) (tested ++ [A])
          else some (.ok ⟨tested, none⟩)) := by
  have h1 : Main2.executeProgram fuel A 0 0 P = some (.ok []) := by
    simp only [Main2.executeProgram, executeProgramWith, h]
    rfl
  have h3 : Main3.executeProgram fuel A 0 0 P = some (.ok []) := h1
  have hne : ([] : GoString) ≠ joinInts P := by
    intro hc
    have hp := joinInts_eq_nil hc.symm
    subst hp
    cases fuel with
    | zero => simp [execute, run] at h
    | succ fuel => simp [execute, run, step, initState] at h
  refine ⟨h1, hne, ?_, ?_⟩
  · intro n
    rw [scanLoop, h1]
    simp only
    rw [if_neg hne]
  · intro endA n tested
    rw [workerLoop]
    by_cases hle : A ≤ endA
    · rw [if_pos hle, if_pos hle, h3]
      simp only
      rw [if_neg hne]
    · rw [if_neg hle, if_neg hle]

/-- C17, on `[5, 1, 0, 7]` from `A = 3`: the second instruction has the combo operand 7. -/
theorem failing_run_is_no_match_witness :
    Main2.executeProgram 2 3 0 0 [5, 1, 0, 7] = some (.ok []) ∧
      ([] : GoString) ≠ joinInts [5, 1, 0, 7] ∧
      (∀ n, scanLoop (fun A => Main2.executeProgram 2 A 0 0 [5, 1, 0, 7])
          (joinInts [5, 1, 0, 7]) (n + 1) 3 =
        scanLoop (fun A => Main2.executeProgram 2 A 0 0 [5, 1, 0, 7])
          (joinInts [5, 1, 0, 7]) n (3 + 1)) ∧
      (∀ endA n tested,
        workerLoop (fun A => Main3.executeProgram 2 A 0 0 [5, 1, 0, 7])
            (joinInts [5, 1, 0, 7]) endA (n + 1) 3 tested =
          if 3 ≤ endA then
            workerLoop (fun A => Main3.executeProgram 2 A 0 0 [5, 1, 0, 7])
              (joinInts [5, 1, 0, 7]) endA n (wrap64 (3 + 1)) (tested ++ [3])
          else some (.ok ⟨tested, none⟩)) :=
  failing_run_is_no_match 2 [5, 1, 0, 7] 3 (by decide)

/-- C18 as stated fails: for the program of `main`, whatever the bound on the iterations of
the runs, `findMinimumAForSelfReplicatingProgram` returns no value other than `-1`. -/
theorem main_search_finds_nothing :
    ¬ ∃ fuel A, Main2.findMinimumAForSelfReplicatingProgram fuel
        [2, 4, 1, 5, 7, 5, 1, 6, 0, 3, 4, 2, 5, 5, 3, 0] = some (.ok A) ∧ A ≠ -1 := by
  rintro ⟨fuel, A, h, hA⟩
  simp only [Main2.findMinimumAForSelfReplicatingProgram, main2_range] at h
  rcases scanLoop_ok _ _ _ _ _ h with ⟨h1, h2, h3, _⟩ | ⟨h1, _⟩
  · obtain ⟨out, ho, hne⟩ := mainProgram_no_match A (by omega)
      (by norm_num; push_cast at h2; omega)
    have := executeProgramWith_det _ _ _ _ _ ho h3
    simp at this
    exact hne this
  · exact hA h1

/-- C18, amended. For the program of `main`, `findMinimumAForSelfReplicatingProgram` as
configured in main2.go returns `-1`: every run on a candidate of
`[1900000000, 10000000000000]` halts with at most 15 outputs, one for each division of `A`
by 8, and so does not reproduce the 16 values of the program. -/
theorem main_search_returns_not_found :
    Main2.findMinimumAForSelfReplicatingProgram 121 Main2.mainProgram = some (.ok (-1)) ∧
      ∀ A : Int, 1900000000 ≤ A → A ≤ 10000000000000 →
        ∃ outs, execute loopDenom 121 A 0 0 Main2.mainProgram = some (.halted outs) ∧
          0 < outs.length ∧ outs.length ≤ 15 ∧ outs ≠ Main2.mainProgram := by
  constructor
  · simp only [Main2.findMinimumAForSelfReplicatingProgram, main2_range]
    apply scanLoop_exhausted
    intro A h1 h2
    exact mainProgram_no_match A (by omega) (by norm_num; push_cast at h2; omega)
  · intro A h1 h2
    obtain ⟨outs1, hrun, hl1, hl2⟩ := mainProgram_run 14 A 0 0 [] (by omega)
      (by norm_num; omega) (by norm_num; omega)
    refine ⟨outs1, hrun, by simpa using hl1, by simpa using hl2, ?_⟩
    intro heq
    rw [heq] at hl2
    simp [Main2.mainProgram] at hl2

/-- C19. Regression fixture: `executeProgram(2024, 0, 0, [0, 3, 5, 4, 3, 0])` returns
`"5,7,3,0"`, the output sequence 5, 7, 3, 0, for every bound of at least 13 iterations; each
turn of the loop divides `A` by 8 and outputs `A mod 8` (253, 31, 3, 0), and the loop is
left when `A` is 0. -/
theorem regression_fixture (k : Nat) :
    execute loopDenom (13 + k) 2024 0 0 [0, 3, 5, 4, 3, 0] = some (.halted [5, 7, 3, 0]) ∧
      Main2.executeProgram (13 + k) 2024 0 0 [0, 3, 5, 4, 3, 0] =
        some (.ok "5,7,3,0".toList) ∧
      stateAfter loopDenom [0, 3, 5, 4, 3, 0] 3 (initState 2024 0 0) =
        some ⟨253, 0, 0, 0, [5]⟩ ∧
      stateAfter loopDenom [0, 3, 5, 4, 3, 0] 6 (initState 2024 0 0) =
        some ⟨31, 0, 0, 0, [5, 7]⟩ ∧
      stateAfter loopDenom [0, 3, 5, 4, 3, 0] 9 (initState 2024 0 0) =
        some ⟨3, 0, 0, 0, [5, 7, 3]⟩ ∧
      stateAfter loopDenom [0, 3, 5, 4, 3, 0] 12 (initState 2024 0 0) =
        some ⟨0, 0, 0, 6, [5, 7, 3, 0]⟩ := by
  have h13 : execute loopDenom 13 2024 0 0 [0, 3, 5, 4, 3, 0] =
      some (.halted [5, 7, 3, 0]) := by decide
  have hk : execute loopDenom (13 + k) 2024 0 0 [0, 3, 5, 4, 3, 0] =
      some (.halted [5, 7, 3, 0]) := run_mono _ _ _ _ (Nat.le_add_right _ _) h13
  refine ⟨hk, ?_, by decide, by decide, by decide, by decide⟩
  rw [Main2.executeProgram, result_of_halted _ _ _ _ _ _ _ hk]
  decide

/-- C20 fails on the program of `main` in main2.2_copy.go: for every bound of at least 20
iterations `findMinimumAForSelfReplicatingProgramImproved([0, 3, 5, 4, 3, 0])` returns `-1`,
although the seed `117440`, which lies in `1..1000000`, reproduces the program. -/
theorem improved_search_misses_seed (k : Nat) :
    Main2Copy.findMinimumAForSelfReplicatingProgramImproved (20 + k) [0, 3, 5, 4, 3, 0] =
        some (.ok (-1)) ∧
      Main2Copy.executeProgram (20 + k) 117440 0 0 [0, 3, 5, 4, 3, 0] =
        some (.ok (joinInts [0, 3, 5, 4, 3, 0])) ∧
      execute shiftDenom (20 + k) 117440 0 0 [0, 3, 5, 4, 3, 0] =
        some (.halted [0, 3, 5, 4, 3, 0]) := by
  have h : Main2Copy.executeProgram 20 117440 0 0 [0, 3, 5, 4, 3, 0] =
      some (.ok (joinInts [0, 3, 5, 4, 3, 0])) := by decide
  have hk := executeProgramWith_mono shiftDenom 117440 0 0 [0, 3, 5, 4, 3, 0] _
    (Nat.le_add_right 20 k) h
  exact ⟨improved_mono 20 k _ _ improved_on_mainProgram, hk,
    halted_of_result_eq_target _ _ _ _ _ _ hk⟩

/-- C21. Characterisation of Fail in main2.go: a call of `executeProgram` ends in one of the
`return ""` statements if and only if its run reaches a loop head whose instruction is
either a combo-kind opcode (0, 2, 5, 6, 7) with an operand outside `0..6`, or a division
(0, 6, 7) whose resolved operand value is 64 or more. The other `return ""` statements are
not reachable: an opcode that has a kind in `operandTypes` has the kind that its case checks
for (literal for 1 and 3, combo for 2 and 5) and is one of the cases 0 to 7 of the switch, and
every kind is one of the three that the operand switch knows. This holds for all programs and
registers, so also for the non-negative ones. -/
theorem fail_characterisation (program : List Int) (A B C : Int) :
    ((∃ fuel, execute loopDenom fuel A B C program = some .failed) ↔
      ∃ n s opcode operand,
        stateAfter loopDenom program n (initState A B C) = some s ∧
        index program s.IP = some opcode ∧ index program (s.IP + 1) = some operand ∧
        (((opcode = 0 ∨ opcode = 2 ∨ opcode = 5 ∨ opcode = 6 ∨ opcode = 7) ∧
            ¬ (0 ≤ operand ∧ operand ≤ 6)) ∨
          ((opcode = 0 ∨ opcode = 6 ∨ opcode = 7) ∧
            ∃ v, resolveOperand "combo" operand s = some v ∧ 64 ≤ v))) ∧
      ∀ opcode otype, operandTypes opcode = some otype →
        ((opcode = 1 ∨ opcode = 3) → otype = "literal") ∧
        ((opcode = 2 ∨ opcode = 5) → otype = "combo") ∧
        (0 ≤ opcode ∧ opcode ≤ 7) ∧
        (otype = "literal" ∨ otype = "combo" ∨ otype = "ignored") := by
  refine ⟨?_, ?_⟩
  · constructor
    · rintro ⟨fuel, h⟩
      obtain ⟨n, s, _, hst, hf⟩ := (run_failed_iff _ _ _ _).mp h
      obtain ⟨opcode, operand, h1, h2, h3⟩ := (step_fail_iff _ _).mp hf
      exact ⟨n, s, opcode, operand, hst, h1, h2, h3⟩
    · rintro ⟨n, s, opcode, operand, hst, h1, h2, h3⟩
      exact ⟨n + 1, (run_failed_iff _ _ _ _).mpr
        ⟨n, s, by omega, hst, (step_fail_iff _ _).mpr ⟨opcode, operand, h1, h2, h3⟩⟩⟩
  · intro opcode otype h
    unfold operandTypes at h
    split_ifs at h <;> simp at h <;> subst h <;> simp <;> omega

/-- C22. Output length of the program of `main` in main2.go: for every `A ≥ 0` (a Go int)
`executeProgram(A, 0, 0, P)` halts normally, within 169 iterations, and outputs exactly one
value for each base-8 digit of `A`, one value when `A = 0`. So for `A < 8 ^ 15` the output
is not the 16 values of `P` and the returned string is not the target, whatever the bound on
the iterations; this covers the range `[1900000000, 10000000000000]` of main2.go. -/
theorem canonical_output_length (A : Int) (hA : 0 ≤ A) (hA2 : A < 2 ^ 63) :
    ∃ outs, execute loopDenom 169 A 0 0 Main2.mainProgram = some (.halted outs) ∧
      Main2.executeProgram 169 A 0 0 Main2.mainProgram = some (.ok (joinInts outs)) ∧
      outs.length = (if A = 0 then 1 else (Nat.digits 8 A.toNat).length) ∧
      (A < 8 ^ 15 → outs ≠ Main2.mainProgram ∧
        ∀ fuel, Main2.executeProgram fuel A 0 0 Main2.mainProgram ≠
          some (.ok (joinInts Main2.mainProgram))) ∧
      (A ≤ 10000000000000 → A < 8 ^ 15) := by
  have key : ∃ k : Nat, k ≤ 20 ∧ A < 8 ^ (k + 1) ∧ (k = 0 ∨ (8 : Int) ^ k ≤ A) ∧
      k + 1 = (if A = 0 then 1 else (Nat.digits 8 A.toNat).length) := by
    by_cases h0 : A = 0
    · subst h0
      exact ⟨0, by omega, by norm_num, Or.inl rfl, by simp⟩
    · obtain ⟨n, rfl⟩ := Int.eq_ofNat_of_zero_le hA
      have hn : n ≠ 0 := by
        intro h; apply h0; simp [h]
      have h1 := Nat.pow_log_le_self 8 hn
      have h2 := Nat.lt_pow_succ_log_self (show 1 < 8 by norm_num) n
      refine ⟨Nat.log 8 n, ?_, by exact_mod_cast h2, Or.inr (by exact_mod_cast h1), ?_⟩
      · by_contra hlt
        have h21 : 8 ^ 21 ≤ 8 ^ Nat.log 8 n := Nat.pow_le_pow_right (by norm_num) (by omega)
        have : (n : Int) < 2 ^ 63 := hA2
        have : n < 2 ^ 63 := by exact_mod_cast this
        norm_num at h21 this
        omega
      · rw [if_neg h0, Int.toNat_ofNat, Nat.digits_len 8 n (by norm_num) hn]
  obtain ⟨k, hk20, hk, hlow, hlen⟩ := key
  obtain ⟨outs, hrun, hl⟩ := mainProgram_run_exact k A 0 0 [] hA hk hlow hA2
  have hrun169 : execute loopDenom 169 A 0 0 Main2.mainProgram = some (.halted outs) :=
    run_mono _ _ _ _ (by omega) hrun
  refine ⟨outs, hrun169, result_of_halted _ _ _ _ _ _ _ hrun169, ?_, ?_, ?_⟩
  · rw [← hlen, hl]
    simp
  · intro h15
    obtain ⟨out, ho, hne⟩ := mainProgram_no_match A hA h15
    constructor
    · intro heq
      rw [heq] at hrun169
      have := executeProgramWith_det _ _ _ _ _ ho (result_of_halted _ _ _ _ _ _ _ hrun169)
      simp at this
      exact hne this
    · intro fuel hf
      have := executeProgramWith_det _ _ _ _ _ ho hf
      simp at this
      exact hne this
  · intro h
    norm_num
    omega

/-- C22, on `A = 2024`, which is `3750` in base 8: four outputs. -/
theorem canonical_output_length_witness :
    Nat.digits 8 (2024 : Int).toNat = [0, 5, 7, 3] ∧ ∃ outs,
      execute loopDenom 169 2024 0 0 Main2.mainProgram = some (.halted outs) ∧
      Main2.executeProgram 169 2024 0 0 Main2.mainProgram = some (.ok (joinInts outs)) ∧
      outs.length = (if (2024 : Int) = 0 then 1 else (Nat.digits 8 (2024 : Int).toNat).length) ∧
      ((2024 : Int) < 8 ^ 15 → outs ≠ Main2.mainProgram ∧
        ∀ fuel, Main2.executeProgram fuel 2024 0 0 Main2.mainProgram ≠
          some (.ok (joinInts Main2.mainProgram))) ∧
      ((2024 : Int) ≤ 10000000000000 → (2024 : Int) < 8 ^ 15) :=
  ⟨by rw [show (2024 : Int).toNat = 2024 from rfl]; norm_num,
    canonical_output_length 2024 (by decide) (by decide)⟩

/-- C23. The interpreter variants agree. `executeProgram` of main3.go is `executeProgram` of
main2.go on every input, for every bound on the iterations. For a program of non-negative
integers and non-negative initial registers (`A` a Go int), `executeProgram` of
main2.2_copy.go, which computes the divisor as `1 << operandValue`, ends the same way and
returns the same value as the one of main2.go, for every bound on the iterations; the two
divisors are equal for every operand value that is not negative: `2 ^ v` up to 62,
`-2 ^ 63` at 63 and 0 from 64 on. -/
theorem interpreter_variants_agree (fuel : Nat) (A B C : Int) (program : List Int)
    (hprog : ∀ x ∈ program, 0 ≤ x) (hA : 0 ≤ A) (hA2 : A < 2 ^ 63) (hB : 0 ≤ B)
    (hC : 0 ≤ C) :
    (∀ fuel1 A1 B1 C1 program1,
      Main3.executeProgram fuel1 A1 B1 C1 program1 =
        Main2.executeProgram fuel1 A1 B1 C1 program1) ∧
      execute shiftDenom fuel A B C program = execute loopDenom fuel A B C program ∧
      Main2Copy.executeProgram fuel A B C program = Main2.executeProgram fuel A B C program ∧
      (∀ v : Int, 0 ≤ v → shiftDenom v = loopDenom v) ∧
      (∀ v : Int, 0 ≤ v → v ≤ 62 → shiftDenom v = .ok (2 ^ v.toNat)) ∧
      shiftDenom 63 = .ok (-(2 ^ 63)) ∧
      (∀ v : Int, 64 ≤ v → shiftDenom v = .ok 0) := by
  have hrun : execute shiftDenom fuel A B C program = execute loopDenom fuel A B C program :=
    run_shift_eq_loop program hprog fuel (initState A B C)
      ⟨hA, hA2, hB, hC, by intro x hx; cases hx⟩
  refine ⟨fun _ _ _ _ _ => rfl, hrun, ?_, shiftDenom_eq_loopDenom, ?_, ?_, ?_⟩
  · simp only [Main2Copy.executeProgram, Main2.executeProgram, executeProgramWith, hrun]
  · intro v hv hv2
    rw [shiftDenom_eq_loopDenom v hv, loopDenom, denomLoop_small _ (by omega)]
  · rw [shiftDenom_eq_loopDenom 63 (by norm_num)]
    show Res.ok (denomLoop 63 1) = _
    rw [denomLoop_63]
  · intro v hv
    rw [shiftDenom_eq_loopDenom v (by omega), loopDenom, denomLoop_large _ (by omega)]

/-- C23, on a program that divides by `2 ^ 63` (operand value 63 in register B) and by
`2 ^ 64` (operand value 64 in register C): both variants give `A = 0`, output it, and fail. -/
theorem interpreter_variants_agree_witness :
    Main2Copy.executeProgram 5 5 63 64 [0, 5, 5, 4, 0, 6] =
        Main2.executeProgram 5 5 63 64 [0, 5, 5, 4, 0, 6] ∧
      Main2.executeProgram 5 5 63 64 [0, 5, 5, 4, 0, 6] = some (.ok []) ∧
      execute loopDenom 5 5 63 64 [0, 5, 5, 4] = some (.halted [0]) :=
  ⟨(interpreter_variants_agree 5 5 63 64 [0, 5, 5, 4, 0, 6] (by decide) (by decide)
      (by decide) (by decide) (by decide)).2.2.1, overflowing_divisors.1,
    overflowing_divisors.2⟩

/-- C24. Register non-negativity: for a program of non-negative integers and initial
registers `A0, B0, C0 ≥ 0` (`A0` a Go int), after every number `n` of executed instructions
the registers `A`, `B`, `C` and the instruction pointer are not negative and `A` is at most
`A0`; no instruction increases `A`. The divisor of a division is the only value that wraps
around (it is `-2 ^ 63` after 63 doublings and 0 after 64): when the program entries, `B0`
and `C0` are Go ints too, all three registers stay below `2 ^ 63`. -/
theorem registers_stay_nonneg (program : List Int) (A0 B0 C0 : Int)
    (hprog : ∀ x ∈ program, 0 ≤ x) (hA : 0 ≤ A0) (hA2 : A0 < 2 ^ 63) (hB : 0 ≤ B0)
    (hC : 0 ≤ C0) :
    (∀ n s, stateAfter loopDenom program n (initState A0 B0 C0) = some s →
      0 ≤ s.A ∧ 0 ≤ s.B ∧ 0 ≤ s.C ∧ 0 ≤ s.IP ∧ s.A ≤ A0 ∧
        ∀ s1, step loopDenom program s = .next s1 →
          s1.A ≤ s.A ∧ 0 ≤ s1.A ∧ 0 ≤ s1.B ∧ 0 ≤ s1.C ∧ 0 ≤ s1.IP) ∧
      ((∀ x ∈ program, x < 2 ^ 63) → B0 < 2 ^ 63 → C0 < 2 ^ 63 →
        ∀ n s, stateAfter loopDenom program n (initState A0 B0 C0) = some s →
          s.A < 2 ^ 63 ∧ s.B < 2 ^ 63 ∧ s.C < 2 ^ 63) := by
  have h0 : Inv (initState A0 B0 C0) := ⟨hA, hA2, hB, hC, by intro x hx; cases hx⟩
  constructor
  · intro n s hst
    obtain ⟨hi, hip, hle, _⟩ :=
      stateAfter_regs program hprog n _ s h0 (le_refl _) hst
    refine ⟨hi.1, hi.2.2.1, hi.2.2.2.1, hip, hle, ?_⟩
    intro s1 hstep
    have hi1 := step_inv program hprog s s1 hi hstep
    exact ⟨(step_regs program hprog s s1 hi hstep).1, hi1.1, hi1.2.2.1, hi1.2.2.2.1,
      step_next_IP_nonneg program hprog s s1 hip hstep⟩
  · intro hp b1 c1 n s hst
    obtain ⟨hi, _, _, h4⟩ := stateAfter_regs program hprog n _ s h0 (le_refl _) hst
    exact ⟨hi.2.1, h4 hp b1 c1⟩

/-- C24, on the fixture `[0, 3, 5, 4, 3, 0]` from `A = 2024`: after three instructions `A`
is 253. -/
theorem registers_stay_nonneg_witness :
    (0 : Int) ≤ 253 ∧ (0 : Int) ≤ 0 ∧ (0 : Int) ≤ 0 ∧ (0 : Int) ≤ 0 ∧ (253 : Int) ≤ 2024 ∧
      ∀ s1, step loopDenom [0, 3, 5, 4, 3, 0] ⟨253, 0, 0, 0, [5]⟩ = .next s1 →
        s1.A ≤ 253 ∧ 0 ≤ s1.A ∧ 0 ≤ s1.B ∧ 0 ≤ s1.C ∧ 0 ≤ s1.IP :=
  (registers_stay_nonneg [0, 3, 5, 4, 3, 0] 2024 0 0 (by decide) (by decide) (by decide)
    (by decide) (by decide)).1 3 ⟨253, 0, 0, 0, [5]⟩ (by decide)

/-- C26 as stated fails for a number with 17 digits: `10 ^ 16 * 2024` does not fit the 64
bits of a Go `int`, and `makeStep(10000000000000000)` returns the wrapped product
`1793255926290448384`. -/
theorem product_wraps_around :
    (Nat.digits 10 10000000000000000).length = 17 ∧
      Day11.makeStep 10000000000000000 = (1793255926290448384, none) ∧
      Day11.makeStep 10000000000000000 ≠ (10000000000000000 * 2024, none) := by
  refine ⟨by norm_num, ?_, ?_⟩ <;> decide

/-- C26, amended. Stone step: `makeStep(0) = (1, nil)`; for every `num ≥ 1` (a Go int) whose
decimal representation has an even number `2 * h` of digits, `makeStep(num)` is
`(num / 10 ^ h, num mod 10 ^ h)`, and `left * 10 ^ h + right = num`; for every `num ≥ 1`
with an odd number of digits `makeStep(num)` is `(num * 2024, nil)` with the product wrapped
to 64 bits, which is `num * 2024` itself when `num * 2024 < 2 ^ 63`. -/
theorem stone_step (num : Int) (h : Nat) (hnum : 1 ≤ num) (hfit : num < 2 ^ 63) :
    Day11.makeStep 0 = (1, none) ∧
      ((Nat.digits 10 num.toNat).length = 2 * h →
        Day11.makeStep num = (num / 10 ^ h, some (num % 10 ^ h)) ∧
          num / 10 ^ h * 10 ^ h + num % 10 ^ h = num) ∧
      ((Nat.digits 10 num.toNat).length % 2 = 1 →
        Day11.makeStep num = (Day17.wrap64 (num * 2024), none) ∧
          (num * 2024 < 2 ^ 63 → Day11.makeStep num = (num * 2024, none))) := by
  have hlen := Day11.Itoa_length num hnum
  have h0 : num ≠ 0 := by omega
  refine ⟨by decide, ?_, ?_⟩
  · intro hl
    constructor
    · obtain ⟨n, rfl⟩ := Int.eq_ofNat_of_zero_le (by omega : 0 ≤ num)
      have hn : 0 < n := by omega
      have hfitn : n < 2 ^ 63 := by exact_mod_cast hfit
      rw [Int.toNat_ofNat] at hl
      have hs := Day11.split_halves n h hn hl hfitn
      have hI : Day17.Itoa (n : Int) = Day17.natRepr n := by
        unfold Day17.Itoa
        rw [if_neg (by omega)]
        rfl
      unfold Day11.makeStep
      simp only
      rw [if_neg h0, hlen, Int.toNat_ofNat, hl, if_pos (by omega),
        show 2 * h / 2 = h by omega, hI, hs.1, hs.2]
      push_cast
      rfl
    · exact Int.ediv_add_emod' num (10 ^ h)
  · intro hl
    have hstep : Day11.makeStep num = (Day17.wrap64 (num * 2024), none) := by
      unfold Day11.makeStep
      simp only
      rw [if_neg h0, hlen, if_neg (by omega)]
    refine ⟨hstep, ?_⟩
    intro hsmall
    rw [hstep]
    unfold Day17.wrap64
    congr 1
    omega

/-- C26 amended, on 2024 (four digits, split into 20 and 24) and on 125 (three digits). -/
theorem stone_step_witness :
    Day11.makeStep 0 = (1, none) ∧
      (Day11.makeStep 2024 = (2024 / 10 ^ 2, some (2024 % 10 ^ 2)) ∧
        (2024 : Int) / 10 ^ 2 * 10 ^ 2 + 2024 % 10 ^ 2 = 2024) ∧
      Day11.makeStep 2024 = (20, some 24) ∧
      Day11.makeStep 125 = (125 * 2024, none) :=
  ⟨(stone_step 2024 2 (by decide) (by decide)).1,
    (stone_step 2024 2 (by decide) (by decide)).2.1
      (by rw [show (2024 : Int).toNat = 2024 from rfl]; norm_num),
    by decide,
    ((stone_step 125 0 (by decide) (by decide)).2.2
      (by rw [show (125 : Int).toNat = 125 from rfl]; norm_num)).2 (by decide)⟩
